import Mathlib

/-!
# Dense linear algebra of the circuit simulator

A shallow embedding of `Vector.h` and `Matrix.h` (class templates `Vector<T>` and
`Matrix<T>`) and of the step loop of `Main.cpp`, together with the properties proved about
them.

Conventions of the embedding.

* A C++ exception is a value of `Error`; a member function that can throw returns
  `Except Error _`.
* A non-`const` member function returns the new state of its receiver.
* A read or write of the raw buffer `_data[k]` goes through the same bounds check as
  the checked accessors, so that an access outside the buffer would show up as an
  error instead of being undefined.
* A counted `for` loop whose bound does not change is `forLoop`; a `while` loop is a
  recursion on a fuel argument that ends in `Error.nontermination` when the fuel is used up.
* Where a claim is about the object after a throw, the member returns the outcome
  together with the state of the receiver (`forLoopKeep`, `setRow`, `setColumn`).
* A buffer that `new T[n]` returns holds arbitrary elements, given by a function `fresh`.
* Where a claim is about the objects that a call leaves behind, the objects live in a
  `Store`, at their addresses, and the member function takes the address of its receiver
  and returns the store with its result (`Store.computeInverse`).
* The driver is over the rationals, for the exact arithmetic that the claims about it ask.
-/

namespace Circuit

/-- The exceptions thrown by the containers, `std::out_of_range`, `std::domain_error`
and `std::logic_error`, and two markers for what the program leaves undefined. -/
inductive Error where
  | out_of_range
  | domain_error
  | logic_error
  /-- Not an exception: a division of scalars by zero, which the scalar type leaves
  undefined. -/
  | division_by_zero
  /-- Not an exception: a `while` loop of the model that used up its fuel. -/
  | nontermination
deriving DecidableEq, Repr

/-- Results and errors are compared by value. -/
instance instDecidableEqExcept {ε β : Type} [DecidableEq ε] [DecidableEq β] :
    DecidableEq (Except ε β)
  | .ok a, .ok b => if h : a = b then isTrue (by rw [h]) else isFalse (by intro h'; cases h'; exact h rfl)
  | .error a, .error b =>
    if h : a = b then isTrue (by rw [h]) else isFalse (by intro h'; cases h'; exact h rfl)
  | .ok _, .error _ => isFalse (by intro h; cases h)
  | .error _, .ok _ => isFalse (by intro h; cases h)

/-- The loop `for (size_t i = 0; i < n; ++i) body`, threading the state `s`:
the bodies for `0, 1, ..., n - 1` run in that order and the first error ends the loop. -/
def forLoop {σ : Type} (n : Nat) (body : Nat → σ → Except Error σ) (s : σ) : Except Error σ :=
  match n with
  | 0 => .ok s
  | k + 1 =>
    match forLoop k body s with
    | .ok s' => body k s'
    | .error e => .error e

/-! ## Vector.h -/

/-- The class `Vector<T>`: the buffer `_data`, whose length is `_size`. -/
structure Vector (α : Type) where
  data : List α
deriving DecidableEq, Repr

namespace Vector

variable {α : Type}

/-- The constructor `Vector(size, initialValue)`: `resize` then `initialize`. -/
def mk' (size : Nat) (initialValue : α) : Vector α :=
  ⟨List.replicate size initialValue⟩

/-- The observer `size()`. -/
def size (v : Vector α) : Nat := v.data.length

/-- The private `checkBounds(index)`. -/
def checkBounds (v : Vector α) (index : Nat) : Except Error Unit :=
  if index ≥ v.size then .error .out_of_range else .ok ()

/-- The private `checkMatchedSize(vector)`. -/
def checkMatchedSize (v vector : Vector α) : Except Error Unit :=
  if v.size ≠ vector.size then .error .domain_error else .ok ()

/-- The accessor `operator[](index) const`: `checkBounds(index)`, then `_data[index]`. -/
def get (v : Vector α) (index : Nat) : Except Error α :=
  if h : index < v.size then .ok (v.data.get ⟨index, h⟩) else .error .out_of_range

/-- An assignment through the reference returned by `operator[](index)`. -/
def set (v : Vector α) (index : Nat) (x : α) : Except Error (Vector α) :=
  if index < v.size then .ok ⟨v.data.set index x⟩ else .error .out_of_range

/-- The loop body of `dotProduct`: `product += _data[i] * rhs[i]`. -/
def dotProductBody [Add α] [Mul α] (v rhs : Vector α) (i : Nat) (product : α) :
    Except Error α :=
  match v.get i, rhs.get i with
  | .ok a, .ok b => .ok (product + a * b)
  | .error e, _ => .error e
  | _, .error e => .error e

/-- The observer `dotProduct(rhs)`. -/
def dotProduct [Zero α] [Add α] [Mul α] (v rhs : Vector α) : Except Error α :=
  match v.checkMatchedSize rhs with
  | .error e => .error e
  | .ok () => forLoop v.size (dotProductBody v rhs) 0

/-- The loop body of `operator+=`: `_data[i] += rhs[i]`. -/
def addAssignBody [Add α] (rhs : Vector α) (i : Nat) (v : Vector α) :
    Except Error (Vector α) :=
  match v.get i, rhs.get i with
  | .ok a, .ok b => v.set i (a + b)
  | .error e, _ => .error e
  | _, .error e => .error e

/-- The modifier `operator+=(rhs)`. -/
def addAssign [Add α] (v rhs : Vector α) : Except Error (Vector α) :=
  match v.checkMatchedSize rhs with
  | .error e => .error e
  | .ok () => forLoop v.size (addAssignBody rhs) v

/-- The loop body of `operator-=`: `_data[i] -= rhs[i]`. -/
def subAssignBody [Sub α] (rhs : Vector α) (i : Nat) (v : Vector α) :
    Except Error (Vector α) :=
  match v.get i, rhs.get i with
  | .ok a, .ok b => v.set i (a - b)
  | .error e, _ => .error e
  | _, .error e => .error e

/-- The modifier `operator-=(rhs)`. -/
def subAssign [Sub α] (v rhs : Vector α) : Except Error (Vector α) :=
  match v.checkMatchedSize rhs with
  | .error e => .error e
  | .ok () => forLoop v.size (subAssignBody rhs) v

/-- The observer `operator-(rhs) const`: the size check, a copy `difference` of the
receiver, then `difference -= rhs`. -/
def sub [Sub α] (v rhs : Vector α) : Except Error (Vector α) :=
  match v.checkMatchedSize rhs with
  | .error e => .error e
  | .ok () =>
    let difference : Vector α := v
    difference.subAssign rhs

end Vector

/-! ## Matrix.h -/

/-- The class `Matrix<T>`: `_numRows`, `_numColumns` and the row-major buffer `_data`,
which `resize` allocates with `numRows * numColumns` elements. -/
structure Matrix (α : Type) where
  numRows : Nat
  numColumns : Nat
  data : List α
  size_eq : data.length = numRows * numColumns
deriving DecidableEq, Repr

namespace Matrix

variable {α : Type}

/-- The offset `row * _numColumns + column` of an element within bounds lies in the buffer. -/
theorem offset_lt {numRows numColumns row column : Nat} (hr : row < numRows)
    (hc : column < numColumns) : row * numColumns + column < numRows * numColumns :=
  calc row * numColumns + column < row * numColumns + numColumns := Nat.add_lt_add_left hc _
    _ = (row + 1) * numColumns := (Nat.succ_mul row numColumns).symm
    _ ≤ numRows * numColumns := Nat.mul_le_mul_right _ hr

/-- The constructor `Matrix(numRows, numColumns, initialValue)`: `resize` then
`initialize`. -/
def mk' (numRows numColumns : Nat) (initialValue : α) : Matrix α :=
  ⟨numRows, numColumns, List.replicate (numRows * numColumns) initialValue, by simp⟩

/-- The private `checkBounds(row, column)`. -/
def checkBounds (m : Matrix α) (row column : Nat) : Except Error Unit :=
  if row ≥ m.numRows ∨ column ≥ m.numColumns then .error .out_of_range else .ok ()

/-- The private `checkMatchedSize(rhs)`. -/
def checkMatchedSize (m rhs : Matrix α) : Except Error Unit :=
  if m.numRows ≠ rhs.numRows ∨ m.numColumns ≠ rhs.numColumns then .error .domain_error
  else .ok ()

/-- The accessor `operator()(row, column) const`: `checkBounds(row, column)`, then
`_data[row * _numColumns + column]`. -/
def get (m : Matrix α) (row column : Nat) : Except Error α :=
  if h : row < m.numRows ∧ column < m.numColumns then
    .ok (m.data.get ⟨row * m.numColumns + column, m.size_eq ▸ offset_lt h.1 h.2⟩)
  else .error .out_of_range

/-- An assignment through the reference returned by `operator()(row, column)`. -/
def set (m : Matrix α) (row column : Nat) (x : α) : Except Error (Matrix α) :=
  if row < m.numRows ∧ column < m.numColumns then
    .ok ⟨m.numRows, m.numColumns, m.data.set (row * m.numColumns + column) x,
      by rw [List.length_set]; exact m.size_eq⟩
  else .error .out_of_range

/-- The observer `getRow(rowIndex)`. -/
def getRow [Zero α] (m : Matrix α) (rowIndex : Nat) : Except Error (Vector α) :=
  if rowIndex ≥ m.numRows then .error .out_of_range
  else
    forLoop m.numColumns
      (fun column row => do
        let x ← m.get rowIndex column
        row.set column x)
      (Vector.mk' m.numColumns 0)

/-- The observer `getColumn(columnIndex)`. -/
def getColumn [Zero α] (m : Matrix α) (columnIndex : Nat) : Except Error (Vector α) :=
  if columnIndex ≥ m.numColumns then .error .out_of_range
  else
    forLoop m.numRows
      (fun rowIndex column => do
        let x ← m.get rowIndex columnIndex
        column.set rowIndex x)
      (Vector.mk' m.numRows 0)

/-- The observer `operator*(const Matrix<T>& rhs) const`. -/
def mul [Zero α] [Add α] [Mul α] (m rhs : Matrix α) : Except Error (Matrix α) :=
  if m.numColumns ≠ rhs.numRows then .error .domain_error
  else
    let product : Matrix α := mk' m.numRows rhs.numColumns 0
    forLoop product.numRows
      (fun rowIndex product =>
        forLoop product.numColumns
          (fun columnIndex product => do
            let row ← m.getRow rowIndex
            let column ← rhs.getColumn columnIndex
            let x ← row.dotProduct column
            product.set rowIndex columnIndex x)
          product)
      product

/-- The observer `operator*(const Vector<T>& rhs) const`. -/
def mulVec [Zero α] [Add α] [Mul α] (m : Matrix α) (rhs : Vector α) :
    Except Error (Vector α) :=
  if m.numColumns ≠ rhs.size then .error .domain_error
  else
    let product : Vector α := Vector.mk' m.numRows 0
    forLoop product.size
      (fun rowIndex product => do
        let row ← m.getRow rowIndex
        let x ← row.dotProduct rhs
        product.set rowIndex x)
      product

/-- The scalar `operator/=` on an element: the quotient is undefined for a zero divisor. -/
def divide [Zero α] [Div α] [DecidableEq α] (x f : α) : Except Error α :=
  if f = 0 then .error .division_by_zero else .ok (x / f)

/-- The outcome of the pivot search: the row `i` and column `lead` of the pivot, or the
`return` taken when `lead` reaches `tmpColumns`. -/
inductive Search where
  | found (i lead : Nat)
  | exhausted
deriving DecidableEq, Repr

/-- The pivot search of `computeInverse`, started with `i = row`:
`while (tmp(i, lead) == T{}) { if (++i == rows) { i = row; if (++lead == tmpColumns) return; } }`.
Each unit of fuel pays for one evaluation of the loop condition. -/
def pivotSearch [Zero α] [DecidableEq α] (tmp : Matrix α) (rows tmpColumns row : Nat) :
    Nat → Nat → Nat → Except Error Search
  | 0, _, _ => .error .nontermination
  | fuel + 1, i, lead => do
    let x ← tmp.get i lead
    if x = 0 then
      if i + 1 = rows then
        if lead + 1 = tmpColumns then .ok .exhausted
        else pivotSearch tmp rows tmpColumns row fuel row (lead + 1)
      else pivotSearch tmp rows tmpColumns row fuel (i + 1) lead
    else .ok (.found i lead)

/-- The swap loop of `computeInverse`:
`for (column < tmpColumns) std::swap(tmp(i, column), tmp(row, column));`. -/
def swapRows (tmpColumns i row : Nat) (tmp : Matrix α) : Except Error (Matrix α) :=
  forLoop tmpColumns
    (fun column tmp => do
      let a ← tmp.get i column
      let b ← tmp.get row column
      let tmp ← tmp.set i column b
      tmp.set row column a)
    tmp

/-- The normalisation of `computeInverse`:
`if (tmp(row, lead) != T{}) { T f = tmp(row, lead); for (column < tmpColumns) tmp(row, column) /= f; }`. -/
def normalise [Zero α] [Div α] [DecidableEq α] (tmpColumns row lead : Nat) (tmp : Matrix α) :
    Except Error (Matrix α) := do
  let p ← tmp.get row lead
  if p ≠ 0 then
    let f ← tmp.get row lead
    forLoop tmpColumns
      (fun column tmp => do
        let x ← tmp.get row column
        let q ← divide x f
        tmp.set row column q)
      tmp
  else .ok tmp

/-- The elimination of `computeInverse`:
`for (j < rows) { if (j == row) continue; T f = tmp(j, lead);
for (column < tmpColumns) tmp(j, column) -= f * tmp(row, column); }`. -/
def eliminate [Mul α] [Sub α] (rows tmpColumns row lead : Nat) (tmp : Matrix α) :
    Except Error (Matrix α) :=
  forLoop rows
    (fun j tmp =>
      if j = row then .ok tmp
      else do
        let f ← tmp.get j lead
        forLoop tmpColumns
          (fun column tmp => do
            let y ← tmp.get row column
            let x ← tmp.get j column
            tmp.set j column (x - f * y))
          tmp)
    tmp

/-- The lambda `pivot` of `computeInverse`, from the loop state `row`, `lead`:
`for (row = 0, lead = 0; row < rows && lead < tmpColumns; ++row, ++lead) { ... }`.
Each unit of fuel pays for one evaluation of the loop condition. -/
def pivot [Zero α] [Mul α] [Sub α] [Div α] [DecidableEq α] (rows tmpColumns : Nat) :
    Nat → Nat → Nat → Matrix α → Except Error (Matrix α)
  | 0, _, _, _ => .error .nontermination
  | fuel + 1, row, lead, tmp =>
    if row < rows ∧ lead < tmpColumns then do
      match ← pivotSearch tmp rows tmpColumns row (rows * tmpColumns) row lead with
      | .exhausted => .ok tmp
      | .found i lead => do
        let tmp ← swapRows tmpColumns i row tmp
        let tmp ← normalise tmpColumns row lead tmp
        let tmp ← eliminate rows tmpColumns row lead tmp
        pivot rows tmpColumns fuel (row + 1) (lead + 1) tmp
    else .ok tmp

/-- The augmented workspace of `computeInverse`: `Matrix<T> tmp(rows, tmpColumns);`
`for (row < rows) { for (column < rows) tmp(row, column) = (*this)(row, column);
tmp(row, row + rows) = 1; }`. -/
def augmented [Zero α] [One α] (m : Matrix α) (rows tmpColumns : Nat) :
    Except Error (Matrix α) :=
  forLoop rows
    (fun row tmp => do
      let tmp ← forLoop rows
        (fun column tmp => do
          let x ← m.get row column
          tmp.set row column x)
        tmp
      tmp.set row (row + rows) 1)
    (mk' rows tmpColumns 0)

/-- The result of `computeInverse`: `Matrix<T> inv(rows, rows);`
`for (row < rows) for (column < rows) inv(row, column) = tmp(row, column + rows);`. -/
def rightHalf [Zero α] (tmp : Matrix α) (rows : Nat) : Except Error (Matrix α) :=
  forLoop rows
    (fun row inv =>
      forLoop rows
        (fun column inv => do
          let x ← tmp.get row (column + rows)
          inv.set row column x)
        inv)
    (mk' rows rows 0)

/-- The observer `computeInverse()`. -/
def computeInverse [Zero α] [One α] [Mul α] [Sub α] [Div α] [DecidableEq α] (m : Matrix α) :
    Except Error (Matrix α) :=
  let rows := m.numRows
  if rows ≠ m.numColumns then .error .logic_error
  else do
    let tmpColumns := 2 * rows
    let tmp ← augmented m rows tmpColumns
    let tmp ← pivot rows tmpColumns (rows + 1) 0 0 tmp
    rightHalf tmp rows

end Matrix

/-! ## Vector.h and Matrix.h, further members -/

/-- The loop `for (size_t i = 0; i < n; ++i) body` on an object that outlives an
exception: with the outcome it returns the state of the object, which after a throw is
the state that the rounds before the throwing one have left. -/
def forLoopKeep {σ : Type} (n : Nat) (body : Nat → σ → Except Error σ) (s : σ) :
    Except Error Unit × σ :=
  match n with
  | 0 => (.ok (), s)
  | k + 1 =>
    match forLoopKeep k body s with
    | (.ok (), s') =>
      match body k s' with
      | .ok s'' => (.ok (), s'')
      | .error e => (.error e, s')
    | (.error e, s') => (.error e, s')

namespace Vector

variable {α : Type}

/-- The private `resize(size)`: `_data = new T[size]`, whose elements are whatever the
allocation holds, `fresh i` at index `i`. -/
def resize (size : Nat) (fresh : Nat → α) : Vector α :=
  ⟨(List.range size).map fresh⟩

/-- The modifier `initialize(initialValue)`, a reserved word in Lean. -/
def fillWith (v : Vector α) (initialValue : α) : Except Error (Vector α) :=
  forLoop v.size (fun i v => v.set i initialValue) v

/-- The observer `operator-() const`: `Vector<T> negated; negated.resize(_size);`
`for (i < _size) negated[i] = -_data[i];`. -/
def neg [Neg α] (v : Vector α) (fresh : Nat → α) : Except Error (Vector α) :=
  forLoop v.size
    (fun i negated => do
      let x ← v.get i
      negated.set i (-x))
    (resize v.size fresh)

/-- The statement `v[index] += x`. -/
def addAt [Add α] (v : Vector α) (index : Nat) (x : α) : Except Error (Vector α) := do
  let y ← v.get index
  v.set index (y + x)

/-- The modifier `operator=(Vector<T>&& old)`: the receiver gives up its buffer and takes
over the buffer of `old`, which is left empty. The result is the receiver and `old` after
the assignment. -/
def moveAssign (_v old : Vector α) : Vector α × Vector α :=
  (⟨old.data⟩, ⟨[]⟩)

end Vector

namespace Matrix

variable {α : Type}

/-- The private `resize(numRows, numColumns)` on a matrix without a buffer:
`_data = new T[numRows * numColumns]`, whose elements are whatever the allocation holds,
`fresh k` at offset `k`. -/
def resize (numRows numColumns : Nat) (fresh : Nat → α) : Matrix α :=
  ⟨numRows, numColumns, (List.range (numRows * numColumns)).map fresh, by simp⟩

/-- The modifier `initialize(value)`, a reserved word in Lean. -/
def fillWith (m : Matrix α) (value : α) : Except Error (Matrix α) :=
  forLoop m.numRows
    (fun row m =>
      forLoop m.numColumns (fun column m => m.set row column value) m)
    m

/-- The constructor `Matrix(numRows, numColumns, initialValue)`, statement by statement:
`resize(numRows, numColumns); initialize(initialValue);`. -/
def construct (numRows numColumns : Nat) (initialValue : α) (fresh : Nat → α) :
    Except Error (Matrix α) :=
  (resize numRows numColumns fresh).fillWith initialValue

/-- The statement `m(row, column) += x`. -/
def addAt [Add α] (m : Matrix α) (row column : Nat) (x : α) : Except Error (Matrix α) := do
  let y ← m.get row column
  m.set row column (y + x)

/-- The modifier `setRow(rowIndex, row)`, with the state of the matrix after the call. -/
def setRow (m : Matrix α) (rowIndex : Nat) (row : Vector α) : Except Error Unit × Matrix α :=
  if rowIndex ≥ m.numRows then (.error .out_of_range, m)
  else if row.size ≠ m.numColumns then (.error .domain_error, m)
  else
    forLoopKeep m.numColumns
      (fun columnIndex m => do
        let x ← row.get columnIndex
        m.set rowIndex columnIndex x)
      m

/-- The modifier `setColumn(columnIndex, column)`, with the state of the matrix after the
call. The loop is `for (rowIndex = 0; rowIndex < _numColumns; ++rowIndex)`. -/
def setColumn (m : Matrix α) (columnIndex : Nat) (column : Vector α) :
    Except Error Unit × Matrix α :=
  if columnIndex ≥ m.numColumns then (.error .out_of_range, m)
  else if column.size ≠ m.numRows then (.error .domain_error, m)
  else
    forLoopKeep m.numColumns
      (fun rowIndex m => do
        let x ← column.get rowIndex
        m.set rowIndex columnIndex x)
      m

/-- The observer `operator-() const`: `Matrix<T> negated(_numRows, _numColumns);`
`for (row) for (column) negated(row, column) = (*this)(row, column);`. -/
def neg [Zero α] (m : Matrix α) : Except Error (Matrix α) :=
  forLoop m.numRows
    (fun row negated =>
      forLoop m.numColumns
        (fun column negated => do
          let x ← m.get row column
          negated.set row column x)
        negated)
    (mk' m.numRows m.numColumns 0)

/-- The modifier `operator+=(rhs)`. -/
def addAssign [Add α] (m rhs : Matrix α) : Except Error (Matrix α) :=
  match m.checkMatchedSize rhs with
  | .error e => .error e
  | .ok () =>
    forLoop m.numRows
      (fun row m =>
        forLoop m.numColumns
          (fun column m => do
            let x ← m.get row column
            let y ← rhs.get row column
            m.set row column (x + y))
          m)
      m

/-- The modifier `operator-=(rhs)`. -/
def subAssign [Sub α] (m rhs : Matrix α) : Except Error (Matrix α) :=
  match m.checkMatchedSize rhs with
  | .error e => .error e
  | .ok () =>
    forLoop m.numRows
      (fun row m =>
        forLoop m.numColumns
          (fun column m => do
            let x ← m.get row column
            let y ← rhs.get row column
            m.set row column (x - y))
          m)
      m

/-- The observer `operator-(rhs) const`: `checkMatchedSize(rhs); Matrix<T> difference(*this);`
`difference += this; return difference;`. The argument of `+=` is the pointer `this`, for
which `operator+=` has no overload; it is read here as the receiver `*this`, the only
matrix that the expression names. In neither reading does `rhs` take part after the check. -/
def sub [Add α] (m rhs : Matrix α) : Except Error (Matrix α) :=
  match m.checkMatchedSize rhs with
  | .error e => .error e
  | .ok () =>
    let difference : Matrix α := m
    difference.addAssign m

end Matrix

/-! ## Matrix.h, the objects of a call of computeInverse -/

/-- The objects of class `Matrix<T>` that exist at a point of a run, in the order of
their construction: the address of an object is its position in the list. -/
structure Store (α : Type) where
  objects : List (Matrix α)
deriving DecidableEq, Repr

namespace Store

variable {α : Type}

/-- The object at an address. An address at which no object exists reads as the matrix
without elements, every access to which is out of range. -/
def object (σ : Store α) (address : Nat) : Matrix α :=
  σ.objects.getD address ⟨0, 0, [], rfl⟩

/-- The store in which the object at an address has the new state `m`. -/
def put (σ : Store α) (address : Nat) (m : Matrix α) : Store α :=
  ⟨σ.objects.set address m⟩

/-- The definition of a local object with the state `m` that its constructor leaves: the
address of the new object, and the store that holds it. -/
def alloc (σ : Store α) (m : Matrix α) : Nat × Store α :=
  (σ.objects.length, ⟨σ.objects ++ [m]⟩)

/-- The end of the scope of the `count` objects that were defined last. -/
def release (σ : Store α) (count : Nat) : Store α :=
  ⟨σ.objects.take (σ.objects.length - count)⟩

/-- The accessor `operator()(row, column) const` on the object at an address. -/
def get (σ : Store α) (address row column : Nat) : Except Error α :=
  (σ.object address).get row column

/-- An assignment through the reference that `operator()(row, column)` returns on the
object at an address: the state of that object changes, in place. -/
def set (σ : Store α) (address row column : Nat) (x : α) : Except Error (Store α) := do
  let m ← (σ.object address).set row column x
  .ok (σ.put address m)

/-- The pivot search of `computeInverse` on the object `tmp`, started with `i = row`:
`while (tmp(i, lead) == T{}) { if (++i == rows) { i = row; if (++lead == tmpColumns) return; } }`.
Each unit of fuel pays for one evaluation of the loop condition. -/
def pivotSearch [Zero α] [DecidableEq α] (σ : Store α) (tmp rows tmpColumns row : Nat) :
    Nat → Nat → Nat → Except Error Matrix.Search
  | 0, _, _ => .error .nontermination
  | fuel + 1, i, lead => do
    let x ← σ.get tmp i lead
    if x = 0 then
      if i + 1 = rows then
        if lead + 1 = tmpColumns then .ok .exhausted
        else pivotSearch σ tmp rows tmpColumns row fuel row (lead + 1)
      else pivotSearch σ tmp rows tmpColumns row fuel (i + 1) lead
    else .ok (.found i lead)

/-- The swap loop of `computeInverse` on the object `tmp`:
`for (column < tmpColumns) std::swap(tmp(i, column), tmp(row, column));`. -/
def swapRows (tmp tmpColumns i row : Nat) (σ : Store α) : Except Error (Store α) :=
  forLoop tmpColumns
    (fun column σ => do
      let a ← σ.get tmp i column
      let b ← σ.get tmp row column
      let σ ← σ.set tmp i column b
      σ.set tmp row column a)
    σ

/-- The normalisation of `computeInverse` on the object `tmp`:
`if (tmp(row, lead) != T{}) { T f = tmp(row, lead); for (column < tmpColumns) tmp(row, column) /= f; }`. -/
def normalise [Zero α] [Div α] [DecidableEq α] (tmp tmpColumns row lead : Nat) (σ : Store α) :
    Except Error (Store α) := do
  let p ← σ.get tmp row lead
  if p ≠ 0 then
    let f ← σ.get tmp row lead
    forLoop tmpColumns
      (fun column σ => do
        let x ← σ.get tmp row column
        let q ← Matrix.divide x f
        σ.set tmp row column q)
      σ
  else .ok σ

/-- The elimination of `computeInverse` on the object `tmp`:
`for (j < rows) { if (j == row) continue; T f = tmp(j, lead);
for (column < tmpColumns) tmp(j, column) -= f * tmp(row, column); }`. -/
def eliminate [Mul α] [Sub α] (tmp rows tmpColumns row lead : Nat) (σ : Store α) :
    Except Error (Store α) :=
  forLoop rows
    (fun j σ =>
      if j = row then .ok σ
      else do
        let f ← σ.get tmp j lead
        forLoop tmpColumns
          (fun column σ => do
            let y ← σ.get tmp row column
            let x ← σ.get tmp j column
            σ.set tmp j column (x - f * y))
          σ)
    σ

/-- The lambda `pivot` of `computeInverse`, which holds the object `tmp` by reference,
from the loop state `row`, `lead`:
`for (row = 0, lead = 0; row < rows && lead < tmpColumns; ++row, ++lead) { ... }`.
Each unit of fuel pays for one evaluation of the loop condition. -/
def pivot [Zero α] [Mul α] [Sub α] [Div α] [DecidableEq α] (tmp rows tmpColumns : Nat) :
    Nat → Nat → Nat → Store α → Except Error (Store α)
  | 0, _, _, _ => .error .nontermination
  | fuel + 1, row, lead, σ =>
    if row < rows ∧ lead < tmpColumns then do
      match ← pivotSearch σ tmp rows tmpColumns row (rows * tmpColumns) row lead with
      | .exhausted => .ok σ
      | .found i lead => do
        let σ ← swapRows tmp tmpColumns i row σ
        let σ ← normalise tmp tmpColumns row lead σ
        let σ ← eliminate tmp rows tmpColumns row lead σ
        pivot tmp rows tmpColumns fuel (row + 1) (lead + 1) σ
    else .ok σ

/-- The loops of `computeInverse` that fill the workspace `tmp` from the receiver:
`for (row < rows) { for (column < rows) tmp(row, column) = (*this)(row, column);
tmp(row, row + rows) = 1; }`. -/
def augmented [One α] (self tmp rows : Nat) (σ : Store α) : Except Error (Store α) :=
  forLoop rows
    (fun row σ => do
      let σ ← forLoop rows
        (fun column σ => do
          let x ← σ.get self row column
          σ.set tmp row column x)
        σ
      σ.set tmp row (row + rows) 1)
    σ

/-- The loops of `computeInverse` that fill the result `inv` from the workspace `tmp`:
`for (row < rows) for (column < rows) inv(row, column) = tmp(row, column + rows);`. -/
def rightHalf (tmp inv rows : Nat) (σ : Store α) : Except Error (Store α) :=
  forLoop rows
    (fun row σ =>
      forLoop rows
        (fun column σ => do
          let x ← σ.get tmp row (column + rows)
          σ.set inv row column x)
        σ)
    σ

/-- The observer `computeInverse()` called on the object at the address `self`: the
locals `tmp` and `inv` are new objects, every read and write is an access to an object of
the store, and the call returns the value of `inv` and the store that it leaves when the
locals have gone out of scope. -/
def computeInverse [Zero α] [One α] [Mul α] [Sub α] [Div α] [DecidableEq α] (σ : Store α)
    (self : Nat) : Except Error (Matrix α × Store α) :=
  let rows := (σ.object self).numRows
  if rows ≠ (σ.object self).numColumns then .error .logic_error
  else do
    let tmpColumns := 2 * rows
    let (tmp, σ) := σ.alloc (Matrix.mk' rows tmpColumns 0)
    let σ ← augmented self tmp rows σ
    let σ ← pivot tmp rows tmpColumns (rows + 1) 0 0 σ
    let (inv, σ) := σ.alloc (Matrix.mk' rows rows 0)
    let σ ← rightHalf tmp inv rows σ
    .ok (σ.object inv, σ.release 2)

end Store

/-! ## Main.cpp -/

namespace Driver

/-- The constants that `main` declares, as exact rationals: `tmax`, `h`, `Ra`, `La`, `Jm`,
`Bm`, `Ke`, `Kt` and `Va`. -/
structure Params where
  tmax : ℚ
  h : ℚ
  Ra : ℚ
  La : ℚ
  Jm : ℚ
  Bm : ℚ
  Ke : ℚ
  Kt : ℚ
  Va : ℚ
deriving DecidableEq, Repr

/-- The values in the source: `tmax = 1.0`, `h = 0.001`, `Ra = 0.5`, `La = 10.0e-3`,
`Jm = 0.1`, `Bm = 0.005`, `Ke = 0.1`, `Kt = 0.1`, `Va = 10`. -/
def sourceParams : Params :=
  ⟨1, 1 / 1000, 1 / 2, 1 / 100, 1 / 10, 1 / 200, 1 / 10, 1 / 10, 10⟩

/-- The statements `G(i, j) += value;` of `main`, in the order of the source. -/
def stampsG (p : Params) : List (Nat × Nat × ℚ) :=
  [(0, 0, 1 / p.Ra), (0, 1, -1 / p.Ra), (0, 2, 0), (0, 3, 0), (0, 4, -1), (0, 5, 0),
   (1, 0, -1 / p.Ra), (1, 1, 1 / p.Ra), (1, 2, 0), (1, 3, 0), (1, 4, 1), (1, 5, 0),
   (2, 0, 0), (2, 1, 0), (2, 2, 1), (2, 3, -p.Ke), (2, 4, 0), (2, 5, 0),
   (3, 0, 0), (3, 1, 0), (3, 2, 0), (3, 3, p.Jm / p.h + 1 / p.Bm), (3, 4, -p.Kt), (3, 5, 0),
   (4, 0, 0), (4, 1, 1), (4, 2, 0), (4, 3, -p.Ke), (4, 4, -p.La / p.h), (4, 5, 0),
   (5, 0, 0), (5, 1, 0), (5, 2, 0), (5, 3, 0), (5, 4, -p.Kt), (5, 5, 1),
   (0, 6, 1), (6, 0, 1),
   (3, 3, 1 / 10), (3, 3, 1 / p.h)]

/-- The stamping loop: the statements `G(i, j) += value;` one after the other. -/
def stamp (G : Matrix ℚ) : List (Nat × Nat × ℚ) → Except Error (Matrix ℚ)
  | [] => .ok G
  | (i, j, value) :: rest =>
    match G.addAt i j value with
    | .ok G' => stamp G' rest
    | .error e => .error e

/-- The set-up of `G` in `main`: `Matrix<double> G(7, 7);`, `G.initialize(0);` and the
stamps. -/
def assembleG (p : Params) : Except Error (Matrix ℚ) := do
  let G : Matrix ℚ := Matrix.mk' 7 7 0
  let G ← G.fillWith 0
  stamp G (stampsG p)

/-- What one round of the step loop hands to its collaborators: the time `t`, the value
`x[4]` given to the plotter and the value `x[3]` written to the file and to the console. -/
structure Sample where
  t : ℚ
  plotted : ℚ
  written : ℚ
deriving DecidableEq, Repr

/-- The variables of the step loop: the time `t`, the matrix `G`, the vectors `b` and `x`,
and the samples emitted so far. -/
structure State where
  t : ℚ
  G : Matrix ℚ
  b : Vector ℚ
  x : Vector ℚ
  emitted : List Sample
deriving DecidableEq, Repr

/-- The body of the step loop followed by its increment `t += h`: the sample (the row for
the plotter, the line of the file and the line of the console), the stamps of `b`, and the
solve `x = G.computeInverse() * b`, a move assignment of the product. -/
def step (p : Params) (s : State) : Except Error State := do
  let plotted ← s.x.get 4
  let written ← s.x.get 3
  let _ ← s.x.get 3
  let emitted := s.emitted ++ [⟨s.t, plotted, written⟩]
  let b ← s.b.fillWith 0
  let b ← b.addAt 0 0
  let b ← b.addAt 1 0
  let b ← b.addAt 2 0
  let x3 ← s.x.get 3
  let b ← b.addAt 3 (x3 * p.Jm / p.h)
  let x4 ← s.x.get 4
  let b ← b.addAt 4 (-x4 * p.La / p.h)
  let b ← b.addAt 5 0
  let b ← b.addAt 6 p.Va
  let x3 ← s.x.get 3
  let b ← b.addAt 3 (x3 * 1 / p.h)
  let inverse ← s.G.computeInverse
  let product ← inverse.mulVec b
  let x := (s.x.moveAssign product).1
  .ok ⟨s.t + p.h, s.G, b, x, emitted⟩

/-- The step loop `for (double t = 0.0; t < tmax; t += h) { ... }`, from the state `s`.
Each unit of fuel pays for one evaluation of the loop condition. -/
def run (p : Params) : Nat → State → Except Error State
  | 0, _ => .error .nontermination
  | fuel + 1, s =>
    if s.t < p.tmax then
      match step p s with
      | .ok s' => run p fuel s'
      | .error e => .error e
    else .ok s

/-- The function `main`: the set-up of `G`, `b` and `x`, then the step loop. The labels,
the dump of `G` to the console and the final calls of the collaborators are left out. -/
def main (p : Params) (fuel : Nat) : Except Error State := do
  let G ← assembleG p
  run p fuel ⟨0, G, Vector.mk' 7 0, Vector.mk' 7 0, []⟩

end Driver

/-! ## Vocabulary of the statements -/

/-- The element of `v` at `i`, as read by `operator[]`; zero outside the vector. -/
def Vector.entry {α : Type} [Zero α] (v : Vector α) (i : Nat) : α :=
  match v.get i with
  | .ok x => x
  | .error _ => 0

namespace Matrix

variable {α : Type}

/-- The element of `m` at `(i, j)`, as read by `operator()`; zero outside the matrix. -/
def entry [Zero α] (m : Matrix α) (i j : Nat) : α :=
  match m.get i j with
  | .ok x => x
  | .error _ => 0

/-- The matrix `m` with the element at offset `i * numColumns + j` replaced by `x`: the
state a successful `set` returns. -/
def update (m : Matrix α) (i j : Nat) (x : α) : Matrix α :=
  ⟨m.numRows, m.numColumns, m.data.set (i * m.numColumns + j) x,
    by rw [List.length_set]; exact m.size_eq⟩

/-- The `r`-by-`c` matrix whose element at `(i, j)` is `f i j`. -/
def ofFn (r c : Nat) (f : Nat → Nat → α) : Matrix α :=
  ⟨r, c, (List.range (r * c)).map (fun k => f (k / c) (k % c)), by simp⟩

/-- The `n`-by-`n` identity matrix. -/
def identity [Zero α] [One α] (n : Nat) : Matrix α :=
  ofFn n n (fun i j => if i = j then 1 else 0)

/-- The row that the swap of rows `i` and `row` puts at position `r`. -/
def rowSwap (i row r : Nat) : Nat :=
  if r = i then row else if r = row then i else r

/-- The element at `(r, c)` after one round of `pivot` on `tmp` with the pivot found at
`(i, lead)`: rows `i` and `row` are swapped, row `row` is divided by the pivot, and every
other row loses its multiple of row `row` that clears column `lead`. -/
def roundEntry [Zero α] [Sub α] [Mul α] [Div α] (tmp : Matrix α) (i row lead r c : Nat) : α :=
  if r = row then tmp.entry i c / tmp.entry i lead
  else tmp.entry (rowSwap i row r) c -
    tmp.entry (rowSwap i row r) lead * (tmp.entry i c / tmp.entry i lead)

/-- `n` is a two-sided inverse of the square matrix `m`, for the product `operator*`. -/
def IsInverse [Zero α] [One α] [Add α] [Mul α] (n m : Matrix α) : Prop :=
  n.mul m = .ok (identity m.numRows) ∧ m.mul n = .ok (identity m.numRows)

end Matrix

namespace Driver

/-- The state of the step loop after `n` rounds from `s`, whatever the loop condition. -/
def steps (p : Params) : Nat → State → Except Error State
  | 0, s => .ok s
  | n + 1, s =>
    match step p s with
    | .ok s' => steps p n s'
    | .error e => .error e

/-- The state in which `main` enters the step loop. -/
def initial (G : Matrix ℚ) : State :=
  ⟨0, G, Vector.mk' 7 0, Vector.mk' 7 0, []⟩

end Driver

/-- The rounds of `pivot` from the loop state `row`, `lead`, with the control flow of
`pivot`: for each round the row, the column at which its search starts and the column of
the pivot that it finds. The search takes the skip path in a round exactly when the two
columns differ. -/
def Matrix.pivotRounds {α : Type} [Zero α] [Mul α] [Sub α] [Div α] [DecidableEq α]
    (rows tmpColumns : Nat) : Nat → Nat → Nat → Matrix α → Except Error (List (Nat × Nat × Nat))
  | 0, _, _, _ => .error .nontermination
  | fuel + 1, row, lead, tmp =>
    if row < rows ∧ lead < tmpColumns then do
      match ← Matrix.pivotSearch tmp rows tmpColumns row (rows * tmpColumns) row lead with
      | .exhausted => .ok []
      | .found i lead' => do
        let tmp ← Matrix.swapRows tmpColumns i row tmp
        let tmp ← Matrix.normalise tmpColumns row lead' tmp
        let tmp ← Matrix.eliminate rows tmpColumns row lead' tmp
        let rest ← Matrix.pivotRounds rows tmpColumns fuel (row + 1) (lead' + 1) tmp
        .ok ((row, lead, lead') :: rest)
    else .ok []

/-- Reduced row echelon form: the first `k` rows are the nonzero rows, row `i` of them has
its leading element, a one, in column `p i`, with zeros to its left; the leading columns
increase strictly with the row and are zero in every other row; and the rows from `k` on
are zero. -/
def Matrix.IsRREF {α : Type} [Zero α] [One α] (m : Matrix α) : Prop :=
  ∃ (k : Nat) (p : Nat → Nat), k ≤ m.numRows ∧
    (∀ i, i < k → p i < m.numColumns) ∧
    (∀ i j, i < j → j < k → p i < p j) ∧
    (∀ i, i < k → m.entry i (p i) = 1 ∧ (∀ c, c < p i → m.entry i c = 0) ∧
      ∀ r, r < m.numRows → r ≠ i → m.entry r (p i) = 0) ∧
    (∀ i c, k ≤ i → i < m.numRows → c < m.numColumns → m.entry i c = 0)

/-! ## Concrete inputs -/

/-- The invertible matrix `[[2, 0], [0, 2]]`. -/
def twos : Matrix ℚ := ⟨2, 2, [2, 0, 0, 2], rfl⟩

/-- The matrix `[[1/2, 0], [0, 1/2]]`. -/
def halves : Matrix ℚ := ⟨2, 2, [1 / 2, 0, 0, 1 / 2], rfl⟩

/-- The singular matrix `[[1, 1], [1, 1]]`. -/
def ones : Matrix ℚ := ⟨2, 2, [1, 1, 1, 1], rfl⟩

/-- The workspace `[[1, 1, 1, 0], [1, 1, 0, 1]]`. -/
def onesAugmented : Matrix ℚ := ⟨2, 4, [1, 1, 1, 0, 1, 1, 0, 1], rfl⟩

/-- The workspace `[[1, 1, 1, 0], [0, 0, -1, 1]]`. -/
def onesAfterRound : Matrix ℚ := ⟨2, 4, [1, 1, 1, 0, 0, 0, -1, 1], rfl⟩

/-- The matrix `[[0, 1], [1, -1]]`. -/
def onesResult : Matrix ℚ := ⟨2, 2, [0, 1, 1, -1], rfl⟩

/-- The matrix `G` that `main` assembles from the values in the source. -/
def sourceG : Matrix ℚ :=
  ⟨7, 7,
    [2, -2, 0, 0, -1, 0, 1,
     -2, 2, 0, 0, 1, 0, 0,
     0, 0, 1, -1 / 10, 0, 0, 0,
     0, 0, 0, 13001 / 10, -1 / 10, 0, 0,
     0, 1, 0, -1 / 10, -10, 0, 0,
     0, 0, 0, 0, -1 / 10, 1, 0,
     1, 0, 0, 0, 0, 0, 0], rfl⟩

/-- The inverse of `sourceG`. -/
def sourceInverse : Matrix ℚ :=
  ⟨7, 7,
    [0, 0, 0, 0, 0, 0, 1,
     0, 1300101 / 2730212, 0, 5 / 1365106, 65005 / 1365106, 0, 1300101 / 1365106,
     0, 1 / 2730212, 1, 105 / 1365106, -1 / 1365106, 0, 1 / 1365106,
     0, 5 / 1365106, 0, 525 / 682553, -5 / 682553, 0, 5 / 682553,
     0, 65005 / 1365106, 0, -5 / 682553, -65005 / 682553, 0, 65005 / 682553,
     0, 13001 / 2730212, 0, -1 / 1365106, -13001 / 1365106, 1, 13001 / 1365106,
     1, 1, 0, 0, 0, 0, 0], rfl⟩

/-- A store of two objects, `[[1, 1], [1, 1]]` at the address 0 and `[[2, 0], [0, 2]]` at
the address 1. -/
def twoMatrices : Store ℚ := ⟨[ones, twos]⟩

/-! # Properties -/

/-! ## Loops -/

/-- The invariant rule for `forLoop`: an invariant that holds at the start and that every
body re-establishes, without failing, holds at the end, and the loop does not fail. -/
theorem forLoop_inv {σ : Type} (P : Nat → σ → Prop) (n : Nat)
    (body : Nat → σ → Except Error σ) (s : σ) (h0 : P 0 s)
    (hstep : ∀ i t, i < n → P i t → ∃ t', body i t = .ok t' ∧ P (i + 1) t') :
    ∃ t, forLoop n body s = .ok t ∧ P n t := by
  induction n with
  | zero => exact ⟨s, rfl, h0⟩
  | succ k ih =>
    obtain ⟨t, ht, hP⟩ := ih (fun i t hi hp => hstep i t (Nat.lt_succ_of_lt hi) hp)
    obtain ⟨t', ht', hP'⟩ := hstep k t (Nat.lt_succ_self k) hP
    exact ⟨t', by simp [forLoop, ht, ht'], hP'⟩

@[simp] theorem ok_bind {β γ : Type} (a : β) (f : β → Except Error γ) :
    (Except.ok a >>= f) = f a := rfl

@[simp] theorem error_bind {β γ : Type} (e : Error) (f : β → Except Error γ) :
    (Except.error e >>= f) = Except.error e := rfl

/-! ## Accessors -/

/-- `operator[]` returns an element exactly when `checkBounds` does not throw. -/
theorem Vector.index_ok_iff_checkBounds {α : Type} (v : Vector α) (index : Nat) :
    (∃ x, v.get index = .ok x) ↔ v.checkBounds index = .ok () := by
  by_cases h : index < v.size
  · simp [Vector.get, Vector.checkBounds, h]
  · simp [Vector.get, Vector.checkBounds, h]

/-- `operator()` returns an element exactly when `checkBounds` does not throw. -/
theorem Matrix.get_ok_iff_checkBounds {α : Type} (m : Matrix α) (row column : Nat) :
    (∃ x, m.get row column = .ok x) ↔ m.checkBounds row column = .ok () := by
  by_cases h : row < m.numRows ∧ column < m.numColumns
  · have h' : ¬ (m.numRows ≤ row ∨ m.numColumns ≤ column) := by omega
    simp [Matrix.get, Matrix.checkBounds, h, h']
  · have h' : m.numRows ≤ row ∨ m.numColumns ≤ column := by omega
    simp [Matrix.get, Matrix.checkBounds, h, h']

namespace Matrix

variable {α : Type}

theorem offset_inj {c i j i' j' : Nat} (hj : j < c) (hj' : j' < c) :
    i * c + j = i' * c + j' ↔ i = i' ∧ j = j' := by
  constructor
  · intro h
    have h1 : (i * c + j) / c = (i' * c + j') / c := by rw [h]
    have h2 : (i * c + j) % c = (i' * c + j') % c := by rw [h]
    have hc : 0 < c := Nat.lt_of_le_of_lt (Nat.zero_le _) hj
    rw [Nat.mul_comm i c, Nat.mul_comm i' c, Nat.mul_add_div hc, Nat.mul_add_div hc,
      Nat.div_eq_of_lt hj, Nat.div_eq_of_lt hj'] at h1
    rw [Nat.mul_comm i c, Nat.mul_comm i' c, Nat.mul_add_mod, Nat.mul_add_mod,
      Nat.mod_eq_of_lt hj, Nat.mod_eq_of_lt hj'] at h2
    exact ⟨by simpa using h1, h2⟩
  · rintro ⟨rfl, rfl⟩; rfl

theorem get_ok [Zero α] (m : Matrix α) {i j : Nat} (hi : i < m.numRows)
    (hj : j < m.numColumns) : m.get i j = .ok (m.entry i j) := by
  simp [entry, get, hi, hj]

theorem entry_eq [Zero α] (m : Matrix α) {i j : Nat} (hi : i < m.numRows)
    (hj : j < m.numColumns) :
    m.entry i j = m.data.get ⟨i * m.numColumns + j, m.size_eq ▸ offset_lt hi hj⟩ := by
  simp [entry, get, hi, hj]

theorem entry_of_not [Zero α] (m : Matrix α) {i j : Nat}
    (h : ¬ (i < m.numRows ∧ j < m.numColumns)) : m.entry i j = 0 := by
  simp [entry, get, h]

theorem set_ok (m : Matrix α) {i j : Nat} (x : α) (hi : i < m.numRows)
    (hj : j < m.numColumns) : m.set i j x = .ok (m.update i j x) := by
  simp [set, update, hi, hj]

@[simp] theorem update_numRows (m : Matrix α) (i j : Nat) (x : α) :
    (m.update i j x).numRows = m.numRows := rfl

@[simp] theorem update_numColumns (m : Matrix α) (i j : Nat) (x : α) :
    (m.update i j x).numColumns = m.numColumns := rfl

theorem entry_update [Zero α] (m : Matrix α) {i j : Nat} (x : α) (hi : i < m.numRows)
    (hj : j < m.numColumns) (i' j' : Nat) :
    (m.update i j x).entry i' j' = if i' = i ∧ j' = j then x else m.entry i' j' := by
  by_cases h : i' < m.numRows ∧ j' < m.numColumns
  · rw [entry_eq _ (by simpa using h.1) (by simpa using h.2), entry_eq _ h.1 h.2]
    simp only [update, List.get_eq_getElem, List.getElem_set]
    by_cases h' : i' = i ∧ j' = j
    · simp [h'.1, h'.2]
    · rw [if_neg h', if_neg]
      intro h''
      have h3 := (offset_inj hj h.2).1 h''
      exact h' ⟨h3.1.symm, h3.2.symm⟩
  · rw [entry_of_not _ (by simpa using h), entry_of_not _ h, if_neg]
    rintro ⟨rfl, rfl⟩
    exact h ⟨hi, hj⟩

theorem ext' [Zero α] {m n : Matrix α} (hr : m.numRows = n.numRows)
    (hc : m.numColumns = n.numColumns)
    (h : ∀ i j, i < m.numRows → j < m.numColumns → m.entry i j = n.entry i j) : m = n := by
  obtain ⟨r, c, d, hd⟩ := m
  obtain ⟨r', c', d', hd'⟩ := n
  simp only at hr hc
  subst hr hc
  have : d = d' := by
    apply List.ext_getElem (by rw [hd, hd'])
    intro k hk hk'
    have hc : 0 < c := by
      rcases Nat.eq_zero_or_pos c with h0 | h0
      · subst h0; simp at hd; subst hd; simp at hk
      · exact h0
    have hkr : k / c < r := by
      rw [Nat.div_lt_iff_lt_mul hc]; rw [hd] at hk; exact hk
    have hkc : k % c < c := Nat.mod_lt _ hc
    have := h (k / c) (k % c) hkr hkc
    rw [entry_eq _ hkr hkc, entry_eq _ hkr hkc] at this
    simpa [Nat.div_add_mod', List.get_eq_getElem] using this
  subst this
  rfl

end Matrix

namespace Vector

variable {α : Type}

theorem get_of_lt (v : Vector α) {i : Nat} (h : i < v.data.length) :
    v.get i = .ok (v.data.get ⟨i, h⟩) := by
  simp [get, size, h]

theorem set_of_lt (v : Vector α) {i : Nat} (x : α) (h : i < v.data.length) :
    v.set i x = .ok ⟨v.data.set i x⟩ := by
  simp [set, size, h]

theorem entry_of_lt [Zero α] (v : Vector α) {i : Nat} (h : i < v.data.length) :
    v.entry i = v.data.get ⟨i, h⟩ := by
  simp [entry, get_of_lt v h]

theorem get_entry [Zero α] (v : Vector α) {i : Nat} (h : i < v.size) :
    v.get i = .ok (v.entry i) := by
  rw [entry_of_lt v h, get_of_lt v h]

theorem checkMatchedSize_eq (a b : Vector α) :
    a.checkMatchedSize b = if a.size ≠ b.size then .error .domain_error else .ok () := rfl

theorem dotProduct_loop [Zero α] [Add α] [Mul α] (a b : Vector α) (hab : a.size = b.size) :
    ∀ n, n ≤ a.size → forLoop n (dotProductBody a b) 0 =
      .ok ((List.zipWith (· * ·) (a.data.take n) (b.data.take n)).foldl (· + ·) 0) := by
  intro n
  induction n with
  | zero => intro _; simp [forLoop]
  | succ k ih =>
    intro hk
    have hka : k < a.data.length := hk
    have hkb : k < b.data.length := by simp only [size] at hab hk; omega
    have h1 : (List.take k a.data).length = (List.take k b.data).length := by
      simp [List.length_take, Nat.min_eq_left (Nat.le_of_lt hka),
        Nat.min_eq_left (Nat.le_of_lt hkb)]
    simp only [forLoop, ih (Nat.le_of_lt hk), dotProductBody, get_of_lt a hka, get_of_lt b hkb]
    rw [List.take_succ, List.take_succ, List.getElem?_eq_getElem hka,
      List.getElem?_eq_getElem hkb]
    simp only [Option.toList]
    rw [List.zipWith_append _ _ _ _ _ h1, List.foldl_append]
    simp

/-- The loop of `dotProduct` over a semiring: the sum of the products of the elements. -/
theorem dotProduct_sum [Semiring α] (a b : Vector α) (hab : a.size = b.size) :
    a.dotProduct b = .ok (∑ k in Finset.range a.size, a.entry k * b.entry k) := by
  have : ∀ n, n ≤ a.size → forLoop n (dotProductBody a b) 0 =
      .ok (∑ k in Finset.range n, a.entry k * b.entry k) := by
    intro n
    induction n with
    | zero => intro _; simp [forLoop]
    | succ k ih =>
      intro hk
      have hkb : k < b.size := hab ▸ hk
      simp only [forLoop, ih (Nat.le_of_lt hk), dotProductBody, get_entry a hk, get_entry b hkb,
        Finset.sum_range_succ]
  have h := this a.size (Nat.le_refl _)
  simp only [dotProduct, checkMatchedSize_eq, hab, ne_eq, not_true_eq_false, if_false]
  rw [← hab]; exact h

end Vector

namespace Vector

variable {α : Type}

/-- C8. `a.dotProduct(b)` throws the size-mismatch error (`std::domain_error`) exactly when
the sizes differ; otherwise it returns the left fold, from zero, of the products
`a[i] * b[i]` for `i = 0, ..., size - 1` (zero for empty vectors). -/
theorem dotProduct_spec [Zero α] [Add α] [Mul α] (a b : Vector α) :
    a.dotProduct b =
      if a.size ≠ b.size then .error .domain_error
      else .ok ((List.zipWith (· * ·) a.data b.data).foldl (· + ·) 0) := by
  by_cases hab : a.size = b.size
  · have h := dotProduct_loop a b hab a.size (Nat.le_refl _)
    have hb : b.data.take a.size = b.data := by rw [hab]; exact List.take_length _
    have ha : a.data.take a.size = a.data := List.take_length _
    rw [ha, hb] at h
    simp only [dotProduct, checkMatchedSize_eq, hab, ne_eq, not_true_eq_false, if_false]
    rw [← hab]; exact h
  · simp [dotProduct, checkMatchedSize_eq, hab]

/-- C9. Over scalars with a commutative multiplication, `a.dotProduct(b)` and
`b.dotProduct(a)` agree: they return the same value when the sizes are equal and throw the
same size-mismatch error when they are not. -/
theorem dotProduct_comm [Zero α] [Add α] [CommMagma α] (a b : Vector α) :
    a.dotProduct b = b.dotProduct a := by
  rw [dotProduct_spec a b, dotProduct_spec b a]
  by_cases hab : a.size = b.size
  · rw [if_neg (by simpa using hab), if_neg (by simpa using hab.symm),
      List.zipWith_comm_of_comm _ (fun x y => mul_comm x y)]
  · rw [if_pos hab, if_pos (fun h => hab h.symm)]

end Vector

namespace Vector

variable {α : Type}

theorem entry_set [Zero α] (v : Vector α) {i : Nat} (x : α) (h : i < v.data.length)
    (k : Nat) : (Vector.mk (v.data.set i x)).entry k = if k = i then x else v.entry k := by
  by_cases hk : k < v.data.length
  · rw [entry_of_lt _ (by simpa using hk), entry_of_lt _ hk]
    simp only [List.get_eq_getElem, List.getElem_set]
    by_cases h' : k = i
    · simp [h']
    · rw [if_neg (fun h'' => h' h''.symm), if_neg h']
  · have h1 : (Vector.mk (v.data.set i x)).entry k = 0 := by
      simp [entry, get, size, hk]
    have h2 : v.entry k = 0 := by simp [entry, get, size, hk]
    rw [h1, h2, if_neg]
    rintro rfl
    exact hk h

theorem ext_entry [Zero α] {v w : Vector α} (hs : v.size = w.size)
    (h : ∀ k, k < v.size → v.entry k = w.entry k) : v = w := by
  obtain ⟨d⟩ := v
  obtain ⟨d'⟩ := w
  congr 1
  apply List.ext_getElem hs
  intro k hk hk'
  have := h k hk
  rw [entry_of_lt _ hk, entry_of_lt _ hk'] at this
  simpa using this

@[simp] theorem size_mk' (n : Nat) (x : α) : (mk' n x).size = n := by
  simp [mk', size]

theorem entry_tabulate [Zero α] (n : Nat) (g : Nat → α) {k : Nat} (hk : k < n) :
    (Vector.mk ((List.range n).map g)).entry k = g k := by
  rw [entry_of_lt _ (by simpa using hk)]
  simp

/-- A loop that stores `g i` at index `i` of a fresh vector of size `n` tabulates `g`. -/
theorem tabulate_loop [Zero α] (n : Nat) (g : Nat → α)
    (body : Nat → Vector α → Except Error (Vector α))
    (hbody : ∀ (s : Vector α) (i : Nat), i < n → s.size = n → body i s = s.set i (g i)) :
    forLoop n body (mk' n 0) = .ok ⟨(List.range n).map g⟩ := by
  obtain ⟨t, ht, hs, he⟩ := forLoop_inv
    (fun k (s : Vector α) => s.size = n ∧ ∀ j, j < k → s.entry j = g j) n body (mk' n 0)
    ⟨size_mk' n 0, fun j hj => absurd hj (Nat.not_lt_zero j)⟩
    (fun i s hi hP => by
      have hi' : i < s.data.length := by have := hP.1; simp only [size] at this; omega
      refine ⟨⟨s.data.set i (g i)⟩, ?_, ?_, ?_⟩
      · rw [hbody s i hi hP.1, set_of_lt s _ hi']
      · simpa [size] using hP.1
      · intro j hj
        rw [entry_set s _ hi']
        by_cases h : j = i
        · simp [h]
        · rw [if_neg h]; exact hP.2 j (by omega))
  rw [ht]
  congr 1
  apply ext_entry
  · simpa [size] using hs
  · intro k hk
    rw [he k (hs ▸ hk), entry_tabulate n g (hs ▸ hk)]

end Vector

namespace Matrix

variable {α : Type}

theorem getRow_eq [Zero α] (m : Matrix α) {r : Nat} (hr : r < m.numRows) :
    m.getRow r = .ok ⟨(List.range m.numColumns).map (fun c => m.entry r c)⟩ := by
  simp only [getRow, ge_iff_le, Nat.not_le.2 hr, if_false]
  exact Vector.tabulate_loop m.numColumns (fun c => m.entry r c) _
    (fun s i hi _ => by simp [get_ok m hr hi])

theorem getColumn_eq [Zero α] (m : Matrix α) {c : Nat} (hc : c < m.numColumns) :
    m.getColumn c = .ok ⟨(List.range m.numRows).map (fun r => m.entry r c)⟩ := by
  simp only [getColumn, ge_iff_le, Nat.not_le.2 hc, if_false]
  exact Vector.tabulate_loop m.numRows (fun r => m.entry r c) _
    (fun s i hi _ => by simp [get_ok m hi hc])

/-- The dot product of two tabulated vectors of the same size. -/
theorem dotProduct_tabulate [Semiring α] (n : Nat) (f g : Nat → α) :
    (Vector.mk ((List.range n).map f)).dotProduct ⟨(List.range n).map g⟩ =
      .ok (∑ k in Finset.range n, f k * g k) := by
  rw [Vector.dotProduct_sum _ _ (by simp [Vector.size])]
  congr 1
  have hn : (Vector.mk ((List.range n).map f)).size = n := by simp [Vector.size]
  rw [hn]
  apply Finset.sum_congr rfl
  intro k hk
  have hk' : k < n := Finset.mem_range.1 hk
  rw [Vector.entry_tabulate n f hk', Vector.entry_tabulate n g hk']

/-- The dot product of a tabulated vector with a vector of the same size. -/
theorem dotProduct_tabulate_left [Semiring α] (f : Nat → α) (v : Vector α) :
    (Vector.mk ((List.range v.size).map f)).dotProduct v =
      .ok (∑ k in Finset.range v.size, f k * v.entry k) := by
  rw [Vector.dotProduct_sum _ _ (by simp [Vector.size])]
  congr 1
  have hn : (Vector.mk ((List.range v.size).map f)).size = v.size := by simp [Vector.size]
  rw [hn]
  apply Finset.sum_congr rfl
  intro k hk
  rw [Vector.entry_tabulate v.size f (Finset.mem_range.1 hk)]

/-- C6. `A * v` throws the dimension-mismatch error (`std::domain_error`) exactly when the
number of columns of `A` differs from the size of `v`; otherwise it returns the vector of
size `A.numRows` whose element `i` is the sum over `k < A.numColumns` of
`A(i, k) * v[k]`, the dot product of row `i` of `A` with `v`. -/
theorem mulVec_spec [Semiring α] (A : Matrix α) (v : Vector α) :
    A.mulVec v =
      if A.numColumns ≠ v.size then .error .domain_error
      else .ok ⟨(List.range A.numRows).map
        (fun i => ∑ k in Finset.range A.numColumns, A.entry i k * v.entry k)⟩ := by
  by_cases h : A.numColumns = v.size
  · simp only [mulVec, h, ne_eq, not_true_eq_false, if_false, Vector.size_mk']
    apply Vector.tabulate_loop
    intro s i hi _
    rw [getRow_eq A hi, h]
    simp only [ok_bind]
    rw [dotProduct_tabulate_left]
    rfl
  · simp [mulVec, h]

end Matrix

namespace Matrix

variable {α : Type}

theorem offset_div {c i j : Nat} (hj : j < c) : (i * c + j) / c = i := by
  have hc : 0 < c := Nat.lt_of_le_of_lt (Nat.zero_le _) hj
  rw [Nat.mul_comm, Nat.mul_add_div hc, Nat.div_eq_of_lt hj, Nat.add_zero]

theorem offset_mod {c i j : Nat} (hj : j < c) : (i * c + j) % c = j := by
  rw [Nat.mul_comm, Nat.mul_add_mod, Nat.mod_eq_of_lt hj]

theorem entry_ofFn [Zero α] (r c : Nat) (f : Nat → Nat → α) {i j : Nat} (hi : i < r)
    (hj : j < c) : (ofFn r c f).entry i j = f i j := by
  rw [entry_eq _ (by simpa [ofFn] using hi) (by simpa [ofFn] using hj)]
  simp [ofFn, offset_div hj, offset_mod hj]

theorem entry_mk' [Zero α] (r c : Nat) (x : α) {i j : Nat} (hi : i < r) (hj : j < c) :
    (mk' r c x).entry i j = x := by
  rw [entry_eq _ (by simpa [mk'] using hi) (by simpa [mk'] using hj)]
  simp [mk']

theorem entry_mk'_zero [Zero α] (r c i j : Nat) : (mk' r c (0 : α)).entry i j = 0 := by
  by_cases h : i < r ∧ j < c
  · exact entry_mk' r c 0 h.1 h.2
  · exact entry_of_not _ (by simpa [mk'] using h)

/-- A loop that stores `g j` at `(r, j)` for `j < n`. -/
theorem rowFill_loop [Zero α] (r n : Nat) (g : Nat → α)
    (body : Nat → Matrix α → Except Error (Matrix α)) (t0 : Matrix α)
    (hr : r < t0.numRows) (hn : n ≤ t0.numColumns)
    (hbody : ∀ (t : Matrix α) (j : Nat), j < n → t.numRows = t0.numRows →
      t.numColumns = t0.numColumns →
      (∀ i j', t.entry i j' = if i = r ∧ j' < j then g j' else t0.entry i j') →
      body j t = t.set r j (g j)) :
    ∃ t, forLoop n body t0 = .ok t ∧ t.numRows = t0.numRows ∧
      t.numColumns = t0.numColumns ∧
      ∀ i j, t.entry i j = if i = r ∧ j < n then g j else t0.entry i j := by
  obtain ⟨t, ht, h1, h2, h3⟩ := forLoop_inv
    (fun k (t : Matrix α) => t.numRows = t0.numRows ∧ t.numColumns = t0.numColumns ∧
      ∀ i j, t.entry i j = if i = r ∧ j < k then g j else t0.entry i j) n body t0
    ⟨rfl, rfl, fun i j => by simp⟩
    (fun k t hk hP => by
      obtain ⟨h1, h2, h3⟩ := hP
      have hr' : r < t.numRows := h1 ▸ hr
      have hk' : k < t.numColumns := by omega
      refine ⟨t.update r k (g k), ?_, h1, h2, ?_⟩
      · rw [hbody t k hk h1 h2 h3, set_ok t _ hr' hk']
      · intro i j
        rw [entry_update t _ hr' hk', h3]
        by_cases hi : i = r
        · by_cases hj : j = k
          · simp [hi, hj]
          · by_cases hj' : j < k
            · simp [hi, hj, hj', Nat.lt_succ_of_lt hj']
            · have : ¬ j < k + 1 := by omega
              simp [hi, hj, hj', this]
        · simp [hi])
  exact ⟨t, ht, h1, h2, h3⟩

/-- A pair of nested loops that stores `g i j` at `(i, j)` for `i < R` and `j < C`. -/
theorem fill_loop [Zero α] (R C : Nat) (g : Nat → Nat → α)
    (body : Nat → Nat → Matrix α → Except Error (Matrix α))
    (outer : Nat → Matrix α → Except Error (Matrix α)) (t0 : Matrix α)
    (hR : R ≤ t0.numRows) (hC : C ≤ t0.numColumns)
    (hbody : ∀ (t : Matrix α) (i j : Nat), i < R → j < C → t.numRows = t0.numRows →
      t.numColumns = t0.numColumns → body i j t = t.set i j (g i j))
    (houter : ∀ (t : Matrix α) (i : Nat), i < R → t.numRows = t0.numRows →
      t.numColumns = t0.numColumns → outer i t = forLoop C (body i) t) :
    ∃ t, forLoop R outer t0 = .ok t ∧ t.numRows = t0.numRows ∧
      t.numColumns = t0.numColumns ∧
      ∀ i j, t.entry i j = if i < R ∧ j < C then g i j else t0.entry i j := by
  obtain ⟨t, ht, h1, h2, h3⟩ := forLoop_inv
    (fun k (t : Matrix α) => t.numRows = t0.numRows ∧ t.numColumns = t0.numColumns ∧
      ∀ i j, t.entry i j = if i < k ∧ j < C then g i j else t0.entry i j) R
    outer t0
    ⟨rfl, rfl, fun i j => by simp⟩
    (fun k t hk hP => by
      obtain ⟨h1, h2, h3⟩ := hP
      obtain ⟨t', ht', h1', h2', h3'⟩ := rowFill_loop k C (g k) (body k) t (by omega)
        (by omega) (fun s j hj hs1 hs2 _ => hbody s k j hk hj (hs1.trans h1) (hs2.trans h2))
      refine ⟨t', (houter t k hk h1 h2).trans ht', h1'.trans h1, h2'.trans h2, ?_⟩
      intro i j
      rw [h3', h3]
      by_cases hj : j < C
      · by_cases hi : i = k
        · simp [hi, hj]
        · by_cases hi' : i < k
          · simp [hi, hj, hi', Nat.lt_succ_of_lt hi']
          · have : ¬ i < k + 1 := by omega
            simp [hi, hi', this]
      · simp [hj])
  exact ⟨t, ht, h1, h2, h3⟩

/-- C7. `A * B` throws the dimension-mismatch error (`std::domain_error`) exactly when
the number of columns of `A` differs from the number of rows of `B`; otherwise it returns
the matrix with the rows of `A` and the columns of `B` whose element `(i, j)` is the sum
over `k < A.numColumns` of `A(i, k) * B(k, j)`, the dot product of row `i` of `A` and
column `j` of `B`. -/
theorem mul_spec [Semiring α] (A B : Matrix α) :
    A.mul B =
      if A.numColumns ≠ B.numRows then .error .domain_error
      else .ok (ofFn A.numRows B.numColumns
        (fun i j => ∑ k in Finset.range A.numColumns, A.entry i k * B.entry k j)) := by
  by_cases h : A.numColumns = B.numRows
  · simp only [mul, h, ne_eq, not_true_eq_false, if_false]
    obtain ⟨t, ht, h1, h2, h3⟩ := fill_loop A.numRows B.numColumns
      (fun i j => ∑ k in Finset.range B.numRows, A.entry i k * B.entry k j)
      (fun rowIndex columnIndex (product : Matrix α) => do
        let row ← A.getRow rowIndex
        let column ← B.getColumn columnIndex
        let x ← row.dotProduct column
        product.set rowIndex columnIndex x)
      (fun rowIndex (product : Matrix α) =>
        forLoop product.numColumns
          (fun columnIndex product => do
            let row ← A.getRow rowIndex
            let column ← B.getColumn columnIndex
            let x ← row.dotProduct column
            product.set rowIndex columnIndex x)
          product)
      (mk' A.numRows B.numColumns 0) (Nat.le_refl _) (Nat.le_refl _)
      (fun t i j hi hj _ _ => by
        dsimp only
        rw [getRow_eq A hi, getColumn_eq B hj, h]
        simp only [ok_bind]
        rw [dotProduct_tabulate]
        rfl)
      (fun t i _ _ h2 => by dsimp only; rw [h2]; rfl)
    rw [show (mk' A.numRows B.numColumns (0 : α)).numRows = A.numRows from rfl, ht]
    congr 1
    refine ext' (n := ofFn _ _ _) h1 h2 ?_
    intro i j hi hj
    have hi' : i < A.numRows := h1 ▸ hi
    have hj' : j < B.numColumns := h2 ▸ hj
    rw [h3, if_pos ⟨hi', hj'⟩, entry_ofFn _ _ _ hi' hj']
  · simp [mul, h]

end Matrix

namespace Matrix

variable {α : Type}

/-- The swap loop exchanges rows `i` and `row`. -/
theorem swapRows_spec [Zero α] (tmp : Matrix α) {i row : Nat} (hi : i < tmp.numRows)
    (hrow : row < tmp.numRows) :
    ∃ t, swapRows tmp.numColumns i row tmp = .ok t ∧ t.numRows = tmp.numRows ∧
      t.numColumns = tmp.numColumns ∧
      ∀ r c, t.entry r c =
        if r = i then tmp.entry row c else if r = row then tmp.entry i c else tmp.entry r c := by
  obtain ⟨t, ht, h1, h2, h3⟩ := forLoop_inv
    (fun k (t : Matrix α) => t.numRows = tmp.numRows ∧ t.numColumns = tmp.numColumns ∧
      ∀ r c, t.entry r c =
        if c < k then
          (if r = i then tmp.entry row c else if r = row then tmp.entry i c else tmp.entry r c)
        else tmp.entry r c) tmp.numColumns
    (fun column (tmp : Matrix α) => do
      let a ← tmp.get i column
      let b ← tmp.get row column
      let tmp ← tmp.set i column b
      tmp.set row column a) tmp
    ⟨rfl, rfl, fun r c => by simp⟩
    (fun k t hk hP => by
      obtain ⟨h1, h2, h3⟩ := hP
      have hi' : i < t.numRows := h1 ▸ hi
      have hrow' : row < t.numRows := h1 ▸ hrow
      have hk' : k < t.numColumns := h2 ▸ hk
      refine ⟨(t.update i k (t.entry row k)).update row k (t.entry i k), ?_, h1, h2, ?_⟩
      · simp only [get_ok t hi' hk', get_ok t hrow' hk', ok_bind, set_ok t _ hi' hk']
        rw [set_ok _ _ (by simpa using hrow') (by simpa using hk')]
      · intro r c
        rw [entry_update _ _ (by simpa using hrow') (by simpa using hk'),
          entry_update _ _ hi' hk', h3 r c, h3 i k, h3 row k]
        simp only [Nat.lt_irrefl, if_false]
        by_cases hc : c = k
        · subst hc
          by_cases hr : r = row
          · subst hr
            by_cases hri : r = i
            · subst hri; simp
            · simp [hri]
          · by_cases hri : r = i
            · subst hri; simp [hr]
            · simp [hr, hri]
        · by_cases hc' : c < k
          · have : c < k + 1 := by omega
            simp [hc, hc', this]
          · have : ¬ c < k + 1 := by omega
            simp [hc, hc', this])
  refine ⟨t, ht, h1, h2, ?_⟩
  intro r c
  rw [h3]
  by_cases hc : c < tmp.numColumns
  · simp [hc]
  · have h0 : ∀ r', tmp.entry r' c = 0 := fun r' => entry_of_not _ (fun h => hc h.2)
    simp [hc, h0]

theorem divide_ok [Field α] [DecidableEq α] (x : α) {f : α} (hf : f ≠ 0) :
    divide x f = .ok (x / f) := by
  simp [divide, hf]

/-- The normalisation divides row `row` by its nonzero pivot. -/
theorem normalise_spec [Field α] [DecidableEq α] (tmp : Matrix α) {row lead : Nat}
    (hrow : row < tmp.numRows) (hlead : lead < tmp.numColumns)
    (hp : tmp.entry row lead ≠ 0) :
    ∃ t, normalise tmp.numColumns row lead tmp = .ok t ∧ t.numRows = tmp.numRows ∧
      t.numColumns = tmp.numColumns ∧
      ∀ r c, t.entry r c =
        if r = row then tmp.entry row c / tmp.entry row lead else tmp.entry r c := by
  obtain ⟨t, ht, h1, h2, h3⟩ := rowFill_loop row tmp.numColumns
    (fun c => tmp.entry row c / tmp.entry row lead)
    (fun column (t : Matrix α) => do
        let x ← t.get row column
        let q ← divide x (tmp.entry row lead)
        t.set row column q) tmp hrow (Nat.le_refl _)
    (fun t j hj h1 h2 h3 => by
      have e : t.entry row j = tmp.entry row j := by rw [h3]; simp
      simp only [get_ok t (h1 ▸ hrow) (h2 ▸ hj), ok_bind, divide_ok _ hp, e])
  refine ⟨t, ?_, h1, h2, ?_⟩
  · simp only [normalise, get_ok tmp hrow hlead, ok_bind, ne_eq, hp, not_false_eq_true,
      if_true]
    exact ht
  · intro r c
    rw [h3]
    by_cases hc : c < tmp.numColumns
    · simp [hc]
    · have h0 : ∀ r', tmp.entry r' c = 0 := fun r' => entry_of_not _ (fun h => hc h.2)
      simp [hc, h0]

/-- The elimination subtracts from every other row its multiple of row `row` that clears
column `lead`. -/
theorem eliminate_spec [Field α] (tmp : Matrix α) {row lead : Nat}
    (hrow : row < tmp.numRows) (hlead : lead < tmp.numColumns) :
    ∃ t, eliminate tmp.numRows tmp.numColumns row lead tmp = .ok t ∧
      t.numRows = tmp.numRows ∧ t.numColumns = tmp.numColumns ∧
      ∀ r c, t.entry r c =
        if r = row then tmp.entry row c
        else tmp.entry r c - tmp.entry r lead * tmp.entry row c := by
  obtain ⟨t, ht, h1, h2, h3⟩ := forLoop_inv
    (fun k (t : Matrix α) => t.numRows = tmp.numRows ∧ t.numColumns = tmp.numColumns ∧
      ∀ r c, t.entry r c =
        if r < k ∧ r ≠ row then tmp.entry r c - tmp.entry r lead * tmp.entry row c
        else tmp.entry r c) tmp.numRows
    (fun j (t : Matrix α) =>
      if j = row then .ok t
      else do
        let f ← t.get j lead
        forLoop tmp.numColumns
          (fun column t => do
            let y ← t.get row column
            let x ← t.get j column
            t.set j column (x - f * y))
          t) tmp
    ⟨rfl, rfl, fun r c => by simp⟩
    (fun j t hj hP => by
      obtain ⟨h1, h2, h3⟩ := hP
      by_cases hjr : j = row
      · refine ⟨t, by simp [hjr], h1, h2, ?_⟩
        intro r c
        rw [h3]
        by_cases hr : r = row
        · simp [hr]
        · by_cases hr' : r < j
          · simp [hr, hr', Nat.lt_succ_of_lt hr']
          · have : ¬ r < j + 1 := by omega
            simp [hr', this]
      · have hj' : j < t.numRows := h1 ▸ hj
        have hlead' : lead < t.numColumns := h2 ▸ hlead
        have erow : ∀ c, t.entry row c = tmp.entry row c := fun c => by rw [h3]; simp
        have ej : ∀ c, t.entry j c = tmp.entry j c := fun c => by rw [h3]; simp
        obtain ⟨t', ht', h1', h2', h3'⟩ := rowFill_loop j tmp.numColumns
          (fun c => tmp.entry j c - tmp.entry j lead * tmp.entry row c)
          (fun column (s : Matrix α) => do
            let y ← s.get row column
            let x ← s.get j column
            s.set j column (x - t.entry j lead * y)) t hj' (Nat.le_of_eq h2.symm)
          (fun s c hc hs1 hs2 hs3 => by
            have e1 : s.entry row c = tmp.entry row c := by
              rw [hs3, if_neg (fun h => hjr h.1.symm), erow]
            have e2 : s.entry j c = tmp.entry j c := by rw [hs3]; simp [ej]
            have hc' : c < s.numColumns := by omega
            simp only [get_ok s (hs1 ▸ h1 ▸ hrow) hc', get_ok s (hs1 ▸ hj') hc', ok_bind,
              e1, e2, ej])
        refine ⟨t', ?_, h1'.trans h1, h2'.trans h2, ?_⟩
        · simp only [hjr, if_false, get_ok t hj' hlead', ok_bind]
          exact ht'
        · intro r c
          rw [h3', h3]
          by_cases hr : r = j
          · subst hr
            by_cases hc : c < tmp.numColumns
            · simp [hc, hjr]
            · have h0 : ∀ r', tmp.entry r' c = 0 := fun r' => entry_of_not _ (fun h => hc h.2)
              simp [hc, hjr, h0]
          · by_cases hr' : r < j
            · simp [hr, hr', Nat.lt_succ_of_lt hr']
            · have : ¬ r < j + 1 := by omega
              simp [hr, hr', this])
  refine ⟨t, ht, h1, h2, ?_⟩
  intro r c
  rw [h3]
  by_cases hr : r = row
  · simp [hr]
  · by_cases hr' : r < tmp.numRows
    · simp [hr, hr']
    · have h0 : ∀ c', tmp.entry r c' = 0 := fun c' => entry_of_not _ (fun h => hr' h.1)
      simp [hr, hr', h0]

end Matrix

namespace Matrix

variable {α : Type}

/-- The workspace built by `computeInverse`: the matrix on the left, the identity on the
right. -/
theorem augmented_spec [Zero α] [One α] (m : Matrix α) (hsq : m.numRows = m.numColumns) :
    ∃ t, augmented m m.numRows (2 * m.numRows) = .ok t ∧ t.numRows = m.numRows ∧
      t.numColumns = 2 * m.numRows ∧
      ∀ i j, t.entry i j =
        if i < m.numRows ∧ j < m.numRows then m.entry i j
        else if i < m.numRows ∧ j = i + m.numRows then 1 else 0 := by
  obtain ⟨t, ht, h1, h2, h3⟩ := forLoop_inv
    (fun k (t : Matrix α) => t.numRows = m.numRows ∧ t.numColumns = 2 * m.numRows ∧
      ∀ i j, t.entry i j =
        if i < k ∧ j < m.numRows then m.entry i j
        else if i < k ∧ j = i + m.numRows then 1 else 0) m.numRows
    (fun row (tmp : Matrix α) => do
      let tmp ← forLoop m.numRows
        (fun column tmp => do
          let x ← m.get row column
          tmp.set row column x)
        tmp
      tmp.set row (row + m.numRows) 1)
    (mk' m.numRows (2 * m.numRows) 0)
    ⟨rfl, rfl, fun i j => by simp [entry_mk'_zero]⟩
    (fun k t hk hP => by
      obtain ⟨h1, h2, h3⟩ := hP
      obtain ⟨t', ht', h1', h2', h3'⟩ := rowFill_loop k m.numRows (fun c => m.entry k c)
        (fun column (tmp : Matrix α) => do
          let x ← m.get k column
          tmp.set k column x) t (by omega) (by omega)
        (fun s c hc _ _ _ => by simp only [get_ok m hk (hsq ▸ hc), ok_bind])
      have hk' : k < t'.numRows := by omega
      have hkn : k + m.numRows < t'.numColumns := by omega
      refine ⟨t'.update k (k + m.numRows) 1, ?_, by simpa using h1'.trans h1,
        by simpa using h2'.trans h2, ?_⟩
      · simp only [ht', ok_bind, set_ok t' _ hk' hkn]
      · intro i j
        rw [entry_update t' _ hk' hkn, h3', h3]
        by_cases hi : i = k
        · subst hi
          by_cases hj : j < m.numRows
          · have : j ≠ i + m.numRows := by omega
            simp [hj, this]
          · by_cases hj' : j = i + m.numRows
            · simp [hj']
            · simp [hj, hj']
        · by_cases hi' : i < k
          · simp [hi, hi', Nat.lt_succ_of_lt hi']
          · have : ¬ i < k + 1 := by omega
            simp [hi, hi', this])
  refine ⟨t, ht, h1, h2, ?_⟩
  intro i j
  rw [h3]

/-- The matrix returned by `computeInverse` is the right half of the workspace. -/
theorem rightHalf_spec [Zero α] (tmp : Matrix α) (n : Nat) (hr : tmp.numRows = n)
    (hc : tmp.numColumns = 2 * n) :
    rightHalf tmp n = .ok (ofFn n n (fun i j => tmp.entry i (j + n))) := by
  obtain ⟨t, ht, h1, h2, h3⟩ := fill_loop n n (fun i j => tmp.entry i (j + n))
    (fun row column (inv : Matrix α) => do
      let x ← tmp.get row (column + n)
      inv.set row column x)
    (fun row (inv : Matrix α) =>
      forLoop n
        (fun column inv => do
          let x ← tmp.get row (column + n)
          inv.set row column x)
        inv)
    (mk' n n 0) (Nat.le_refl _) (Nat.le_refl _)
    (fun t i j hi hj _ _ => by
      simp only [get_ok tmp (hr ▸ hi) (show j + n < tmp.numColumns by omega), ok_bind])
    (fun t i _ _ _ => rfl)
  unfold rightHalf
  rw [ht]
  congr 1
  refine ext' (n := ofFn _ _ _) h1 h2 ?_
  intro i j hi hj
  have hi' : i < n := by rw [h1] at hi; exact hi
  have hj' : j < n := by rw [h2] at hj; exact hj
  rw [h3, if_pos ⟨hi', hj'⟩, entry_ofFn _ _ _ hi' hj']

end Matrix

namespace Matrix

variable {α : Type}

/-- The pivot search, started at `(i, lead)` with enough fuel, ends: it returns the first
nonzero element in the order in which it visits the workspace, column by column from
`lead` and within a column downwards from row `row` (from `i` in column `lead`), or it
takes the `return` after visiting zeros only. -/
theorem pivotSearch_spec [Zero α] [DecidableEq α] (tmp : Matrix α) (row : Nat) :
    ∀ fuel i lead, row ≤ i → i < tmp.numRows → lead < tmp.numColumns →
      (tmp.numRows - i) + (tmp.numColumns - 1 - lead) * (tmp.numRows - row) ≤ fuel →
      (∃ i' lead', pivotSearch tmp tmp.numRows tmp.numColumns row fuel i lead =
            .ok (.found i' lead') ∧
          row ≤ i' ∧ i' < tmp.numRows ∧ lead ≤ lead' ∧ lead' < tmp.numColumns ∧
          tmp.entry i' lead' ≠ 0 ∧
          (lead' = lead → i ≤ i' ∧ ∀ k, i ≤ k → k < i' → tmp.entry k lead = 0) ∧
          (lead < lead' →
            (∀ k, i ≤ k → k < tmp.numRows → tmp.entry k lead = 0) ∧
            (∀ c, lead < c → c < lead' → ∀ k, row ≤ k → k < tmp.numRows →
              tmp.entry k c = 0) ∧
            (∀ k, row ≤ k → k < i' → tmp.entry k lead' = 0))) ∨
      (pivotSearch tmp tmp.numRows tmp.numColumns row fuel i lead = .ok .exhausted ∧
        (∀ k, i ≤ k → k < tmp.numRows → tmp.entry k lead = 0) ∧
        (∀ c, lead < c → c < tmp.numColumns → ∀ k, row ≤ k → k < tmp.numRows →
          tmp.entry k c = 0)) := by
  intro fuel
  induction fuel with
  | zero => intro i lead _ hi _ hf; omega
  | succ fuel ih =>
    intro i lead hri hi hlead hf
    simp only [pivotSearch, get_ok tmp hi hlead, ok_bind]
    by_cases hx : tmp.entry i lead = 0
    · simp only [hx, if_true]
      by_cases hi1 : i + 1 = tmp.numRows
      · simp only [hi1, if_true]
        have hzero : ∀ k, i ≤ k → k < tmp.numRows → tmp.entry k lead = 0 := by
          intro k hk hk'
          have : k = i := by omega
          rw [this]; exact hx
        by_cases hl1 : lead + 1 = tmp.numColumns
        · simp only [hl1, if_true]
          right
          exact ⟨trivial, hzero, fun c hc hc' => by omega⟩
        · simp only [hl1, if_false]
          have hd : tmp.numColumns - 1 - lead = (tmp.numColumns - 1 - (lead + 1)) + 1 := by
            omega
          rw [hd, Nat.succ_mul] at hf
          rcases ih row (lead + 1) (Nat.le_refl _) (by omega) (by omega) (by omega) with
            ⟨i', lead', h, h1, h2, h3, h4, h5, h6, h7⟩ | ⟨h, h1, h2⟩
          · left
            refine ⟨i', lead', h, h1, h2, by omega, h4, h5, fun e => by omega, fun _ => ?_⟩
            refine ⟨hzero, ?_, ?_⟩
            · intro c hc hc' k hk hk'
              by_cases hc1 : c = lead + 1
              · subst hc1
                exact (h7 (by omega)).1 k hk hk'
              · exact (h7 (by omega)).2.1 c (by omega) hc' k hk hk'
            · intro k hk hk'
              by_cases hl : lead' = lead + 1
              · have := (h6 hl).2 k hk hk'
                rw [hl]; exact this
              · exact (h7 (by omega)).2.2 k hk hk'
          · right
            refine ⟨h, hzero, ?_⟩
            intro c hc hc' k hk hk'
            by_cases hc1 : c = lead + 1
            · subst hc1; exact h1 k hk hk'
            · exact h2 c (by omega) hc' k hk hk'
      · simp only [hi1, if_false]
        have hzero : ∀ (n : Nat), (∀ k, i + 1 ≤ k → k < n → tmp.entry k lead = 0) →
            ∀ k, i ≤ k → k < n → tmp.entry k lead = 0 := by
          intro n hn k hk hk'
          by_cases hki : k = i
          · rw [hki]; exact hx
          · exact hn k (by omega) hk'
        rcases ih (i + 1) lead (by omega) (by omega) hlead (by omega) with
          ⟨i', lead', h, h1, h2, h3, h4, h5, h6, h7⟩ | ⟨h, h1, h2⟩
        · left
          refine ⟨i', lead', h, h1, h2, h3, h4, h5, fun e => ?_, fun e => ?_⟩
          · exact ⟨by have := (h6 e).1; omega, hzero i' (h6 e).2⟩
          · exact ⟨hzero _ (h7 e).1, (h7 e).2.1, (h7 e).2.2⟩
        · right
          exact ⟨h, hzero _ h1, h2⟩
    · simp only [hx, if_false]
      left
      exact ⟨i, lead, rfl, hri, hi, Nat.le_refl _, hlead, hx,
        fun _ => ⟨Nat.le_refl _, fun k hk hk' => by omega⟩, fun h => by omega⟩

/-- The fuel that `pivot` gives to the pivot search is enough. -/
theorem pivotSearch_fuel (R C row lead : Nat) (hlead : lead < C) :
    (R - row) + (C - 1 - lead) * (R - row) ≤ R * C := by
  have h1 : (R - row) + (C - 1 - lead) * (R - row) = (C - lead) * (R - row) := by
    have : C - lead = (C - 1 - lead) + 1 := by omega
    rw [this, Nat.succ_mul, Nat.add_comm]
  rw [h1, Nat.mul_comm R C]
  exact Nat.mul_le_mul (Nat.sub_le _ _) (Nat.sub_le _ _)

end Matrix

namespace Matrix

variable {α : Type}

/-- The pivot search as `pivot` starts it, at `i = row` and with the fuel `rows * tmpColumns`. -/
theorem pivotSearch_from_row [Zero α] [DecidableEq α] (tmp : Matrix α) {row lead : Nat}
    (hrow : row < tmp.numRows) (hlead : lead < tmp.numColumns) :
    (∃ i lead', pivotSearch tmp tmp.numRows tmp.numColumns row
          (tmp.numRows * tmp.numColumns) row lead = .ok (.found i lead') ∧
        row ≤ i ∧ i < tmp.numRows ∧ lead ≤ lead' ∧ lead' < tmp.numColumns ∧
        tmp.entry i lead' ≠ 0 ∧
        (∀ c, lead ≤ c → c < lead' → ∀ k, row ≤ k → k < tmp.numRows → tmp.entry k c = 0) ∧
        (∀ k, row ≤ k → k < i → tmp.entry k lead' = 0)) ∨
    (pivotSearch tmp tmp.numRows tmp.numColumns row
          (tmp.numRows * tmp.numColumns) row lead = .ok .exhausted ∧
      ∀ c, lead ≤ c → c < tmp.numColumns → ∀ k, row ≤ k → k < tmp.numRows →
        tmp.entry k c = 0) := by
  rcases pivotSearch_spec tmp row (tmp.numRows * tmp.numColumns) row lead (Nat.le_refl _)
      hrow hlead (pivotSearch_fuel _ _ row lead hlead) with
    ⟨i, lead', h, h1, h2, h3, h4, h5, h6, h7⟩ | ⟨h, h1, h2⟩
  · left
    refine ⟨i, lead', h, h1, h2, h3, h4, h5, ?_, ?_⟩
    · intro c hc hc' k hk hk'
      have hl : lead < lead' := by omega
      by_cases hcl : c = lead
      · subst hcl; exact (h7 hl).1 k hk hk'
      · exact (h7 hl).2.1 c (by omega) hc' k hk hk'
    · intro k hk hk'
      by_cases hl : lead' = lead
      · have := (h6 hl).2 k hk hk'
        rw [hl]; exact this
      · exact (h7 (by omega)).2.2 k hk hk'
  · right
    refine ⟨h, ?_⟩
    intro c hc hc' k hk hk'
    by_cases hcl : c = lead
    · subst hcl; exact h1 k hk hk'
    · exact h2 c (by omega) hc' k hk hk'

theorem rowSwap_row (i row : Nat) : rowSwap i row row = i := by
  unfold rowSwap
  by_cases h : row = i
  · simp [h]
  · simp [h]

/-- One round of `pivot` after a successful search: the swap, the normalisation and the
elimination succeed and produce the workspace described by `roundEntry`. -/
theorem round_spec [Field α] [DecidableEq α] (tmp : Matrix α) {i row lead : Nat}
    (hi : i < tmp.numRows) (hrow : row < tmp.numRows) (hlead : lead < tmp.numColumns)
    (hp : tmp.entry i lead ≠ 0) :
    ∃ s u t, swapRows tmp.numColumns i row tmp = .ok s ∧
      normalise tmp.numColumns row lead s = .ok u ∧
      eliminate tmp.numRows tmp.numColumns row lead u = .ok t ∧
      t.numRows = tmp.numRows ∧ t.numColumns = tmp.numColumns ∧
      ∀ r c, t.entry r c = roundEntry tmp i row lead r c := by
  obtain ⟨s, hs, hs1, hs2, hs3⟩ := swapRows_spec tmp hi hrow
  have es : ∀ r c, s.entry r c = tmp.entry (rowSwap i row r) c := by
    intro r c
    rw [hs3]
    unfold rowSwap
    by_cases h1 : r = i
    · simp [h1]
    · by_cases h2 : r = row
      · subst h2; simp [h1]
      · simp [h1, h2]
  have hps : s.entry row lead ≠ 0 := by rw [es, rowSwap_row]; exact hp
  obtain ⟨u, hu, hu1, hu2, hu3⟩ := normalise_spec s (hs1 ▸ hrow) (hs2 ▸ hlead) hps
  obtain ⟨t, ht, ht1, ht2, ht3⟩ := eliminate_spec u (hu1 ▸ hs1 ▸ hrow) (hu2 ▸ hs2 ▸ hlead)
  rw [hs2] at hu
  rw [hu1, hu2, hs1, hs2] at ht
  refine ⟨s, u, t, hs, hu, ht, by omega, by omega, ?_⟩
  · intro r c
    rw [ht3]
    unfold roundEntry
    by_cases hr : r = row
    · simp only [hr, if_true, hu3, es, rowSwap_row]
    · simp only [hr, if_false, hu3, es, rowSwap_row, if_true]

/-- The invariant rule for `pivot`: a property of the loop state that every round
preserves gives, at each of the three exits of the loop, a property of the result; and
with the fuel of `computeInverse` the loop does end. -/
theorem pivot_inv [Field α] [DecidableEq α] (R C : Nat)
    (P : Nat → Nat → Matrix α → Prop) (Q : Matrix α → Prop)
    (hstep : ∀ (row lead : Nat) (tmp : Matrix α) (i lead' : Nat), tmp.numRows = R →
      tmp.numColumns = C → P row lead tmp → row ≤ i → i < R → lead ≤ lead' → lead' < C →
      tmp.entry i lead' ≠ 0 →
      (∀ c, lead ≤ c → c < lead' → ∀ k, row ≤ k → k < R → tmp.entry k c = 0) →
      (∀ k, row ≤ k → k < i → tmp.entry k lead' = 0) →
      ∀ t : Matrix α, t.numRows = R → t.numColumns = C →
        (∀ r c, t.entry r c = roundEntry tmp i row lead' r c) → P (row + 1) (lead' + 1) t)
    (hexhausted : ∀ (row lead : Nat) (tmp : Matrix α), tmp.numRows = R →
      tmp.numColumns = C → P row lead tmp → row < R → lead < C →
      (∀ c, lead ≤ c → c < C → ∀ k, row ≤ k → k < R → tmp.entry k c = 0) → Q tmp)
    (hend : ∀ (row lead : Nat) (tmp : Matrix α), tmp.numRows = R → tmp.numColumns = C →
      P row lead tmp → ¬ (row < R ∧ lead < C) → Q tmp) :
    ∀ (fuel row lead : Nat) (tmp : Matrix α), tmp.numRows = R → tmp.numColumns = C →
      P row lead tmp → R - row + 1 ≤ fuel →
      ∃ t, pivot R C fuel row lead tmp = .ok t ∧ t.numRows = R ∧ t.numColumns = C ∧ Q t := by
  intro fuel
  induction fuel with
  | zero => intro row lead tmp _ _ _ hf; omega
  | succ fuel ih =>
    intro row lead tmp h1 h2 hP hf
    subst h1 h2
    by_cases hc : row < tmp.numRows ∧ lead < tmp.numColumns
    · simp only [pivot, hc, and_self, if_true]
      rcases pivotSearch_from_row tmp hc.1 hc.2 with
        ⟨i, lead', h, k1, k2, k3, k4, k5, k6, k7⟩ | ⟨h, k1⟩
      · obtain ⟨s, u, t, hs, hu, ht, t1, t2, t3⟩ := round_spec tmp k2 hc.1 k4 k5
        obtain ⟨w, hw, w1, w2, w3⟩ := ih (row + 1) (lead' + 1) t t1 t2
          (hstep row lead tmp i lead' rfl rfl hP k1 k2 k3 k4 k5 k6 k7 t t1 t2 t3) (by omega)
        refine ⟨w, ?_, w1, w2, w3⟩
        simp only [h, ok_bind, hs, hu, ht, hw]
      · refine ⟨tmp, ?_, rfl, rfl, hexhausted row lead tmp rfl rfl hP hc.1 hc.2 k1⟩
        simp only [h, ok_bind]
    · refine ⟨tmp, ?_, rfl, rfl, hend row lead tmp rfl rfl hP hc⟩
      simp only [pivot, hc, if_false]

end Matrix

namespace Matrix

variable {α : Type}

theorem rowSwap_lt {n i row r : Nat} (hi : i < n) (hrow : row < n) (hr : r < n) :
    rowSwap i row r < n := by
  unfold rowSwap
  split
  · exact hrow
  · split
    · exact hi
    · exact hr

theorem rowSwap_rowSwap (i row r : Nat) : rowSwap i row (rowSwap i row r) = r := by
  unfold rowSwap
  by_cases h1 : r = i
  · by_cases h2 : row = i
    · simp [h1, h2]
    · simp [h1, h2]
  · by_cases h2 : r = row
    · simp [h1, h2]
    · simp [h1, h2]

theorem rowSwap_of_ne {i row r : Nat} (h1 : r ≠ i) (h2 : r ≠ row) : rowSwap i row r = r := by
  simp [rowSwap, h1, h2]

theorem rowSwap_left {i row : Nat} : rowSwap i row i = row := by
  simp [rowSwap]

/-- Every round keeps the left half of the workspace equal to the right half times `m`. -/
theorem round_product [Field α] (m tmp t : Matrix α) (n : Nat) {i row lead : Nat}
    (hi : i < n) (hrow : row < n)
    (hA : ∀ r c, r < n → c < n →
      tmp.entry r c = ∑ k in Finset.range n, tmp.entry r (k + n) * m.entry k c)
    (ht : ∀ r c, t.entry r c = roundEntry tmp i row lead r c) :
    ∀ r c, r < n → c < n →
      t.entry r c = ∑ k in Finset.range n, t.entry r (k + n) * m.entry k c := by
  intro r c hr hc
  simp only [ht, roundEntry]
  by_cases h : r = row
  · simp only [h, if_true]
    rw [hA i c hi hc, Finset.sum_div]
    exact Finset.sum_congr rfl (fun k _ => by ring)
  · simp only [h, if_false]
    rw [hA _ c (rowSwap_lt hi hrow hr) hc, hA i c hi hc, Finset.sum_div, Finset.mul_sum,
      ← Finset.sum_sub_distrib]
    exact Finset.sum_congr rfl (fun k _ => by ring)

/-- Every round keeps the left half of the workspace injective on column vectors. -/
theorem round_kernel [Field α] (tmp t : Matrix α) (n : Nat) {i row lead : Nat}
    (hi : i < n) (hrow : row < n) (hp : tmp.entry i lead ≠ 0)
    (hK : ∀ v : Nat → α, (∀ r, r < n → ∑ c in Finset.range n, tmp.entry r c * v c = 0) →
      ∀ c, c < n → v c = 0)
    (ht : ∀ r c, t.entry r c = roundEntry tmp i row lead r c) :
    ∀ v : Nat → α, (∀ r, r < n → ∑ c in Finset.range n, t.entry r c * v c = 0) →
      ∀ c, c < n → v c = 0 := by
  intro v hv
  apply hK
  have hrowsum : ∑ c in Finset.range n, tmp.entry i c * v c = 0 := by
    have h := hv row hrow
    simp only [ht, roundEntry, if_true] at h
    have e : ∑ c in Finset.range n, tmp.entry i c / tmp.entry i lead * v c =
        (∑ c in Finset.range n, tmp.entry i c * v c) / tmp.entry i lead := by
      rw [Finset.sum_div]
      exact Finset.sum_congr rfl (fun k _ => by ring)
    rw [e, div_eq_zero_iff] at h
    exact h.resolve_right hp
  have hswap : ∀ r, r < n → ∑ c in Finset.range n, tmp.entry (rowSwap i row r) c * v c = 0 := by
    intro r hr
    by_cases h : r = row
    · rw [h, rowSwap_row]; exact hrowsum
    · have h' := hv r hr
      simp only [ht, roundEntry, h, if_false] at h'
      have e : ∑ c in Finset.range n, (tmp.entry (rowSwap i row r) c -
            tmp.entry (rowSwap i row r) lead * (tmp.entry i c / tmp.entry i lead)) * v c =
          ∑ c in Finset.range n, tmp.entry (rowSwap i row r) c * v c -
            tmp.entry (rowSwap i row r) lead *
              ((∑ c in Finset.range n, tmp.entry i c * v c) / tmp.entry i lead) := by
        rw [Finset.sum_div, Finset.mul_sum, ← Finset.sum_sub_distrib]
        exact Finset.sum_congr rfl (fun k _ => by ring)
      rw [e, hrowsum] at h'
      simpa using h'
  intro r hr
  have := hswap (rowSwap i row r) (rowSwap_lt hi hrow hr)
  rw [rowSwap_rowSwap] at this
  exact this

/-- A round whose pivot lies in column `row` turns that column into a unit vector and
keeps the unit columns to its left. -/
theorem round_unit [Field α] (tmp t : Matrix α) (n : Nat) {i row : Nat}
    (hri : row ≤ i) (hp : tmp.entry i row ≠ 0)
    (hB : ∀ r c, c < row → r < n → tmp.entry r c = if r = c then 1 else 0)
    (hi : i < n) (hrow : row < n)
    (ht : ∀ r c, t.entry r c = roundEntry tmp i row row r c) :
    ∀ r c, c < row + 1 → r < n → t.entry r c = if r = c then 1 else 0 := by
  intro r c hc hr
  simp only [ht, roundEntry]
  by_cases hcr : c = row
  · subst hcr
    by_cases h : r = c
    · simp [h, div_self hp]
    · simp [h, div_self hp]
  · have hc' : c < row := by omega
    have hic : tmp.entry i c = 0 := by
      rw [hB i c hc' hi, if_neg (by omega)]
    by_cases h : r = row
    · have : ¬ row = c := by omega
      simp [h, hic, this]
    · simp only [h, if_false, hic, zero_div, mul_zero, sub_zero]
      rw [hB _ c hc' (rowSwap_lt hi hrow hr)]
      by_cases h1 : r = i
      · have e1 : ¬ row = c := by omega
        have e2 : ¬ i = c := by omega
        rw [h1, rowSwap_left, if_neg e1, if_neg e2]
      · rw [rowSwap_of_ne h1 h]

/-- With unit columns to the left of column `row` and an injective left half, column `row`
has a nonzero element at or below row `row`: the pivot search cannot skip it. -/
theorem exists_pivot [Field α] (tmp : Matrix α) (n : Nat) {row : Nat} (hrow : row < n)
    (hB : ∀ r c, c < row → r < n → tmp.entry r c = if r = c then 1 else 0)
    (hK : ∀ v : Nat → α, (∀ r, r < n → ∑ c in Finset.range n, tmp.entry r c * v c = 0) →
      ∀ c, c < n → v c = 0) :
    ∃ k, row ≤ k ∧ k < n ∧ tmp.entry k row ≠ 0 := by
  by_contra hne
  have hz : ∀ k, row ≤ k → k < n → tmp.entry k row = 0 := by
    intro k hk hk'
    by_contra h
    exact hne ⟨k, hk, hk', h⟩
  have h1 := hK (fun c => if c = row then 1 else if c < row then - tmp.entry c row else 0)
    (fun r hr => by
      have e : ∀ c ∈ Finset.range n,
          tmp.entry r c * (if c = row then 1 else if c < row then - tmp.entry c row else 0) =
            (if c = r then (if r < row then - tmp.entry r row else 0) else 0) +
              (if c = row then tmp.entry r row else 0) := by
        intro c hc
        have hcn : c < n := Finset.mem_range.1 hc
        by_cases h1 : c = row
        · subst h1
          by_cases h2 : c = r
          · subst h2; simp
          · simp [h2]
        · by_cases h2 : c < row
          · rw [hB r c h2 hr]
            by_cases h3 : r = c
            · subst h3; simp [h1, h2]
            · have : ¬ c = r := fun h => h3 h.symm
              simp [h1, h2, h3, this]
          · by_cases h3 : c = r
            · subst h3; simp [h1, h2]
            · simp [h1, h2, h3]
      rw [Finset.sum_congr rfl e, Finset.sum_add_distrib, Finset.sum_ite_eq',
        Finset.sum_ite_eq', if_pos (Finset.mem_range.2 hr), if_pos (Finset.mem_range.2 hrow)]
      by_cases h : r < row
      · simp [h]
      · simp [h, hz r (by omega) hr]) row hrow
  simp at h1

end Matrix

namespace Matrix

variable {α : Type}

/-- The invariant rule for `computeInverse` on a square matrix: the call returns the right
half of a final workspace, which has the property that the invariant of `pivot` gives. -/
theorem computeInverse_inv [Field α] [DecidableEq α] (m : Matrix α)
    (hsq : m.numRows = m.numColumns) (P : Nat → Nat → Matrix α → Prop)
    (Q : Matrix α → Prop)
    (h0 : ∀ t : Matrix α, t.numRows = m.numRows → t.numColumns = 2 * m.numRows →
      (∀ i j, t.entry i j =
        if i < m.numRows ∧ j < m.numRows then m.entry i j
        else if i < m.numRows ∧ j = i + m.numRows then 1 else 0) → P 0 0 t)
    (hstep : ∀ (row lead : Nat) (tmp : Matrix α) (i lead' : Nat),
      tmp.numRows = m.numRows → tmp.numColumns = 2 * m.numRows → P row lead tmp → row ≤ i →
      i < m.numRows → lead ≤ lead' → lead' < 2 * m.numRows → tmp.entry i lead' ≠ 0 →
      (∀ c, lead ≤ c → c < lead' → ∀ k, row ≤ k → k < m.numRows → tmp.entry k c = 0) →
      (∀ k, row ≤ k → k < i → tmp.entry k lead' = 0) →
      ∀ t : Matrix α, t.numRows = m.numRows → t.numColumns = 2 * m.numRows →
        (∀ r c, t.entry r c = roundEntry tmp i row lead' r c) → P (row + 1) (lead' + 1) t)
    (hexhausted : ∀ (row lead : Nat) (tmp : Matrix α), tmp.numRows = m.numRows →
      tmp.numColumns = 2 * m.numRows → P row lead tmp → row < m.numRows →
      lead < 2 * m.numRows →
      (∀ c, lead ≤ c → c < 2 * m.numRows → ∀ k, row ≤ k → k < m.numRows →
        tmp.entry k c = 0) → Q tmp)
    (hend : ∀ (row lead : Nat) (tmp : Matrix α), tmp.numRows = m.numRows →
      tmp.numColumns = 2 * m.numRows → P row lead tmp →
      ¬ (row < m.numRows ∧ lead < 2 * m.numRows) → Q tmp) :
    ∃ t : Matrix α,
      m.computeInverse = .ok (ofFn m.numRows m.numRows (fun i j => t.entry i (j + m.numRows))) ∧
      t.numRows = m.numRows ∧ t.numColumns = 2 * m.numRows ∧ Q t := by
  obtain ⟨a, ha, a1, a2, a3⟩ := augmented_spec m hsq
  obtain ⟨t, ht, t1, t2, t3⟩ := pivot_inv m.numRows (2 * m.numRows) P Q hstep hexhausted hend
    (m.numRows + 1) 0 0 a a1 a2 (h0 a a1 a2 a3) (by omega)
  refine ⟨t, ?_, t1, t2, t3⟩
  simp only [computeInverse, ne_eq, hsq, not_true_eq_false, if_false]
  rw [← hsq]
  simp only [ha, ok_bind, ht]
  exact rightHalf_spec t m.numRows t1 t2

/-- C4. On every square matrix, singular ones included, `computeInverse` terminates and
returns a matrix of the same dimensions: the result is no error, so that no access to the
workspace is out of range, the pivot search and the loop of `pivot` end within their fuel,
and no division is by zero. -/
theorem computeInverse_total [Field α] [DecidableEq α] (m : Matrix α)
    (hsq : m.numRows = m.numColumns) :
    ∃ r : Matrix α, m.computeInverse = .ok r ∧ r.numRows = m.numRows ∧
      r.numColumns = m.numRows := by
  obtain ⟨t, ht, _⟩ := computeInverse_inv m hsq (fun _ _ _ => True) (fun _ => True)
    (fun _ _ _ _ => trivial) (fun _ _ _ _ _ _ _ _ _ _ _ _ _ _ _ _ _ _ _ => trivial)
    (fun _ _ _ _ _ _ _ _ _ => trivial) (fun _ _ _ _ _ _ _ => trivial)
  exact ⟨_, ht, rfl, rfl⟩

/-- C5. `computeInverse` throws exactly when the matrix is not square, and what it throws
then is the logic error. -/
theorem computeInverse_error_iff [Field α] [DecidableEq α] (m : Matrix α) (e : Error) :
    m.computeInverse = .error e ↔ e = .logic_error ∧ m.numRows ≠ m.numColumns := by
  by_cases hsq : m.numRows = m.numColumns
  · obtain ⟨t, ht, _⟩ := computeInverse_inv m hsq (fun _ _ _ => True) (fun _ => True)
      (fun _ _ _ _ => trivial) (fun _ _ _ _ _ _ _ _ _ _ _ _ _ _ _ _ _ _ _ => trivial)
      (fun _ _ _ _ _ _ _ _ _ => trivial) (fun _ _ _ _ _ _ _ => trivial)
    simp [ht, hsq]
  · simp only [computeInverse, ne_eq, hsq, not_false_eq_true, if_true, and_true]
    constructor
    · intro h; cases h; rfl
    · intro h; rw [h]

end Matrix

namespace Matrix

variable {α : Type}

theorem ofFn_congr [Zero α] {r c : Nat} {f g : Nat → Nat → α}
    (h : ∀ i j, i < r → j < c → f i j = g i j) : ofFn r c f = ofFn r c g := by
  refine ext' rfl rfl ?_
  intro i j hi hj
  have hi' : i < r := hi
  have hj' : j < c := hj
  rw [entry_ofFn _ _ _ hi' hj', entry_ofFn _ _ _ hi' hj', h i j hi' hj']

theorem entry_identity [Zero α] [One α] {n i j : Nat} (hi : i < n) (hj : j < n) :
    (identity n : Matrix α).entry i j = if i = j then 1 else 0 :=
  entry_ofFn _ _ _ hi hj

/-- What a successful product says about its operands and its elements. -/
theorem mul_eq_ok [Semiring α] {a b p : Matrix α} (h : a.mul b = .ok p) :
    a.numColumns = b.numRows ∧ p.numRows = a.numRows ∧ p.numColumns = b.numColumns ∧
      ∀ i j, i < a.numRows → j < b.numColumns →
        p.entry i j = ∑ k in Finset.range a.numColumns, a.entry i k * b.entry k j := by
  rw [mul_spec] at h
  by_cases hd : a.numColumns = b.numRows
  · rw [if_neg (by simpa using hd)] at h
    cases h
    exact ⟨hd, rfl, rfl, fun i j hi hj => entry_ofFn _ _ _ hi hj⟩
  · rw [if_pos hd] at h
    cases h

/-- The dimensions and the elements of a left inverse. -/
theorem left_inverse_entries [Semiring α] {n m : Matrix α}
    (h : n.mul m = .ok (identity m.numRows)) :
    m.numColumns = m.numRows ∧ n.numRows = m.numRows ∧ n.numColumns = m.numRows ∧
      ∀ i j, i < m.numRows → j < m.numRows →
        ∑ k in Finset.range m.numRows, n.entry i k * m.entry k j = if i = j then 1 else 0 := by
  obtain ⟨h1, h2, h3, h4⟩ := mul_eq_ok h
  have h2' : n.numRows = m.numRows := h2.symm
  have h3' : m.numColumns = m.numRows := h3.symm
  refine ⟨h3', h2', h1, ?_⟩
  intro i j hi hj
  rw [← h1, ← h4 i j (h2' ▸ hi) (h3' ▸ hj)]
  exact entry_identity hi hj

/-- Applying a left inverse after the matrix gives the vector back. -/
theorem apply_left_inverse [CommSemiring α] (n : Nat) (x y : Nat → Nat → α)
    (hxy : ∀ i j, i < n → j < n →
      ∑ k in Finset.range n, x i k * y k j = if i = j then 1 else 0)
    (v : Nat → α) {i : Nat} (hi : i < n) :
    ∑ k in Finset.range n, x i k * ∑ j in Finset.range n, y k j * v j = v i := by
  calc ∑ k in Finset.range n, x i k * ∑ j in Finset.range n, y k j * v j
      = ∑ k in Finset.range n, ∑ j in Finset.range n, x i k * y k j * v j := by
        apply Finset.sum_congr rfl
        intro k _
        rw [Finset.mul_sum]
        exact Finset.sum_congr rfl (fun j _ => (mul_assoc _ _ _).symm)
    _ = ∑ j in Finset.range n, ∑ k in Finset.range n, x i k * y k j * v j := Finset.sum_comm
    _ = ∑ j in Finset.range n, (if i = j then 1 else 0) * v j := by
        apply Finset.sum_congr rfl
        intro j hj
        rw [← Finset.sum_mul, hxy i j hi (Finset.mem_range.1 hj)]
    _ = v i := by
        simp only [ite_mul, one_mul, zero_mul, Finset.sum_ite_eq, Finset.mem_range, hi, if_true]

/-- The inverse that `computeInverse` returns for an invertible matrix is the inverse. -/
theorem computeInverse_eq_inverse [Field α] [DecidableEq α] {n m : Matrix α}
    (h : IsInverse n m) : m.computeInverse = .ok n := by
  obtain ⟨hsq, hn1, hn2, hnm⟩ := left_inverse_entries h.1
  obtain ⟨hd, _, _, hmn'⟩ := mul_eq_ok h.2
  have hmn : ∀ i j, i < m.numRows → j < m.numRows →
      ∑ k in Finset.range m.numRows, m.entry i k * n.entry k j = if i = j then 1 else 0 := by
    intro i j hi hj
    have := hmn' i j hi (hn2 ▸ hj)
    rw [hsq] at this
    rw [← this]
    exact entry_identity hi hj
  obtain ⟨t, ht, t1, t2, tB, tA⟩ := computeInverse_inv m hsq.symm
    (fun row lead t => lead = row ∧
      (∀ r c, r < m.numRows → c < m.numRows →
        t.entry r c = ∑ k in Finset.range m.numRows, t.entry r (k + m.numRows) * m.entry k c) ∧
      (∀ r c, c < row → r < m.numRows → t.entry r c = if r = c then 1 else 0) ∧
      (∀ v : Nat → α,
        (∀ r, r < m.numRows → ∑ c in Finset.range m.numRows, t.entry r c * v c = 0) →
        ∀ c, c < m.numRows → v c = 0))
    (fun t => (∀ r c, c < m.numRows → r < m.numRows → t.entry r c = if r = c then 1 else 0) ∧
      (∀ r c, r < m.numRows → c < m.numRows →
        t.entry r c = ∑ k in Finset.range m.numRows, t.entry r (k + m.numRows) * m.entry k c))
    (fun t _ _ ht => by
      refine ⟨rfl, ?_, fun r c hc _ => absurd hc (Nat.not_lt_zero c), ?_⟩
      · intro r c hr hc
        have e : ∀ k ∈ Finset.range m.numRows,
            t.entry r (k + m.numRows) * m.entry k c = if k = r then m.entry r c else 0 := by
          intro k hk
          have hk' : k < m.numRows := Finset.mem_range.1 hk
          rw [ht r (k + m.numRows), if_neg (by omega)]
          by_cases hkr : k = r
          · subst hkr; simp [hr]
          · have : ¬ k + m.numRows = r + m.numRows := by omega
            simp [hkr, this]
        rw [Finset.sum_congr rfl e, Finset.sum_ite_eq', if_pos (Finset.mem_range.2 hr), ht,
          if_pos ⟨hr, hc⟩]
      · intro v hv c hc
        rw [← apply_left_inverse m.numRows (fun i k => n.entry i k) (fun k j => m.entry k j)
          hnm v hc]
        apply Finset.sum_eq_zero
        intro k hk
        have hk' : k < m.numRows := Finset.mem_range.1 hk
        have := hv k hk'
        have e : ∀ j ∈ Finset.range m.numRows, t.entry k j * v j = m.entry k j * v j := by
          intro j hj
          rw [ht, if_pos ⟨hk', Finset.mem_range.1 hj⟩]
        rw [Finset.sum_congr rfl e] at this
        rw [this, mul_zero])
    (fun row lead tmp i lead' _ _ hP hri hi hll hl' hp hz _ t _ _ ht => by
      obtain ⟨hlead, hA, hB, hK⟩ := hP
      have hrow : row < m.numRows := by omega
      obtain ⟨k, hk1, hk2, hk3⟩ := exists_pivot tmp m.numRows hrow hB hK
      have hl : lead' = row := by
        by_contra hne
        exact hk3 (hz row (by omega) (by omega) k hk1 hk2)
      rw [hl] at ht hp
      rw [hl]
      exact ⟨rfl, round_product m tmp t m.numRows hi hrow hA ht,
        round_unit tmp t m.numRows hri hp hB hi hrow ht,
        round_kernel tmp t m.numRows hi hrow hp hK ht⟩)
    (fun row lead tmp _ _ hP hrow hlead hz => by
      obtain ⟨hl, _, hB, hK⟩ := hP
      obtain ⟨k, hk1, hk2, hk3⟩ := exists_pivot tmp m.numRows hrow hB hK
      exact absurd (hz row (by omega) (by omega) k hk1 hk2) hk3)
    (fun row lead tmp _ _ hP hc => by
      obtain ⟨hl, hA, hB, _⟩ := hP
      have hge : m.numRows ≤ row := by
        by_contra h
        exact hc ⟨by omega, by omega⟩
      exact ⟨fun r c hc' hr => hB r c (by omega) hr, hA⟩)
  rw [ht]
  congr 1
  refine ext' hn1.symm hn2.symm ?_
  intro i j hi hj
  have hi' : i < m.numRows := hi
  have hj' : j < m.numRows := hj
  rw [entry_ofFn _ _ _ hi' hj']
  have hxy : ∀ i j, i < m.numRows → j < m.numRows →
      ∑ k in Finset.range m.numRows, t.entry i (k + m.numRows) * m.entry k j =
        if i = j then 1 else 0 := by
    intro i j hi hj
    rw [← tA i j hi hj, tB i j hj hi]
  have key : ∑ k in Finset.range m.numRows, t.entry i (k + m.numRows) *
      ∑ l in Finset.range m.numRows, m.entry k l * n.entry l j = n.entry i j :=
    apply_left_inverse m.numRows (fun i k => t.entry i (k + m.numRows))
      (fun k j => m.entry k j) hxy (fun l => n.entry l j) hi'
  rw [← key]
  have e : ∀ k ∈ Finset.range m.numRows,
      t.entry i (k + m.numRows) * ∑ l in Finset.range m.numRows, m.entry k l * n.entry l j =
        if k = j then t.entry i (j + m.numRows) else 0 := by
    intro k hk
    rw [hmn k j (Finset.mem_range.1 hk) hj']
    by_cases hkj : k = j
    · subst hkj; simp
    · simp [hkj]
  rw [Finset.sum_congr rfl e, Finset.sum_ite_eq', if_pos (Finset.mem_range.2 hj')]

/-- C1. For an invertible square matrix `m` over a field, with inverse `n` for the product
`operator*`, `m.computeInverse()` succeeds and `m.computeInverse() * m` is the identity
matrix of the size of `m`. -/
theorem computeInverse_mul_self [Field α] [DecidableEq α] (m n : Matrix α)
    (hsq : m.numRows = m.numColumns) (h : IsInverse n m) :
    ∃ r : Matrix α, m.computeInverse = .ok r ∧ r.numRows = m.numRows ∧
      r.numColumns = m.numColumns ∧ r.mul m = .ok (identity m.numRows) := by
  have hr := computeInverse_eq_inverse h
  obtain ⟨_, hn1, hn2, _⟩ := left_inverse_entries h.1
  exact ⟨n, hr, hn1, hn2.trans hsq, h.1⟩

end Matrix

namespace Matrix

variable {α : Type}

/-- The solve `x = g.computeInverse() * b` for an invertible `g` and a right-hand side of
matching size: it succeeds and `g * x = b`. -/
theorem solve_general [Field α] [DecidableEq α] (g n : Matrix α) (b : Vector α)
    (h : IsInverse n g) (hb : b.size = g.numRows) :
    ∃ (r : Matrix α) (x : Vector α), g.computeInverse = .ok r ∧ r.mulVec b = .ok x ∧
      x.size = g.numRows ∧ g.mulVec x = .ok b := by
  obtain ⟨hsq, hn1, hn2, _⟩ := left_inverse_entries h.1
  obtain ⟨_, _, _, hmn'⟩ := mul_eq_ok h.2
  have hmn : ∀ i j, i < g.numRows → j < g.numRows →
      ∑ k in Finset.range g.numRows, g.entry i k * n.entry k j = if i = j then 1 else 0 := by
    intro i j hi hj
    have := hmn' i j hi (hn2 ▸ hj)
    rw [hsq] at this
    rw [← this]
    exact entry_identity hi hj
  refine ⟨n, ⟨(List.range n.numRows).map
    (fun i => ∑ k in Finset.range n.numColumns, n.entry i k * b.entry k)⟩,
    computeInverse_eq_inverse h, ?_, ?_, ?_⟩
  · rw [mulVec_spec, if_neg (by rw [hn2, hb]; simp)]
  · simp [Vector.size, hn1]
  · rw [mulVec_spec, if_neg (by simp [Vector.size, hn1, hsq])]
    congr 1
    apply Vector.ext_entry
    · simp [Vector.size] at hb ⊢; omega
    · intro i hi
      have hi' : i < g.numRows := by simpa [Vector.size] using hi
      rw [Vector.entry_tabulate _ _ hi', hsq, ← apply_left_inverse g.numRows
        (fun i k => g.entry i k) (fun k j => n.entry k j) hmn (fun j => b.entry j) hi']
      apply Finset.sum_congr rfl
      intro k hk
      rw [Vector.entry_tabulate _ _ (by rw [hn1]; exact Finset.mem_range.1 hk), hn2]

theorem entry_two [Zero α] (a b c d : α) (i j : Nat) :
    (Matrix.mk 2 2 [a, b, c, d] rfl).entry i j =
      if i = 0 ∧ j = 0 then a else if i = 0 ∧ j = 1 then b
      else if i = 1 ∧ j = 0 then c else if i = 1 ∧ j = 1 then d else 0 := by
  by_cases hi : i < 2
  · by_cases hj : j < 2
    · have hi' : i = 0 ∨ i = 1 := by omega
      have hj' : j = 0 ∨ j = 1 := by omega
      rcases hi' with rfl | rfl <;> rcases hj' with rfl | rfl <;> (simp [entry, get]; try rfl)
    · rw [entry_of_not _ (fun h => hj h.2)]
      have h0 : j ≠ 0 := by omega
      have h1 : j ≠ 1 := by omega
      simp [h0, h1]
  · rw [entry_of_not _ (fun h => hi h.1)]
    have h0 : i ≠ 0 := by omega
    have h1 : i ≠ 1 := by omega
    simp [h0, h1]

/-- The inverse of the two-node conductance matrix `[[1 + e, -1], [-1, 1 + e]]`. -/
theorem isInverse_two [Field α] [DecidableEq α] (e : α) (he : e * (2 + e) ≠ 0) :
    IsInverse
      (Matrix.mk 2 2 [(1 + e) / (e * (2 + e)), 1 / (e * (2 + e)), 1 / (e * (2 + e)),
        (1 + e) / (e * (2 + e))] rfl)
      (Matrix.mk 2 2 [1 + e, -1, -1, 1 + e] rfl) := by
  have he1 : e ≠ 0 := left_ne_zero_of_mul he
  have he2 : 2 + e ≠ 0 := right_ne_zero_of_mul he
  constructor
  · rw [mul_spec, if_neg (by simp)]
    congr 1
    apply ofFn_congr
    intro i j hi hj
    have hi' : i = 0 ∨ i = 1 := by simp at hi; omega
    have hj' : j = 0 ∨ j = 1 := by simp at hj; omega
    rcases hi' with rfl | rfl <;> rcases hj' with rfl | rfl <;>
      simp [Finset.sum_range_succ, entry_two] <;> field_simp <;> ring
  · rw [mul_spec, if_neg (by simp)]
    congr 1
    apply ofFn_congr
    intro i j hi hj
    have hi' : i = 0 ∨ i = 1 := by simp at hi; omega
    have hj' : j = 0 ∨ j = 1 := by simp at hj; omega
    rcases hi' with rfl | rfl <;> rcases hj' with rfl | rfl <;>
      simp [Finset.sum_range_succ, entry_two] <;> field_simp <;> ring

/-- C2. For an invertible square matrix `g` over a field, with inverse `n`, and a vector
`b` of the size of `g`, the solve `x = g.computeInverse() * b` succeeds, `x` has the size
of `g` and `g * x = b`. In particular for `g = [[1 + e, -1], [-1, 1 + e]]` with
`e * (2 + e) ≠ 0` and `b = [1, 0]` the solve returns
`[(1 + e) / (e * (2 + e)), 1 / (e * (2 + e))]`. -/
theorem solve_spec [Field α] [DecidableEq α] (g n : Matrix α) (b : Vector α)
    (h : IsInverse n g) (hb : b.size = g.numRows) (e : α) (he : e * (2 + e) ≠ 0) :
    (∃ (r : Matrix α) (x : Vector α), g.computeInverse = .ok r ∧ r.mulVec b = .ok x ∧
      x.size = g.numRows ∧ g.mulVec x = .ok b) ∧
    (∃ r : Matrix α, (Matrix.mk 2 2 [1 + e, -1, -1, 1 + e] rfl).computeInverse = .ok r ∧
      r.mulVec ⟨[1, 0]⟩ = .ok ⟨[(1 + e) / (e * (2 + e)), 1 / (e * (2 + e))]⟩) := by
  refine ⟨solve_general g n b h hb, _, computeInverse_eq_inverse (isInverse_two e he), ?_⟩
  show (Matrix.mk 2 2 [(1 + e) / (e * (2 + e)), 1 / (e * (2 + e)), 1 / (e * (2 + e)),
        (1 + e) / (e * (2 + e))] rfl).mulVec ⟨[1, 0]⟩ = _
  rw [mulVec_spec, if_neg (by simp [Vector.size])]
  simp [Finset.sum_range_succ, entry_two, Vector.entry, Vector.get, Vector.size,
    List.range_succ]

end Matrix

namespace Matrix

variable {α : Type}

/-- C3, as amended. In a loop state of `pivot` in which column `lead` has no nonzero
element at or below the current row, the search leaves the workspace as it is and goes
on, without advancing the row, through the columns after `lead`, those of the identity
half included. With the first nonzero element `(i, lead')` it meets there the round is
carried out as on the regular path (`roundEntry`): the current row becomes row `i` divided
by the pivot, and every other row loses its multiple of it. Only when no later column has
a nonzero element at or below the current row does `pivot` return the workspace
unmodified. -/
theorem pivot_skip [Field α] [DecidableEq α] (tmp : Matrix α) (fuel row lead : Nat)
    (hrow : row < tmp.numRows) (hlead : lead < tmp.numColumns)
    (hskip : ∀ k, row ≤ k → k < tmp.numRows → tmp.entry k lead = 0) :
    (∃ (i lead' : Nat) (t : Matrix α), lead < lead' ∧ lead' < tmp.numColumns ∧ row ≤ i ∧
        i < tmp.numRows ∧ tmp.entry i lead' ≠ 0 ∧
        (∀ c, lead ≤ c → c < lead' → ∀ k, row ≤ k → k < tmp.numRows → tmp.entry k c = 0) ∧
        (∀ k, row ≤ k → k < i → tmp.entry k lead' = 0) ∧
        t.numRows = tmp.numRows ∧ t.numColumns = tmp.numColumns ∧
        (∀ r c, t.entry r c = roundEntry tmp i row lead' r c) ∧
        pivot tmp.numRows tmp.numColumns (fuel + 1) row lead tmp =
          pivot tmp.numRows tmp.numColumns fuel (row + 1) (lead' + 1) t) ∨
      ((∀ c, lead ≤ c → c < tmp.numColumns → ∀ k, row ≤ k → k < tmp.numRows →
          tmp.entry k c = 0) ∧
        pivot tmp.numRows tmp.numColumns (fuel + 1) row lead tmp = .ok tmp) := by
  rcases pivotSearch_from_row tmp hrow hlead with
    ⟨i, lead', h, k1, k2, k3, k4, k5, k6, k7⟩ | ⟨h, k1⟩
  · left
    obtain ⟨s, u, t, hs, hu, ht, t1, t2, t3⟩ := round_spec tmp k2 hrow k4 k5
    have hl : lead < lead' := by
      rcases Nat.lt_or_ge lead lead' with h' | h'
      · exact h'
      · have : lead' = lead := by omega
        rw [this] at k5
        exact absurd (hskip i k1 k2) k5
    refine ⟨i, lead', t, hl, k4, k1, k2, k5, k6, k7, t1, t2, t3, ?_⟩
    simp only [pivot, hrow, hlead, and_self, if_true, h, ok_bind, hs, hu, ht]
  · right
    refine ⟨k1, ?_⟩
    simp only [pivot, hrow, hlead, and_self, if_true, h, ok_bind]

/-- The skip path at a concrete loop state: the workspace of `[[1, 1], [1, 1]]` after the
first round, at row 1 and column 1. -/
theorem pivot_skip_witness :
    (1 < onesAfterRound.numRows ∧ 1 < onesAfterRound.numColumns ∧
      ∀ k, 1 ≤ k → k < onesAfterRound.numRows → onesAfterRound.entry k 1 = 0) ∧
    ((∃ (i lead' : Nat) (t : Matrix ℚ), 1 < lead' ∧ lead' < onesAfterRound.numColumns ∧
        1 ≤ i ∧ i < onesAfterRound.numRows ∧ onesAfterRound.entry i lead' ≠ 0 ∧
        (∀ c, 1 ≤ c → c < lead' → ∀ k, 1 ≤ k → k < onesAfterRound.numRows →
          onesAfterRound.entry k c = 0) ∧
        (∀ k, 1 ≤ k → k < i → onesAfterRound.entry k lead' = 0) ∧
        t.numRows = onesAfterRound.numRows ∧ t.numColumns = onesAfterRound.numColumns ∧
        (∀ r c, t.entry r c = roundEntry onesAfterRound i 1 lead' r c) ∧
        pivot onesAfterRound.numRows onesAfterRound.numColumns (1 + 1) 1 1 onesAfterRound =
          pivot onesAfterRound.numRows onesAfterRound.numColumns 1 (1 + 1) (lead' + 1) t) ∨
      ((∀ c, 1 ≤ c → c < onesAfterRound.numColumns → ∀ k, 1 ≤ k →
          k < onesAfterRound.numRows → onesAfterRound.entry k c = 0) ∧
        pivot onesAfterRound.numRows onesAfterRound.numColumns (1 + 1) 1 1 onesAfterRound =
          .ok onesAfterRound)) :=
  have hskip : ∀ k, 1 ≤ k → k < onesAfterRound.numRows → onesAfterRound.entry k 1 = 0 := by
    intro k h1 h2
    have hk : k = 1 := by
      have : onesAfterRound.numRows = 2 := rfl
      omega
    rw [hk]
    decide!
  ⟨⟨by decide, by decide, hskip⟩, pivot_skip onesAfterRound 1 1 1 (by decide) (by decide) hskip⟩

/-- C3, refuted as stated. On `[[1, 1], [1, 1]]` the first round leaves the workspace
`[[1, 1, 1, 0], [0, 0, -1, 1]]`; at row 1 the search finds no nonzero element in column 1
and takes its pivot from column 2 instead, in the identity half; and row 1 of the returned
matrix is `[1, -1]`, not the row `[0, 1]` of the identity. -/
theorem skip_rows_counterexample :
    augmented ones 2 4 = .ok onesAugmented ∧
    pivotSearch onesAugmented 2 4 0 (2 * 4) 0 0 = .ok (.found 0 0) ∧
    (swapRows 4 0 0 onesAugmented >>= normalise 4 0 0 >>= eliminate 2 4 0 0) =
      .ok onesAfterRound ∧
    onesAfterRound.get 1 1 = .ok 0 ∧
    pivotSearch onesAfterRound 2 4 1 (2 * 4) 1 1 = .ok (.found 1 2) ∧
    ones.computeInverse = .ok onesResult ∧
    onesResult.getRow 1 = .ok ⟨[1, -1]⟩ ∧
    (identity 2 : Matrix ℚ).getRow 1 = .ok ⟨[0, 1]⟩ ∧
    onesResult.getRow 1 ≠ (identity 2 : Matrix ℚ).getRow 1 := by
  decide!

/-- The hypotheses and the conclusion of C4 on the singular matrix `[[1, 1], [1, 1]]`. -/
theorem computeInverse_total_witness :
    ones.numRows = ones.numColumns ∧
    ∃ r : Matrix ℚ, ones.computeInverse = .ok r ∧ r.numRows = ones.numRows ∧
      r.numColumns = ones.numRows :=
  ⟨rfl, computeInverse_total ones rfl⟩

/-- The hypotheses and the conclusion of C1 on `[[2, 0], [0, 2]]`, whose inverse
`[[1/2, 0], [0, 1/2]]` is what `computeInverse` returns. -/
theorem computeInverse_mul_self_witness :
    (twos.numRows = twos.numColumns ∧ IsInverse halves twos) ∧
    twos.computeInverse = .ok halves ∧
    ∃ r : Matrix ℚ, twos.computeInverse = .ok r ∧ r.numRows = twos.numRows ∧
      r.numColumns = twos.numColumns ∧ r.mul twos = .ok (identity twos.numRows) :=
  ⟨⟨rfl, by decide!, by decide!⟩, by decide!,
    computeInverse_mul_self twos halves rfl ⟨by decide!, by decide!⟩⟩

/-- The hypotheses and the conclusion of C2 on `[[2, 0], [0, 2]]` with `b = [1, 0]`, and on
the two-node system with `e = 1/10`. -/
theorem solve_spec_witness :
    (IsInverse halves twos ∧ (Vector.mk [1, 0] : Vector ℚ).size = twos.numRows ∧
      (1 / 10 : ℚ) * (2 + 1 / 10) ≠ 0) ∧
    ((∃ (r : Matrix ℚ) (x : Vector ℚ), twos.computeInverse = .ok r ∧
        r.mulVec ⟨[1, 0]⟩ = .ok x ∧ x.size = twos.numRows ∧ twos.mulVec x = .ok ⟨[1, 0]⟩) ∧
      (∃ r : Matrix ℚ,
        (Matrix.mk 2 2 [1 + 1 / 10, -1, -1, 1 + 1 / 10] rfl).computeInverse = .ok r ∧
        r.mulVec ⟨[1, 0]⟩ =
          .ok ⟨[(1 + 1 / 10) / (1 / 10 * (2 + 1 / 10)), 1 / (1 / 10 * (2 + 1 / 10))]⟩)) :=
  ⟨⟨⟨by decide!, by decide!⟩, rfl, by norm_num⟩,
    solve_spec twos halves ⟨[1, 0]⟩ ⟨by decide!, by decide!⟩ rfl (1 / 10) (by norm_num)⟩

end Matrix

namespace Matrix

variable {α : Type}

/-- A pair of nested loops that combines, element by element, the matrix with a second
one of the same dimensions. -/
theorem combine_loop [Zero α] (f : α → α → α) (m rhs : Matrix α)
    (hr : m.numRows = rhs.numRows) (hc : m.numColumns = rhs.numColumns) :
    forLoop m.numRows
      (fun row (t : Matrix α) =>
        forLoop t.numColumns
          (fun column (t : Matrix α) => do
            let x ← t.get row column
            let y ← rhs.get row column
            t.set row column (f x y))
          t)
      m = .ok (ofFn m.numRows m.numColumns (fun i j => f (m.entry i j) (rhs.entry i j))) := by
  obtain ⟨t, ht, h1, h2, h3⟩ := forLoop_inv
    (fun k (t : Matrix α) => t.numRows = m.numRows ∧ t.numColumns = m.numColumns ∧
      ∀ i j, t.entry i j =
        if i < k ∧ j < m.numColumns then f (m.entry i j) (rhs.entry i j) else m.entry i j)
    m.numRows
    (fun row (t : Matrix α) =>
        forLoop t.numColumns
          (fun column (t : Matrix α) => do
            let x ← t.get row column
            let y ← rhs.get row column
            t.set row column (f x y))
          t)
    m ⟨rfl, rfl, fun i j => by simp⟩
    (fun k t hk hP => by
      obtain ⟨h1, h2, h3⟩ := hP
      obtain ⟨t', ht', h1', h2', h3'⟩ := rowFill_loop k t.numColumns
        (fun c => f (m.entry k c) (rhs.entry k c))
        (fun column (t : Matrix α) => do
            let x ← t.get k column
            let y ← rhs.get k column
            t.set k column (f x y)) t (by omega) (Nat.le_refl _)
        (fun s c hc' hs1 hs2 hs3 => by
          have e : s.entry k c = m.entry k c := by
            rw [hs3, if_neg (by omega), h3, if_neg (by omega)]
          have b1 : k < s.numRows := by omega
          have b2 : c < s.numColumns := by omega
          have b3 : k < rhs.numRows := by omega
          have b4 : c < rhs.numColumns := by omega
          simp only [get_ok s b1 b2, get_ok rhs b3 b4, ok_bind, e])
      refine ⟨t', ht', h1'.trans h1, h2'.trans h2, ?_⟩
      intro i j
      rw [h3', h3, h2]
      by_cases hj : j < m.numColumns
      · by_cases hi : i = k
        · simp [hi, hj]
        · by_cases hi' : i < k
          · simp [hi, hj, hi', Nat.lt_succ_of_lt hi']
          · have : ¬ i < k + 1 := by omega
            simp [hi, hi', this]
      · simp [hj])
  rw [ht]
  congr 1
  refine ext' (n := ofFn _ _ _) h1 h2 ?_
  intro i j hi hj
  have hi' : i < m.numRows := by rw [h1] at hi; exact hi
  have hj' : j < m.numColumns := by rw [h2] at hj; exact hj
  rw [h3, if_pos ⟨hi', hj'⟩, entry_ofFn _ _ _ hi' hj']

theorem checkMatchedSize_ok (m rhs : Matrix α) (hr : m.numRows = rhs.numRows)
    (hc : m.numColumns = rhs.numColumns) : m.checkMatchedSize rhs = .ok () := by
  simp [checkMatchedSize, hr, hc]

theorem checkMatchedSize_error (m rhs : Matrix α)
    (h : m.numRows ≠ rhs.numRows ∨ m.numColumns ≠ rhs.numColumns) :
    m.checkMatchedSize rhs = .error .domain_error := by
  simp only [checkMatchedSize, h, if_true]

/-- The in-place difference `operator-=`: the size check, then the elementwise difference. -/
theorem subAssign_spec [Zero α] [Sub α] (m rhs : Matrix α) :
    m.subAssign rhs =
      if m.numRows ≠ rhs.numRows ∨ m.numColumns ≠ rhs.numColumns then .error .domain_error
      else .ok (ofFn m.numRows m.numColumns (fun i j => m.entry i j - rhs.entry i j)) := by
  by_cases h : m.numRows ≠ rhs.numRows ∨ m.numColumns ≠ rhs.numColumns
  · simp only [subAssign, checkMatchedSize_error m rhs h, h, if_true]
  · have hr : m.numRows = rhs.numRows := by
      by_contra h'; exact h (Or.inl h')
    have hc : m.numColumns = rhs.numColumns := by
      by_contra h'; exact h (Or.inr h')
    simp only [subAssign, checkMatchedSize_ok m rhs hr hc, h, if_false]
    exact combine_loop (· - ·) m rhs hr hc

/-- C11, the defect. The binary `operator-` checks the dimensions and then adds the
receiver to its own copy (`difference += this`, read as `difference += *this`): when the
dimensions agree the element `(i, j)` of `A - B` is `A(i, j) + A(i, j)`, not
`A(i, j) - B(i, j)`. For `A = [[3]]` and `B = [[1]]` it returns `[[6]]`, while the in-place
`operator-=` on the same operands leaves `[[2]]`. -/
theorem sub_spec [Zero α] [Add α] (m rhs : Matrix α) :
    m.sub rhs =
        (if m.numRows ≠ rhs.numRows ∨ m.numColumns ≠ rhs.numColumns then .error .domain_error
          else .ok (ofFn m.numRows m.numColumns (fun i j => m.entry i j + m.entry i j))) ∧
      (Matrix.mk 1 1 ([3] : List ℚ) rfl).sub ⟨1, 1, [1], rfl⟩ = .ok ⟨1, 1, [6], rfl⟩ ∧
      (Matrix.mk 1 1 ([3] : List ℚ) rfl).subAssign ⟨1, 1, [1], rfl⟩ = .ok ⟨1, 1, [2], rfl⟩ := by
  refine ⟨?_, by decide!, by decide!⟩
  by_cases h : m.numRows ≠ rhs.numRows ∨ m.numColumns ≠ rhs.numColumns
  · simp only [sub, checkMatchedSize_error m rhs h, h, if_true]
  · simp only [sub, addAssign, checkMatchedSize_ok m m rfl rfl, h, if_false]
    have hr : m.numRows = rhs.numRows := by
      by_contra h'; exact h (Or.inl h')
    have hc : m.numColumns = rhs.numColumns := by
      by_contra h'; exact h (Or.inr h')
    rw [checkMatchedSize_ok m rhs hr hc]
    exact combine_loop (· + ·) m m rfl rfl

/-- The copy loop of the unary `operator-` returns the matrix itself. -/
theorem neg_eq [Zero α] (m : Matrix α) : m.neg = .ok m := by
  obtain ⟨t, ht, h1, h2, h3⟩ := fill_loop m.numRows m.numColumns (fun i j => m.entry i j)
    (fun row column (negated : Matrix α) => do
      let x ← m.get row column
      negated.set row column x)
    (fun row (negated : Matrix α) =>
      forLoop m.numColumns
        (fun column negated => do
          let x ← m.get row column
          negated.set row column x)
        negated)
    (mk' m.numRows m.numColumns 0) (Nat.le_refl _) (Nat.le_refl _)
    (fun t i j hi hj _ _ => by simp only [get_ok m hi hj, ok_bind])
    (fun t i _ _ _ => rfl)
  unfold neg
  rw [ht]
  congr 1
  refine ext' h1 h2 ?_
  intro i j hi hj
  have hi' : i < m.numRows := by rw [h1] at hi; exact hi
  have hj' : j < m.numColumns := by rw [h2] at hj; exact hj
  rw [h3, if_pos ⟨hi', hj'⟩]

end Matrix

/-- The unary `operator-` of `Vector` negates every element, whatever the fresh buffer
holds. -/
theorem Vector.neg_data {α : Type} [InvolutiveNeg α] [Zero α] (v : Vector α) (fresh : Nat → α) :
    v.neg fresh = .ok ⟨v.data.map (fun x => -x)⟩ := by
  obtain ⟨t, ht, hs, he⟩ := forLoop_inv
    (fun k (s : Vector α) => s.size = v.size ∧ ∀ j, j < k → s.entry j = - v.entry j) v.size
    (fun i (negated : Vector α) => do
      let x ← v.get i
      negated.set i (-x))
    (Vector.resize v.size fresh)
    ⟨by simp [Vector.resize, Vector.size], fun j hj => absurd hj (Nat.not_lt_zero j)⟩
    (fun i s hi hP => by
      have hi' : i < s.data.length := by have := hP.1; simp only [Vector.size] at this hi; omega
      refine ⟨⟨s.data.set i (- v.entry i)⟩, ?_, ?_, ?_⟩
      · simp only [Vector.get_entry v hi, ok_bind, Vector.set_of_lt s _ hi']
      · simpa [Vector.size] using hP.1
      · intro j hj
        rw [Vector.entry_set s _ hi']
        by_cases h : j = i
        · simp [h]
        · rw [if_neg h]; exact hP.2 j (by omega))
  unfold Vector.neg
  rw [ht]
  congr 1
  apply Vector.ext_entry
  · simpa [Vector.size] using hs
  · intro k hk
    have hk' : k < v.size := hs ▸ hk
    rw [he k hk', Vector.entry_of_lt v hk', Vector.entry_of_lt _ (by simpa [Vector.size] using hk')]
    simp

namespace Matrix

variable {α : Type}

/-- C20, the defect. The unary `operator-` of `Matrix` returns a copy of the matrix: the
dimensions are those of `M`, but the element `(i, j)` is `M(i, j)`, not its negation; for
`M = [[1]]` it returns `[[1]]`. The unary `operator-` of `Vector` does negate every
element. -/
theorem neg_spec [Ring α] (m : Matrix α) (v : Vector α) (fresh : Nat → α) :
    m.neg = .ok m ∧
      (Matrix.mk 1 1 ([1] : List ℚ) rfl).neg = .ok ⟨1, 1, [1], rfl⟩ ∧
      (Matrix.mk 1 1 ([1] : List ℚ) rfl).neg ≠ .ok ⟨1, 1, [-1], rfl⟩ ∧
      v.neg fresh = .ok ⟨v.data.map (fun x => -x)⟩ :=
  ⟨neg_eq m, by decide!, by decide!, Vector.neg_data v fresh⟩

end Matrix

theorem forLoopKeep_of_ok {σ : Type} (body : Nat → σ → Except Error σ) (s : σ) :
    ∀ (n : Nat) (t : σ), forLoop n body s = .ok t → forLoopKeep n body s = (.ok (), t) := by
  intro n
  induction n with
  | zero => intro t h; simp only [forLoop] at h; cases h; rfl
  | succ k ih =>
    intro t h
    simp only [forLoop] at h
    cases hk : forLoop k body s with
    | error e => rw [hk] at h; cases h
    | ok t' =>
      rw [hk] at h
      have h' : body k t' = .ok t := h
      simp only [forLoopKeep, ih t' hk, h']

theorem forLoopKeep_of_error {σ : Type} (body : Nat → σ → Except Error σ) (s t : σ)
    (e : Error) (k : Nat) (hk : forLoop k body s = .ok t) (he : body k t = .error e) :
    ∀ n, k < n → forLoopKeep n body s = (.error e, t) := by
  intro n
  induction n with
  | zero => intro h; omega
  | succ n ih =>
    intro h
    by_cases hkn : k = n
    · subst hkn
      simp only [forLoopKeep, forLoopKeep_of_ok body s k t hk, he]
    · simp only [forLoopKeep, ih (by omega)]

namespace Matrix

variable {α : Type}

/-- A loop that stores `g i` at `(i, c)` for `i < n`. -/
theorem columnFill_loop [Zero α] (c n : Nat) (g : Nat → α)
    (body : Nat → Matrix α → Except Error (Matrix α)) (t0 : Matrix α)
    (hc : c < t0.numColumns) (hn : n ≤ t0.numRows)
    (hbody : ∀ (t : Matrix α) (i : Nat), i < n → t.numRows = t0.numRows →
      t.numColumns = t0.numColumns → body i t = t.set i c (g i)) :
    ∃ t, forLoop n body t0 = .ok t ∧ t.numRows = t0.numRows ∧
      t.numColumns = t0.numColumns ∧
      ∀ i j, t.entry i j = if j = c ∧ i < n then g i else t0.entry i j := by
  obtain ⟨t, ht, h1, h2, h3⟩ := forLoop_inv
    (fun k (t : Matrix α) => t.numRows = t0.numRows ∧ t.numColumns = t0.numColumns ∧
      ∀ i j, t.entry i j = if j = c ∧ i < k then g i else t0.entry i j) n body t0
    ⟨rfl, rfl, fun i j => by simp⟩
    (fun k t hk hP => by
      obtain ⟨h1, h2, h3⟩ := hP
      have hk' : k < t.numRows := by omega
      have hc' : c < t.numColumns := by omega
      refine ⟨t.update k c (g k), ?_, h1, h2, ?_⟩
      · rw [hbody t k hk h1 h2, set_ok t _ hk' hc']
      · intro i j
        rw [entry_update t _ hk' hc', h3]
        by_cases hj : j = c
        · by_cases hi : i = k
          · simp [hi, hj]
          · by_cases hi' : i < k
            · simp [hi, hj, hi', Nat.lt_succ_of_lt hi']
            · have : ¬ i < k + 1 := by omega
              simp [hi, hj, hi', this]
        · simp [hj])
  exact ⟨t, ht, h1, h2, h3⟩

/-- What `setRow` does: the two checks, which leave the matrix as it is, then the row. -/
theorem setRow_eq [Zero α] (m : Matrix α) (k : Nat) (v : Vector α) :
    m.setRow k v =
      if k ≥ m.numRows then (.error .out_of_range, m)
      else if v.size ≠ m.numColumns then (.error .domain_error, m)
      else (.ok (), ofFn m.numRows m.numColumns
        (fun i j => if i = k then v.entry j else m.entry i j)) := by
  by_cases hk : k ≥ m.numRows
  · simp only [setRow, hk, if_true]
  · by_cases hv : v.size ≠ m.numColumns
    · simp only [setRow, hk, hv, if_true, if_false, ne_eq, not_false_eq_true]
    · have hv' : v.size = m.numColumns := by simpa using hv
      obtain ⟨t, ht, h1, h2, h3⟩ := rowFill_loop k m.numColumns (fun j => v.entry j)
        (fun columnIndex (m : Matrix α) => do
          let x ← v.get columnIndex
          m.set k columnIndex x) m (by omega) (Nat.le_refl _)
        (fun s j hj _ _ _ => by simp only [Vector.get_entry v (hv' ▸ hj), ok_bind])
      simp only [setRow, hk, hv, if_false]
      rw [forLoopKeep_of_ok _ _ _ _ ht]
      congr 1
      refine ext' (n := ofFn _ _ _) h1 h2 ?_
      intro i j hi hj
      have hi' : i < m.numRows := by rw [h1] at hi; exact hi
      have hj' : j < m.numColumns := by rw [h2] at hj; exact hj
      rw [h3, entry_ofFn _ _ _ hi' hj']
      by_cases h : i = k
      · simp [h, hj']
      · simp [h]

/-- C13. `setRow(k, v)` throws the out-of-range error if `k` is no row of `M`, otherwise
the size-mismatch error (`std::domain_error`) if the size of `v` is not the number of
columns, and in both cases `M` is as before; otherwise it succeeds, and afterwards
`getRow(k)` is `v`, the dimensions are as before and every other row is unchanged. -/
theorem setRow_spec [Zero α] (m : Matrix α) (k : Nat) (v : Vector α) :
    (k ≥ m.numRows → m.setRow k v = (.error .out_of_range, m)) ∧
    (k < m.numRows → v.size ≠ m.numColumns → m.setRow k v = (.error .domain_error, m)) ∧
    (k < m.numRows → v.size = m.numColumns →
      ∃ m' : Matrix α, m.setRow k v = (.ok (), m') ∧ m'.numRows = m.numRows ∧
        m'.numColumns = m.numColumns ∧ m'.getRow k = .ok v ∧
        ∀ i, i ≠ k → m'.getRow i = m.getRow i) := by
  refine ⟨fun hk => ?_, fun hk hv => ?_, fun hk hv => ?_⟩
  · rw [setRow_eq, if_pos hk]
  · rw [setRow_eq, if_neg (by omega), if_pos hv]
  · refine ⟨ofFn m.numRows m.numColumns (fun i j => if i = k then v.entry j else m.entry i j),
      ?_, rfl, rfl, ?_, ?_⟩
    · rw [setRow_eq, if_neg (by omega), if_neg (by simpa using hv)]
    · rw [getRow_eq _ (by simpa [ofFn] using hk)]
      congr 1
      apply Vector.ext_entry
      · simp [Vector.size, ofFn] at hv ⊢; omega
      · intro j hj
        have hj' : j < m.numColumns := by simpa [Vector.size, ofFn] using hj
        refine (Vector.entry_tabulate m.numColumns _ hj').trans ?_
        rw [entry_ofFn _ _ _ hk hj', if_pos rfl]
    · intro i hi
      by_cases hir : i < m.numRows
      · rw [getRow_eq _ (by simpa [ofFn] using hir), getRow_eq m hir]
        congr 2
        apply List.map_congr_left
        intro j hj
        have hj' : j < m.numColumns := by simpa [ofFn] using hj
        rw [entry_ofFn _ _ _ hir hj', if_neg hi]
      · have h1 : i ≥ (ofFn m.numRows m.numColumns
            (fun i j => if i = k then v.entry j else m.entry i j)).numRows := by
          simp only [ofFn]; omega
        simp only [getRow, h1, if_true, show i ≥ m.numRows by omega]

/-- The hypotheses and the conclusion of C13 on `[[1, 2], [3, 4]]`, row 1 and `[5, 6]`. -/
theorem setRow_spec_witness :
    (1 < (Matrix.mk 2 2 ([1, 2, 3, 4] : List ℚ) rfl).numRows ∧
      (Vector.mk ([5, 6] : List ℚ)).size = (Matrix.mk 2 2 ([1, 2, 3, 4] : List ℚ) rfl).numColumns) ∧
    ∃ m' : Matrix ℚ, (Matrix.mk 2 2 ([1, 2, 3, 4] : List ℚ) rfl).setRow 1 ⟨[5, 6]⟩ = (.ok (), m') ∧
      m'.numRows = 2 ∧ m'.numColumns = 2 ∧ m'.getRow 1 = .ok ⟨[5, 6]⟩ ∧
      ∀ i, i ≠ 1 → m'.getRow i = (Matrix.mk 2 2 ([1, 2, 3, 4] : List ℚ) rfl).getRow i :=
  ⟨⟨by decide, rfl⟩, (setRow_spec (Matrix.mk 2 2 ([1, 2, 3, 4] : List ℚ) rfl) 1 ⟨[5, 6]⟩).2.2
    (by decide) rfl⟩

end Matrix

namespace Matrix

variable {α : Type}

/-- What `setColumn` does after its two checks: its loop runs over the row indices below
the number of columns. It stores `column[i]` at `(i, columnIndex)` for the rows `i` below
the number of columns, and it ends in the out-of-range error, with the column stored,
when there are more columns than rows. -/
theorem setColumn_eq [Zero α] (m : Matrix α) (k : Nat) (v : Vector α) :
    m.setColumn k v =
      if k ≥ m.numColumns then (.error .out_of_range, m)
      else if v.size ≠ m.numRows then (.error .domain_error, m)
      else (if m.numColumns ≤ m.numRows then .ok () else .error .out_of_range,
        ofFn m.numRows m.numColumns
          (fun i j => if j = k ∧ i < m.numColumns then v.entry i else m.entry i j)) := by
  by_cases hk : k ≥ m.numColumns
  · simp only [setColumn, hk, if_true]
  · by_cases hv : v.size ≠ m.numRows
    · simp only [setColumn, hk, hv, if_true, if_false, ne_eq, not_false_eq_true]
    · have hv' : v.size = m.numRows := by simpa using hv
      simp only [setColumn, hk, hv, if_false]
      by_cases hcr : m.numColumns ≤ m.numRows
      · obtain ⟨t, ht, h1, h2, h3⟩ := columnFill_loop k m.numColumns (fun i => v.entry i)
          (fun rowIndex (m : Matrix α) => do
            let x ← v.get rowIndex
            m.set rowIndex k x) m (by omega) hcr
          (fun s i hi _ _ => by
            have hi' : i < v.size := by omega
            simp only [Vector.get_entry v hi', ok_bind])
        rw [forLoopKeep_of_ok _ _ _ _ ht, if_pos hcr]
        congr 1
        refine ext' (n := ofFn _ _ _) h1 h2 ?_
        intro i j hi hj
        have hi' : i < m.numRows := by rw [h1] at hi; exact hi
        have hj' : j < m.numColumns := by rw [h2] at hj; exact hj
        rw [h3, entry_ofFn _ _ _ hi' hj']
      · obtain ⟨t, ht, h1, h2, h3⟩ := columnFill_loop k m.numRows (fun i => v.entry i)
          (fun rowIndex (m : Matrix α) => do
            let x ← v.get rowIndex
            m.set rowIndex k x) m (by omega) (Nat.le_refl _)
          (fun s i hi _ _ => by
            have hi' : i < v.size := by omega
            simp only [Vector.get_entry v hi', ok_bind])
        have he : (fun rowIndex (m : Matrix α) => do
            let x ← v.get rowIndex
            m.set rowIndex k x) m.numRows t = .error .out_of_range := by
          have : ¬ m.numRows < v.size := by omega
          simp [Vector.get, this]
        rw [forLoopKeep_of_error _ _ _ _ _ ht he _ (by omega), if_neg hcr]
        congr 1
        refine ext' (n := ofFn _ _ _) h1 h2 ?_
        intro i j hi hj
        have hi' : i < m.numRows := by rw [h1] at hi; exact hi
        have hj' : j < m.numColumns := by rw [h2] at hj; exact hj
        rw [h3, entry_ofFn _ _ _ hi' hj']
        have : i < m.numColumns := by omega
        simp [hi', this]

/-- C12, the defect. After its two checks `setColumn(k, v)` runs its loop over the row
indices below the number of columns instead of the number of rows. On the 1-by-2 matrix
`[[0, 0]]`, with `k = 0` and `v = [5]`, it throws the out-of-range error although `k` is a
column and `v` has the size of a column; on the 2-by-1 matrix `[[0], [0]]`, with `k = 0`
and `v = [5, 6]`, it succeeds and leaves the column `[5, 0]`, so that `getColumn(0)` is not
`v`. -/
theorem setColumn_spec [Zero α] (m : Matrix α) (k : Nat) (v : Vector α) :
    m.setColumn k v =
        (if k ≥ m.numColumns then (.error .out_of_range, m)
          else if v.size ≠ m.numRows then (.error .domain_error, m)
          else (if m.numColumns ≤ m.numRows then .ok () else .error .out_of_range,
            ofFn m.numRows m.numColumns
              (fun i j => if j = k ∧ i < m.numColumns then v.entry i else m.entry i j))) ∧
      (Matrix.mk 1 2 ([0, 0] : List ℚ) rfl).setColumn 0 ⟨[5]⟩ =
        (.error .out_of_range, ⟨1, 2, [5, 0], rfl⟩) ∧
      (Matrix.mk 2 1 ([0, 0] : List ℚ) rfl).setColumn 0 ⟨[5, 6]⟩ =
        (.ok (), ⟨2, 1, [5, 0], rfl⟩) ∧
      (Matrix.mk 2 1 ([5, 0] : List ℚ) rfl).getColumn 0 = .ok ⟨[5, 0]⟩ :=
  ⟨setColumn_eq m k v, by decide!, by decide!, by decide!⟩

theorem get_eq_ite [Zero α] (m : Matrix α) (i j : Nat) :
    m.get i j = if i < m.numRows ∧ j < m.numColumns then .ok (m.entry i j)
      else .error .out_of_range := by
  by_cases h : i < m.numRows ∧ j < m.numColumns
  · rw [if_pos h, get_ok m h.1 h.2]
  · rw [if_neg h]
    simp [get, h]

/-- The constructor, statement by statement, fills the fresh buffer. -/
theorem construct_eq [Zero α] (r c : Nat) (fill : α) (fresh : Nat → α) :
    construct r c fill fresh = .ok (mk' r c fill) := by
  obtain ⟨t, ht, h1, h2, h3⟩ := fill_loop r c (fun _ _ => fill)
    (fun row column (m : Matrix α) => m.set row column fill)
    (fun row (m : Matrix α) =>
      forLoop m.numColumns (fun column m => m.set row column fill) m)
    (resize r c fresh) (Nat.le_refl _) (Nat.le_refl _)
    (fun t i j _ _ _ _ => rfl)
    (fun t i _ _ h2 => by dsimp only; rw [h2]; rfl)
  unfold construct fillWith
  rw [show (resize r c fresh).numRows = r from rfl, ht]
  congr 1
  refine ext' (n := mk' _ _ _) h1 h2 ?_
  intro i j hi hj
  have hi' : i < r := by rw [h1] at hi; exact hi
  have hj' : j < c := by rw [h2] at hj; exact hj
  rw [h3, if_pos ⟨hi', hj'⟩, entry_mk' _ _ _ hi' hj']

/-- C17. The matrix `M` that `Construct(r, c, fill)` builds, whatever the fresh buffer
holds: an access `(i, j)` reads `fill` when `i < r` and `j < c` and throws the out-of-range
error otherwise; a write of `v` at `(i, j)` within bounds succeeds, and afterwards
`(i, j)` reads `v` while every other access gives what it gave before; and the offset
`i * c + j` is injective on the indices within bounds. -/
theorem construct_spec [Zero α] (r c : Nat) (fill : α) (fresh : Nat → α) :
    ∃ m : Matrix α, construct r c fill fresh = .ok m ∧ m.numRows = r ∧ m.numColumns = c ∧
      (∀ i j, m.get i j = if i < r ∧ j < c then .ok fill else .error .out_of_range) ∧
      (∀ i j, m.get i j = .error .out_of_range ↔ (i ≥ r ∨ j ≥ c)) ∧
      (∀ i j v, i < r → j < c →
        ∃ m' : Matrix α, m.set i j v = .ok m' ∧ m'.get i j = .ok v ∧
          ∀ i' j', ¬ (i' = i ∧ j' = j) → m'.get i' j' = m.get i' j') ∧
      (∀ i j i' j', j < c → j' < c → (i * c + j = i' * c + j' ↔ i = i' ∧ j = j')) := by
  have hget : ∀ i j, (mk' r c fill).get i j =
      if i < r ∧ j < c then .ok fill else .error .out_of_range := by
    intro i j
    rw [get_eq_ite]
    by_cases h : i < r ∧ j < c
    · rw [if_pos h, if_pos (by simpa [mk'] using h), entry_mk' _ _ _ h.1 h.2]
    · rw [if_neg h, if_neg (by simpa [mk'] using h)]
  refine ⟨mk' r c fill, construct_eq r c fill fresh, rfl, rfl, hget, ?_, ?_, ?_⟩
  · intro i j
    rw [hget]
    by_cases h : i < r ∧ j < c
    · rw [if_pos h]
      constructor
      · intro h'; cases h'
      · intro h'; omega
    · rw [if_neg h]
      constructor
      · intro _; omega
      · intro _; rfl
  · intro i j v hi hj
    have hi' : i < (mk' r c fill).numRows := hi
    have hj' : j < (mk' r c fill).numColumns := hj
    refine ⟨(mk' r c fill).update i j v, set_ok _ _ hi' hj', ?_, ?_⟩
    · rw [get_ok _ (by simpa using hi') (by simpa using hj'), entry_update _ _ hi' hj']
      simp
    · intro i' j' hne
      rw [get_eq_ite, get_eq_ite, entry_update _ _ hi' hj', if_neg hne]
      rfl
  · intro i j i' j' hj hj'
    exact offset_inj hj hj'

end Matrix

theorem Vector.fillWith_data {α : Type} [Zero α] (v : Vector α) (x : α) :
    v.fillWith x = .ok ⟨List.replicate v.size x⟩ := by
  obtain ⟨t, ht, hs, he⟩ := forLoop_inv
    (fun k (s : Vector α) => s.size = v.size ∧ ∀ j, j < k → s.entry j = x) v.size
    (fun i (v : Vector α) => v.set i x) v
    ⟨rfl, fun j hj => absurd hj (Nat.not_lt_zero j)⟩
    (fun i s hi hP => by
      have hi' : i < s.data.length := by have := hP.1; simp only [Vector.size] at this hi; omega
      refine ⟨⟨s.data.set i x⟩, Vector.set_of_lt s _ hi', ?_, ?_⟩
      · simpa [Vector.size] using hP.1
      · intro j hj
        rw [Vector.entry_set s _ hi']
        by_cases h : j = i
        · simp [h]
        · rw [if_neg h]; exact hP.2 j (by omega))
  unfold Vector.fillWith
  rw [ht]
  congr 1
  apply Vector.ext_entry
  · simpa [Vector.size] using hs
  · intro k hk
    have hk' : k < v.size := hs ▸ hk
    rw [he k hk', Vector.entry_of_lt _ (by simpa [Vector.size] using hk')]
    simp

theorem Vector.addAt_data {α : Type} [Zero α] [Add α] (v : Vector α) {i : Nat} (x : α)
    (hi : i < v.size) : v.addAt i x = .ok ⟨v.data.set i (v.entry i + x)⟩ := by
  simp only [Vector.addAt, Vector.get_entry v hi, ok_bind, Vector.set_of_lt v _ hi]

namespace Matrix

variable {α : Type}

/-- The loops of `initialize` store the value everywhere. -/
theorem fillWith_eq [Zero α] (m : Matrix α) (x : α) :
    m.fillWith x = .ok (mk' m.numRows m.numColumns x) := by
  obtain ⟨t, ht, h1, h2, h3⟩ := fill_loop m.numRows m.numColumns (fun _ _ => x)
    (fun row column (m : Matrix α) => m.set row column x)
    (fun row (m : Matrix α) =>
      forLoop m.numColumns (fun column m => m.set row column x) m)
    m (Nat.le_refl _) (Nat.le_refl _)
    (fun t i j _ _ _ _ => rfl)
    (fun t i _ _ h2 => by dsimp only; rw [h2])
  unfold fillWith
  rw [ht]
  congr 1
  refine ext' (n := mk' _ _ _) h1 h2 ?_
  intro i j hi hj
  have hi' : i < m.numRows := by rw [h1] at hi; exact hi
  have hj' : j < m.numColumns := by rw [h2] at hj; exact hj
  rw [h3, if_pos ⟨hi', hj'⟩, entry_mk' _ _ _ hi' hj']

theorem addAt_eq [Zero α] [Add α] (m : Matrix α) {i j : Nat} (x : α) (hi : i < m.numRows)
    (hj : j < m.numColumns) : m.addAt i j x = .ok (m.update i j (m.entry i j + x)) := by
  simp only [addAt, get_ok m hi hj, ok_bind, set_ok m _ hi hj]

/-- On a square matrix `computeInverse` returns a matrix of the same dimensions. -/
theorem computeInverse_shape [Field α] [DecidableEq α] (m : Matrix α)
    (hsq : m.numRows = m.numColumns) :
    ∃ r : Matrix α, m.computeInverse = .ok r ∧ r.numRows = m.numRows ∧
      r.numColumns = m.numRows := by
  obtain ⟨t, ht, _⟩ := computeInverse_inv m hsq (fun _ _ _ => True) (fun _ => True)
    (fun _ _ _ _ => trivial) (fun _ _ _ _ _ _ _ _ _ _ _ _ _ _ _ _ _ _ _ => trivial)
    (fun _ _ _ _ _ _ _ _ _ => trivial) (fun _ _ _ _ _ _ _ => trivial)
  exact ⟨_, ht, rfl, rfl⟩

end Matrix

namespace Driver

/-- Stamps within a matrix keep its dimensions and do not fail. -/
theorem stamp_shape (r c : Nat) :
    ∀ (stamps : List (Nat × Nat × ℚ)) (G : Matrix ℚ), G.numRows = r → G.numColumns = c →
      (∀ s ∈ stamps, s.1 < r ∧ s.2.1 < c) →
      ∃ G', stamp G stamps = .ok G' ∧ G'.numRows = r ∧ G'.numColumns = c := by
  intro stamps
  induction stamps with
  | nil => intro G h1 h2 _; exact ⟨G, rfl, h1, h2⟩
  | cons s rest ih =>
    intro G h1 h2 hs
    obtain ⟨i, j, value⟩ := s
    have hij := hs (i, j, value) (List.mem_cons_self _ _)
    have hi : i < G.numRows := by rw [h1]; exact hij.1
    have hj : j < G.numColumns := by rw [h2]; exact hij.2
    obtain ⟨G', hG', k1, k2⟩ := ih (G.update i j (G.entry i j + value)) h1 h2
      (fun s hs' => hs s (List.mem_cons_of_mem _ hs'))
    exact ⟨G', by simp only [stamp, Matrix.addAt_eq G value hi hj, hG'], k1, k2⟩

/-- The set-up of `G` succeeds and gives a 7-by-7 matrix. -/
theorem assembleG_shape (p : Params) :
    ∃ G, assembleG p = .ok G ∧ G.numRows = 7 ∧ G.numColumns = 7 := by
  obtain ⟨G, hG, h1, h2⟩ := stamp_shape 7 7 (stampsG p) (Matrix.mk' 7 7 0) rfl rfl
    (by
      intro s hs
      simp only [stampsG, List.mem_cons, List.mem_singleton, List.not_mem_nil, or_false] at hs
      rcases hs with h | h | h | h | h | h | h | h | h | h | h | h | h | h | h | h | h | h | h |
        h | h | h | h | h | h | h | h | h | h | h | h | h | h | h | h | h | h | h | h | h <;>
        (subst h; constructor <;> simp))
  refine ⟨G, ?_, h1, h2⟩
  simp only [assembleG, Matrix.fillWith_eq, ok_bind]
  exact hG

/-- The shape of a state of the step loop: `G` is 7-by-7, `b` and `x` have size 7. -/
theorem step_spec (p : Params) (s : State) (hG1 : s.G.numRows = 7) (hG2 : s.G.numColumns = 7)
    (hb : s.b.size = 7) (hx : s.x.size = 7) :
    ∃ (inverse : Matrix ℚ) (s' : State), step p s = .ok s' ∧ s'.t = s.t + p.h ∧ s'.G = s.G ∧
      s'.b.size = 7 ∧ s'.x.size = 7 ∧
      s'.emitted = s.emitted ++ [⟨s.t, s.x.entry 4, s.x.entry 3⟩] ∧
      s'.b = ⟨[0, 0, 0, s.x.entry 3 * p.Jm / p.h + s.x.entry 3 / p.h,
        -s.x.entry 4 * p.La / p.h, 0, p.Va]⟩ ∧
      s.G.computeInverse = .ok inverse ∧ inverse.mulVec s'.b = .ok s'.x := by
  obtain ⟨inverse, hinv, i1, i2⟩ := Matrix.computeInverse_shape s.G (hG1.trans hG2.symm)
  have h3 : (3 : Nat) < s.x.size := by omega
  have h4 : (4 : Nat) < s.x.size := by omega
  have hmul : ∀ b : Vector ℚ, b.size = 7 → ∃ x : Vector ℚ, inverse.mulVec b = .ok x ∧
      x.size = 7 := by
    intro b hb'
    rw [Matrix.mulVec_spec, if_neg (by rw [i2, hG1, hb']; simp)]
    exact ⟨_, rfl, by simp [Vector.size, i1, hG1]⟩
  obtain ⟨x, hx1, hx2⟩ := hmul ⟨[0, 0, 0, s.x.entry 3 * p.Jm / p.h + s.x.entry 3 / p.h,
        -s.x.entry 4 * p.La / p.h, 0, p.Va]⟩ rfl
  refine ⟨inverse, ⟨s.t + p.h, s.G, ⟨[0, 0, 0, s.x.entry 3 * p.Jm / p.h + s.x.entry 3 / p.h,
        -s.x.entry 4 * p.La / p.h, 0, p.Va]⟩, x,
      s.emitted ++ [⟨s.t, s.x.entry 4, s.x.entry 3⟩]⟩, ?_, rfl, rfl, rfl, hx2, rfl, rfl, hinv,
    hx1⟩
  simp only [neg_mul] at hx1
  simp only [step, Vector.get_entry s.x h3, Vector.get_entry s.x h4, ok_bind,
    Vector.fillWith_data, hb, hinv]
  simp only [Vector.addAt, Vector.get, Vector.set, Vector.size, List.replicate,
    List.length_cons, List.length_nil, List.length_set]
  simp [hx1, Vector.moveAssign]

end Driver

namespace Driver

/-- Every number of rounds of the step loop succeeds and keeps the shape of the state. -/
theorem steps_shape (p : Params) :
    ∀ (n : Nat) (s : State), s.G.numRows = 7 → s.G.numColumns = 7 → s.b.size = 7 →
      s.x.size = 7 →
      ∃ s', steps p n s = .ok s' ∧ s'.G = s.G ∧ s'.b.size = 7 ∧ s'.x.size = 7 := by
  intro n
  induction n with
  | zero => intro s _ _ hb hx; exact ⟨s, rfl, rfl, hb, hx⟩
  | succ n ih =>
    intro s h1 h2 hb hx
    obtain ⟨_, s1, hs1, _, k2, k3, k4, _⟩ := step_spec p s h1 h2 hb hx
    obtain ⟨s', hs', j1, j2, j3⟩ := ih s1 (k2 ▸ h1) (k2 ▸ h2) k3 k4
    exact ⟨s', by simp only [steps, hs1, hs'], j1.trans k2, j2, j3⟩

/-- C15. In the state that the step loop reaches after any number `n` of rounds, `G` is
the 7-by-7 matrix that the set-up assembled, and `b` and `x` have size 7; so the reads
`x[3]` and `x[4]`, the accesses `b[0]` to `b[6]` and the next round, with its product
`G.computeInverse() * b`, do not throw. -/
theorem reachable_shape (p : Params) (n : Nat) :
    ∃ (G : Matrix ℚ) (s s' : State), assembleG p = .ok G ∧ G.numRows = 7 ∧
      G.numColumns = 7 ∧ steps p n (initial G) = .ok s ∧ s.G = G ∧ s.b.size = 7 ∧
      s.x.size = 7 ∧ s.x.get 3 = .ok (s.x.entry 3) ∧ s.x.get 4 = .ok (s.x.entry 4) ∧
      (∀ i, i < 7 → s.b.get i = .ok (s.b.entry i)) ∧ step p s = .ok s' := by
  obtain ⟨G, hG, h1, h2⟩ := assembleG_shape p
  obtain ⟨s, hs, k1, k2, k3⟩ := steps_shape p n (initial G) h1 h2 rfl rfl
  have k1' : s.G = G := k1
  obtain ⟨_, s', hs', _⟩ := step_spec p s (k1' ▸ h1) (k1' ▸ h2) k2 k3
  exact ⟨G, s, s', hG, h1, h2, hs, k1', k2, k3, Vector.get_entry s.x (by omega),
    Vector.get_entry s.x (by omega), fun i hi => Vector.get_entry s.b (by omega), hs'⟩

/-- The step loop from a state of the right shape, with a positive step and enough fuel:
it runs `⌈(tmax - t) / h⌉` rounds, and round `k` emits its sample at time `t + k * h`. -/
theorem run_spec (p : Params) (hh : 0 < p.h) :
    ∀ (fuel : Nat) (s : State), s.G.numRows = 7 → s.G.numColumns = 7 → s.b.size = 7 →
      s.x.size = 7 → ⌈(p.tmax - s.t) / p.h⌉₊ < fuel →
      ∃ (s' : State) (rest : List Sample), run p fuel s = .ok s' ∧
        steps p ⌈(p.tmax - s.t) / p.h⌉₊ s = .ok s' ∧
        s'.emitted = s.emitted ++ rest ∧
        rest.map (fun e => e.t) =
          (List.range ⌈(p.tmax - s.t) / p.h⌉₊).map (fun (k : Nat) => s.t + (k : ℚ) * p.h) ∧
        (s.t < p.tmax → rest.head? = some ⟨s.t, s.x.entry 4, s.x.entry 3⟩) := by
  intro fuel
  induction fuel with
  | zero => intro s _ _ _ _ hf; omega
  | succ fuel ih =>
    intro s h1 h2 hb hx hf
    by_cases ht : s.t < p.tmax
    · obtain ⟨_, s1, hs1, k1, k2, k3, k4, k5, _⟩ := step_spec p s h1 h2 hb hx
      have hpos : 0 < (p.tmax - s.t) / p.h := div_pos (sub_pos.2 ht) hh
      have hn : 0 < ⌈(p.tmax - s.t) / p.h⌉₊ := Nat.ceil_pos.2 hpos
      have he : (p.tmax - s1.t) / p.h = (p.tmax - s.t) / p.h - 1 := by
        rw [k1]; field_simp; ring
      have hn1 : ⌈(p.tmax - s1.t) / p.h⌉₊ = ⌈(p.tmax - s.t) / p.h⌉₊ - 1 := by
        rw [he]
        rcases le_or_lt 0 ((p.tmax - s.t) / p.h - 1) with h0 | h0
        · have := Nat.ceil_add_one h0
          rw [sub_add_cancel] at this
          omega
        · have e1 : ⌈(p.tmax - s.t) / p.h - 1⌉₊ = 0 := Nat.ceil_eq_zero.2 (le_of_lt h0)
          have e2 : ⌈(p.tmax - s.t) / p.h⌉₊ ≤ 1 := by
            rw [Nat.ceil_le]; push_cast; linarith
          omega
      obtain ⟨s', rest, r1, r2, r3, r4, _⟩ := ih s1 (k2 ▸ h1) (k2 ▸ h2) k3 k4
        (by rw [hn1]; omega)
      obtain ⟨m, hm⟩ : ∃ m, ⌈(p.tmax - s.t) / p.h⌉₊ = m + 1 := ⟨_, (Nat.succ_pred_eq_of_pos hn).symm⟩
      rw [hm] at hn1 ⊢
      simp only [Nat.add_sub_cancel] at hn1
      rw [hn1] at r2 r4
      refine ⟨s', ⟨s.t, s.x.entry 4, s.x.entry 3⟩ :: rest, ?_, ?_, ?_, ?_, fun _ => rfl⟩
      · simp only [run, ht, if_true, hs1, r1]
      · simp only [steps, hs1, r2]
      · rw [r3, k5, List.append_assoc]; rfl
      · rw [List.map_cons, r4, List.range_succ_eq_map, List.map_cons, List.map_map]
        congr 1
        · simp
        · apply List.map_congr_left
          intro k _
          simp only [Function.comp, k1]
          push_cast
          ring
    · have hz : ⌈(p.tmax - s.t) / p.h⌉₊ = 0 := by
        rw [Nat.ceil_eq_zero]
        exact div_nonpos_of_nonpos_of_nonneg (by linarith) (le_of_lt hh)
      refine ⟨s, [], ?_, ?_, by simp, by simp [hz], fun h => absurd h ht⟩
      · simp only [run, ht, if_false]
      · rw [hz]; rfl

end Driver

namespace Driver

/-- The samples of `main` for a positive step and enough fuel. -/
theorem main_general (p : Params) (hh : 0 < p.h) (fuel : Nat)
    (hf : ⌈p.tmax / p.h⌉₊ < fuel) :
    ∃ s : State, main p fuel = .ok s ∧ s.emitted.length = ⌈p.tmax / p.h⌉₊ ∧
      s.emitted.map (fun e => e.t) =
        (List.range ⌈p.tmax / p.h⌉₊).map (fun (k : Nat) => (k : ℚ) * p.h) ∧
      (0 < p.tmax → s.emitted.head? = some ⟨0, 0, 0⟩) := by
  obtain ⟨G, hG, h1, h2⟩ := assembleG_shape p
  have hf' : ⌈(p.tmax - (initial G).t) / p.h⌉₊ < fuel := by
    simpa [initial] using hf
  obtain ⟨s, rest, r1, _, r3, r4, r5⟩ := run_spec p hh fuel (initial G) h1 h2 rfl rfl hf'
  have e0 : (initial G).t = 0 := rfl
  have e1 : (initial G).emitted = [] := rfl
  have e3 : (initial G).x.entry 3 = 0 := by
    show (Vector.mk' 7 (0 : ℚ)).entry 3 = 0
    decide!
  have e4 : (initial G).x.entry 4 = 0 := by
    show (Vector.mk' 7 (0 : ℚ)).entry 4 = 0
    decide!
  rw [e0, sub_zero] at r4
  rw [e0, e3, e4] at r5
  rw [e1, List.nil_append] at r3
  simp only [zero_add] at r4
  refine ⟨s, ?_, ?_, ?_, ?_⟩
  · simp only [main, hG, ok_bind]
    exact r1
  · have := congrArg List.length r4
    simpa [r3] using this
  · rw [r3, r4]
  · intro ht
    rw [r3]
    exact r5 ht

/-- C14. With the time kept in exact arithmetic, a positive step `h` and enough fuel, the
step loop of `main` emits exactly `⌈tmax / h⌉` samples, the `k`-th at time `k * h`, and
the first of them carries the value 0 of the cold-start state; with `tmax = 0.01` and
`h = 0.001` these are 10 samples at the times `0.000, 0.001, ..., 0.009`. -/
theorem main_samples (p : Params) (hh : 0 < p.h) (fuel : Nat)
    (hf : ⌈p.tmax / p.h⌉₊ < fuel) :
    (∃ s : State, main p fuel = .ok s ∧ s.emitted.length = ⌈p.tmax / p.h⌉₊ ∧
      s.emitted.map (fun e => e.t) =
        (List.range ⌈p.tmax / p.h⌉₊).map (fun (k : Nat) => (k : ℚ) * p.h) ∧
      (0 < p.tmax → s.emitted.head? = some ⟨0, 0, 0⟩)) ∧
    (∃ s : State,
      main ⟨1 / 100, 1 / 1000, 1 / 2, 1 / 100, 1 / 10, 1 / 200, 1 / 10, 1 / 10, 10⟩ 11 =
        .ok s ∧
      s.emitted.length = 10 ∧
      s.emitted.map (fun e => e.t) =
        [0, 1 / 1000, 2 / 1000, 3 / 1000, 4 / 1000, 5 / 1000, 6 / 1000, 7 / 1000, 8 / 1000,
          9 / 1000] ∧
      s.emitted.head? = some ⟨0, 0, 0⟩) := by
  refine ⟨main_general p hh fuel hf, ?_⟩
  have hc : ⌈(1 / 100 : ℚ) / (1 / 1000)⌉₊ = 10 := by
    have : (1 / 100 : ℚ) / (1 / 1000) = ((10 : ℕ) : ℚ) := by norm_num
    rw [this, Nat.ceil_natCast]
  obtain ⟨s, k1, k2, k3, k4⟩ := main_general
    ⟨1 / 100, 1 / 1000, 1 / 2, 1 / 100, 1 / 10, 1 / 200, 1 / 10, 1 / 10, 10⟩
    (by norm_num) 11 (by
      show ⌈(1 / 100 : ℚ) / (1 / 1000)⌉₊ < 11
      rw [hc]; decide)
  refine ⟨s, k1, ?_, ?_, k4 (by norm_num)⟩
  · rw [k2]; exact hc
  · rw [k3]
    show List.map (fun (k : Nat) => (k : ℚ) * (1 / 1000)) (List.range ⌈(1 / 100 : ℚ) / (1 / 1000)⌉₊) = _
    rw [hc]
    decide!

/-- The hypotheses and the conclusion of C14 for `tmax = 0.003` and `h = 0.001`, where the
run is carried out: three samples, at the times 0, 0.001 and 0.002. -/
theorem main_samples_witness :
    ((0 : ℚ) < 1 / 1000 ∧ ⌈(3 / 1000 : ℚ) / (1 / 1000)⌉₊ < 4) ∧
    (main ⟨3 / 1000, 1 / 1000, 1 / 2, 1 / 100, 1 / 10, 1 / 200, 1 / 10, 1 / 10, 10⟩ 4).map
        (fun s => s.emitted.map (fun e => e.t)) = .ok [0, 1 / 1000, 2 / 1000] ∧
    ((∃ s : State,
        main ⟨3 / 1000, 1 / 1000, 1 / 2, 1 / 100, 1 / 10, 1 / 200, 1 / 10, 1 / 10, 10⟩ 4 = .ok s ∧
        s.emitted.length = ⌈(3 / 1000 : ℚ) / (1 / 1000)⌉₊ ∧
        s.emitted.map (fun e => e.t) =
          (List.range ⌈(3 / 1000 : ℚ) / (1 / 1000)⌉₊).map (fun (k : Nat) => (k : ℚ) * (1 / 1000)) ∧
        ((0 : ℚ) < 3 / 1000 → s.emitted.head? = some ⟨0, 0, 0⟩)) ∧
      (∃ s : State,
        main ⟨1 / 100, 1 / 1000, 1 / 2, 1 / 100, 1 / 10, 1 / 200, 1 / 10, 1 / 10, 10⟩ 11 =
          .ok s ∧
        s.emitted.length = 10 ∧
        s.emitted.map (fun e => e.t) =
          [0, 1 / 1000, 2 / 1000, 3 / 1000, 4 / 1000, 5 / 1000, 6 / 1000, 7 / 1000, 8 / 1000,
            9 / 1000] ∧
        s.emitted.head? = some ⟨0, 0, 0⟩)) :=
  have hc : ⌈(3 / 1000 : ℚ) / (1 / 1000)⌉₊ = 3 := by
    have : (3 / 1000 : ℚ) / (1 / 1000) = ((3 : ℕ) : ℚ) := by norm_num
    rw [this, Nat.ceil_natCast]
  ⟨⟨by norm_num, by rw [hc]; decide⟩, by decide!,
    main_samples ⟨3 / 1000, 1 / 1000, 1 / 2, 1 / 100, 1 / 10, 1 / 200, 1 / 10, 1 / 10, 10⟩
      (by norm_num) 4 (by
        show ⌈(3 / 1000 : ℚ) / (1 / 1000)⌉₊ < 4
        rw [hc]; decide)⟩

end Driver

namespace Driver

open Matrix in
/-- C19. The matrix `G` that `main` assembles from the values in the source, taken as
exact rationals, is `sourceG`, which has the inverse `sourceInverse`; on it every round of
`pivot` finds its pivot in the column at which its search starts, so that the search never
takes the skip path; and after any number `n` of rounds of the step loop the next round
rebuilds `b` from the previous `x` only, as
`[0, 0, 0, x[3] * Jm / h + x[3] / h, -x[4] * La / h, 0, Va]`, and leaves an `x` with
`G * x = b`. -/
theorem source_solve (n : Nat) :
    assembleG sourceParams = .ok sourceG ∧ IsInverse sourceInverse sourceG ∧
    (augmented sourceG 7 14 >>= pivotRounds 7 14 8 0 0) =
      .ok [(0, 0, 0), (1, 1, 1), (2, 2, 2), (3, 3, 3), (4, 4, 4), (5, 5, 5), (6, 6, 6)] ∧
    ∃ s s' : State, steps sourceParams n (initial sourceG) = .ok s ∧
      step sourceParams s = .ok s' ∧
      s'.b = ⟨[0, 0, 0,
        s.x.entry 3 * sourceParams.Jm / sourceParams.h + s.x.entry 3 / sourceParams.h,
        -s.x.entry 4 * sourceParams.La / sourceParams.h, 0, sourceParams.Va]⟩ ∧
      sourceG.mulVec s'.x = .ok s'.b := by
  have hinv : IsInverse sourceInverse sourceG := ⟨by decide!, by decide!⟩
  refine ⟨by decide!, hinv, by decide!, ?_⟩
  obtain ⟨s, hs, k1, k2, k3⟩ := steps_shape sourceParams n (initial sourceG) rfl rfl rfl rfl
  have k1' : s.G = sourceG := k1
  obtain ⟨inverse, s', hs', _, _, j3, _, _, j6, j7, j8⟩ :=
    step_spec sourceParams s (k1' ▸ rfl) (k1' ▸ rfl) k2 k3
  refine ⟨s, s', hs, hs', j6, ?_⟩
  obtain ⟨r, x, r1, r2, _, r4⟩ := solve_general sourceG sourceInverse s'.b hinv j3
  rw [k1'] at j7
  rw [r1] at j7
  cases j7
  rw [r2] at j8
  cases j8
  exact r4

end Driver

end Circuit

namespace CircuitAlgebra

/-- A square array over a field whose rows annihilate no nonzero column vector has a
two-sided inverse. The arrays are functions of two indices below `n`, as `entry` gives
them, and the step from the trivial kernel to the inverse is the one of linear algebra. -/
theorem exists_inverse_of_kernel {α : Type} [Field α] (n : Nat) (r : Nat → Nat → α)
    (hK : ∀ v : Nat → α, (∀ i, i < n → ∑ j in Finset.range n, r i j * v j = 0) →
      ∀ j, j < n → v j = 0) :
    ∃ s : Nat → Nat → α,
      (∀ i j, i < n → j < n →
        ∑ k in Finset.range n, s i k * r k j = if i = j then 1 else 0) ∧
      (∀ i j, i < n → j < n →
        ∑ k in Finset.range n, r i k * s k j = if i = j then 1 else 0) := by
  classical
  let A : Matrix (Fin n) (Fin n) α := Matrix.of (fun i j => r i j)
  have hinj : Function.Injective A.mulVec := by
    intro w1 w2 hw
    have h0 : A.mulVec (w1 - w2) = 0 := by rw [Matrix.mulVec_sub, hw, sub_self]
    have hz : ∀ j, j < n → (fun j => if h : j < n then (w1 - w2) ⟨j, h⟩ else 0) j = 0 := by
      apply hK
      intro i hi
      rw [Finset.sum_range]
      have := congrFun h0 ⟨i, hi⟩
      simp only [Matrix.mulVec, Matrix.dotProduct, Pi.zero_apply] at this
      rw [← this]
      apply Finset.sum_congr rfl
      intro j _
      simp [A]
    funext j
    have := hz j j.2
    simp only [j.2, dif_pos, Fin.eta, Pi.sub_apply] at this
    exact sub_eq_zero.1 this
  have hu : IsUnit A.det :=
    (Matrix.isUnit_iff_isUnit_det A).1 (Matrix.mulVec_injective_iff_isUnit.1 hinj)
  have h1 : A⁻¹ * A = 1 := Matrix.nonsing_inv_mul A hu
  have h2 : A * A⁻¹ = 1 := Matrix.mul_nonsing_inv A hu
  refine ⟨fun i j => if h : i < n ∧ j < n then A⁻¹ ⟨i, h.1⟩ ⟨j, h.2⟩ else 0, ?_, ?_⟩
  · intro i j hi hj
    have := congrFun (congrFun h1 ⟨i, hi⟩) ⟨j, hj⟩
    rw [Matrix.mul_apply, Matrix.one_apply] at this
    rw [Finset.sum_range]
    simp only [Fin.mk.injEq] at this
    rw [← this]
    apply Finset.sum_congr rfl
    intro k _
    simp [A, hi]
  · intro i j hi hj
    have := congrFun (congrFun h2 ⟨i, hi⟩) ⟨j, hj⟩
    rw [Matrix.mul_apply, Matrix.one_apply] at this
    rw [Finset.sum_range]
    simp only [Fin.mk.injEq] at this
    rw [← this]
    apply Finset.sum_congr rfl
    intro k _
    simp [A, hj]

end CircuitAlgebra

namespace Circuit

namespace Matrix

variable {α : Type}

/-- Every round keeps the right half of the workspace injective on column vectors. -/
theorem round_kernel_right [Field α] (tmp t : Matrix α) (n : Nat) {i row lead : Nat}
    (hi : i < n) (hrow : row < n) (hp : tmp.entry i lead ≠ 0)
    (hK : ∀ v : Nat → α,
      (∀ r, r < n → ∑ c in Finset.range n, tmp.entry r (c + n) * v c = 0) →
      ∀ c, c < n → v c = 0)
    (ht : ∀ r c, t.entry r c = roundEntry tmp i row lead r c) :
    ∀ v : Nat → α, (∀ r, r < n → ∑ c in Finset.range n, t.entry r (c + n) * v c = 0) →
      ∀ c, c < n → v c = 0 := by
  intro v hv
  apply hK
  have hrowsum : ∑ c in Finset.range n, tmp.entry i (c + n) * v c = 0 := by
    have h := hv row hrow
    simp only [ht, roundEntry, if_true] at h
    have e : ∑ c in Finset.range n, tmp.entry i (c + n) / tmp.entry i lead * v c =
        (∑ c in Finset.range n, tmp.entry i (c + n) * v c) / tmp.entry i lead := by
      rw [Finset.sum_div]
      exact Finset.sum_congr rfl (fun k _ => by ring)
    rw [e, div_eq_zero_iff] at h
    exact h.resolve_right hp
  have hswap : ∀ r, r < n →
      ∑ c in Finset.range n, tmp.entry (rowSwap i row r) (c + n) * v c = 0 := by
    intro r hr
    by_cases h : r = row
    · rw [h, rowSwap_row]; exact hrowsum
    · have h' := hv r hr
      simp only [ht, roundEntry, h, if_false] at h'
      have e : ∑ c in Finset.range n, (tmp.entry (rowSwap i row r) (c + n) -
            tmp.entry (rowSwap i row r) lead *
              (tmp.entry i (c + n) / tmp.entry i lead)) * v c =
          ∑ c in Finset.range n, tmp.entry (rowSwap i row r) (c + n) * v c -
            tmp.entry (rowSwap i row r) lead *
              ((∑ c in Finset.range n, tmp.entry i (c + n) * v c) / tmp.entry i lead) := by
        rw [Finset.sum_div, Finset.mul_sum, ← Finset.sum_sub_distrib]
        exact Finset.sum_congr rfl (fun k _ => by ring)
      rw [e, hrowsum] at h'
      simpa using h'
  intro r hr
  have := hswap (rowSwap i row r) (rowSwap_lt hi hrow hr)
  rw [rowSwap_rowSwap] at this
  exact this

theorem rowSwap_ge {n i row r : Nat} (hri : row ≤ i) (hi : i < n) (hr : row ≤ r)
    (hrn : r < n) : row ≤ rowSwap i row r ∧ rowSwap i row r < n := by
  unfold rowSwap
  split
  · omega
  · split
    · omega
    · omega

/-- Every round extends the echelon shape of the workspace by one row: the rows below the
new current row are zero up to the new pivot column, and the pivot columns found so far,
the new one included, are unit columns with zeros to the left of their ones. -/
theorem round_echelon [Field α] (tmp t : Matrix α) (n : Nat) {i row lead lead' : Nat}
    (p : Nat → Nat) (hri : row ≤ i) (hi : i < n) (hll : lead ≤ lead')
    (hp : tmp.entry i lead' ≠ 0)
    (hz : ∀ c, lead ≤ c → c < lead' → ∀ k, row ≤ k → k < n → tmp.entry k c = 0)
    (hE : ∀ r c, row ≤ r → r < n → c < lead → tmp.entry r c = 0)
    (hp1 : ∀ j, j < row → p j < lead)
    (hp3 : ∀ j, j < row → tmp.entry j (p j) = 1 ∧ (∀ c, c < p j → tmp.entry j c = 0) ∧
      ∀ r, r < n → r ≠ j → tmp.entry r (p j) = 0)
    (ht : ∀ r c, t.entry r c = roundEntry tmp i row lead' r c) :
    (∀ r c, row + 1 ≤ r → r < n → c < lead' + 1 → t.entry r c = 0) ∧
    (∀ j, j < row + 1 →
      t.entry j (if j = row then lead' else p j) = 1 ∧
      (∀ c, c < (if j = row then lead' else p j) → t.entry j c = 0) ∧
      ∀ r, r < n → r ≠ j → t.entry r (if j = row then lead' else p j) = 0) := by
  have hz' : ∀ r c, row ≤ r → r < n → c < lead' → tmp.entry r c = 0 := by
    intro r c h1 h2 h3
    by_cases hc : c < lead
    · exact hE r c h1 h2 hc
    · exact hz c (by omega) h3 r h1 h2
  have hic : ∀ c, c < lead' → tmp.entry i c = 0 := fun c hc => hz' i c hri hi hc
  have t_row : ∀ c, t.entry row c = tmp.entry i c / tmp.entry i lead' := by
    intro c; rw [ht]; simp [roundEntry]
  have t_other : ∀ r c, r ≠ row → t.entry r c = tmp.entry (rowSwap i row r) c -
      tmp.entry (rowSwap i row r) lead' * (tmp.entry i c / tmp.entry i lead') := by
    intro r c h; rw [ht]; simp [roundEntry, h]
  have t_left : ∀ r c, r ≠ row → c < lead' → t.entry r c = tmp.entry (rowSwap i row r) c := by
    intro r c h hc; rw [t_other r c h, hic c hc]; simp
  have t_lead_row : t.entry row lead' = 1 := by rw [t_row, div_self hp]
  have t_lead_other : ∀ r, r ≠ row → t.entry r lead' = 0 := by
    intro r h; rw [t_other r lead' h, div_self hp]; ring
  have hsw : ∀ r, r < row → rowSwap i row r = r :=
    fun r hr => rowSwap_of_ne (by omega) (by omega)
  refine ⟨?_, ?_⟩
  · intro r c h1 h2 h3
    have hne : r ≠ row := by omega
    by_cases hc : c = lead'
    · rw [hc]; exact t_lead_other r hne
    · rw [t_left r c hne (by omega)]
      have := rowSwap_ge hri hi (show row ≤ r by omega) h2
      exact hz' _ c this.1 this.2 (by omega)
  · intro j hj
    by_cases hjr : j = row
    · subst hjr
      simp only [if_true]
      refine ⟨t_lead_row, fun c hc => ?_, fun r _ hrj => t_lead_other r hrj⟩
      rw [t_row, hic c hc, zero_div]
    · have hj' : j < row := by omega
      have hpj : p j < lead' := by have := hp1 j hj'; omega
      obtain ⟨q1, q2, q3⟩ := hp3 j hj'
      simp only [hjr, if_false]
      refine ⟨?_, fun c hc => ?_, fun r hr hrj => ?_⟩
      · rw [t_left j (p j) hjr hpj, hsw j hj']; exact q1
      · rw [t_left j c hjr (by omega), hsw j hj']; exact q2 c hc
      · by_cases hrr : r = row
        · rw [hrr, t_row, hic (p j) hpj, zero_div]
        · rw [t_left r (p j) hrr hpj]
          by_cases hlt : r < row
          · rw [hsw r hlt]; exact q3 r hr hrj
          · have := rowSwap_ge hri hi (show row ≤ r by omega) hr
            exact q3 _ this.2 (by omega)

/-- A strictly increasing sequence of columns passes a bound once and for all. -/
theorem exists_threshold (p : Nat → Nat) (n : Nat) :
    ∀ row, (∀ j l, j < l → l < row → p j < p l) →
      ∃ k, k ≤ row ∧ (∀ j, j < k → p j < n) ∧ ∀ j, k ≤ j → j < row → n ≤ p j := by
  intro row
  induction row with
  | zero => intro _; exact ⟨0, Nat.le_refl _, fun j hj => absurd hj (Nat.not_lt_zero j),
      fun j _ hj => absurd hj (Nat.not_lt_zero j)⟩
  | succ row ih =>
    intro hp
    obtain ⟨k, k1, k2, k3⟩ := ih (fun j l h1 h2 => hp j l h1 (by omega))
    by_cases hk : k < row
    · refine ⟨k, by omega, k2, fun j h1 h2 => ?_⟩
      by_cases hj : j < row
      · exact k3 j h1 hj
      · have : j = row := by omega
        subst this
        have := k3 k (Nat.le_refl _) hk
        have := hp k j hk (by omega)
        omega
    · have hkr : k = row := by omega
      subst hkr
      by_cases hpn : p k < n
      · refine ⟨k + 1, Nat.le_refl _, fun j hj => ?_, fun j h1 h2 => by omega⟩
        by_cases hjk : j < k
        · exact k2 j hjk
        · have : j = k := by omega
          rw [this]; exact hpn
      · refine ⟨k, by omega, k2, fun j h1 h2 => ?_⟩
        have : j = k := by omega
        rw [this]; omega

end Matrix

namespace Matrix

variable {α : Type}

/-- The workspace with which `computeInverse` ends on a square matrix `m`: its left half
is its right half times `m`, its right half is injective on column vectors, and it is in
echelon shape, with unit pivot columns for the rows above some row and zero left halves
from that row on. -/
theorem final_workspace [Field α] [DecidableEq α] (m : Matrix α)
    (hsq : m.numRows = m.numColumns) :
    ∃ t : Matrix α,
      m.computeInverse = .ok (ofFn m.numRows m.numRows (fun i j => t.entry i (j + m.numRows))) ∧
      (∀ r c, r < m.numRows → c < m.numRows →
        t.entry r c = ∑ k in Finset.range m.numRows, t.entry r (k + m.numRows) * m.entry k c) ∧
      (∀ v : Nat → α,
        (∀ r, r < m.numRows →
          ∑ c in Finset.range m.numRows, t.entry r (c + m.numRows) * v c = 0) →
        ∀ c, c < m.numRows → v c = 0) ∧
      ∃ (row : Nat) (p : Nat → Nat), row ≤ m.numRows ∧
        (∀ j l, j < l → l < row → p j < p l) ∧
        (∀ j, j < row → t.entry j (p j) = 1 ∧ (∀ c, c < p j → t.entry j c = 0) ∧
          ∀ r, r < m.numRows → r ≠ j → t.entry r (p j) = 0) ∧
        (∀ r c, row ≤ r → r < m.numRows → c < m.numRows → t.entry r c = 0) := by
  obtain ⟨t, ht, _, _, hA, hK, hQ⟩ := computeInverse_inv m hsq
    (fun row lead t => row ≤ m.numRows ∧
      (∀ r c, r < m.numRows → c < m.numRows →
        t.entry r c = ∑ k in Finset.range m.numRows, t.entry r (k + m.numRows) * m.entry k c) ∧
      (∀ v : Nat → α,
        (∀ r, r < m.numRows →
          ∑ c in Finset.range m.numRows, t.entry r (c + m.numRows) * v c = 0) →
        ∀ c, c < m.numRows → v c = 0) ∧
      (∀ r c, row ≤ r → r < m.numRows → c < lead → t.entry r c = 0) ∧
      ∃ p : Nat → Nat, (∀ j, j < row → p j < lead) ∧
        (∀ j l, j < l → l < row → p j < p l) ∧
        (∀ j, j < row → t.entry j (p j) = 1 ∧ (∀ c, c < p j → t.entry j c = 0) ∧
          ∀ r, r < m.numRows → r ≠ j → t.entry r (p j) = 0))
    (fun t =>
      (∀ r c, r < m.numRows → c < m.numRows →
        t.entry r c = ∑ k in Finset.range m.numRows, t.entry r (k + m.numRows) * m.entry k c) ∧
      (∀ v : Nat → α,
        (∀ r, r < m.numRows →
          ∑ c in Finset.range m.numRows, t.entry r (c + m.numRows) * v c = 0) →
        ∀ c, c < m.numRows → v c = 0) ∧
      ∃ (row : Nat) (p : Nat → Nat), row ≤ m.numRows ∧
        (∀ j l, j < l → l < row → p j < p l) ∧
        (∀ j, j < row → t.entry j (p j) = 1 ∧ (∀ c, c < p j → t.entry j c = 0) ∧
          ∀ r, r < m.numRows → r ≠ j → t.entry r (p j) = 0) ∧
        (∀ r c, row ≤ r → r < m.numRows → c < m.numRows → t.entry r c = 0))
    (fun t _ _ ht => by
      refine ⟨Nat.zero_le _, ?_, ?_, fun r c _ _ hc => absurd hc (Nat.not_lt_zero c),
        fun _ => 0, fun j hj => absurd hj (Nat.not_lt_zero j),
        fun j l _ hl => absurd hl (Nat.not_lt_zero l),
        fun j hj => absurd hj (Nat.not_lt_zero j)⟩
      · intro r c hr hc
        have e : ∀ k ∈ Finset.range m.numRows,
            t.entry r (k + m.numRows) * m.entry k c = if k = r then m.entry r c else 0 := by
          intro k hk
          have hk' : k < m.numRows := Finset.mem_range.1 hk
          rw [ht r (k + m.numRows), if_neg (by omega)]
          by_cases hkr : k = r
          · subst hkr; simp [hr]
          · have : ¬ k + m.numRows = r + m.numRows := by omega
            simp [hkr, this]
        rw [Finset.sum_congr rfl e, Finset.sum_ite_eq', if_pos (Finset.mem_range.2 hr), ht,
          if_pos ⟨hr, hc⟩]
      · intro v hv c hc
        have := hv c hc
        have e : ∀ k ∈ Finset.range m.numRows,
            t.entry c (k + m.numRows) * v k = if k = c then v c else 0 := by
          intro k hk
          rw [ht c (k + m.numRows), if_neg (by omega)]
          by_cases hkc : k = c
          · subst hkc; simp [hc]
          · have : ¬ k + m.numRows = c + m.numRows := by omega
            simp [hkc, this]
        rw [Finset.sum_congr rfl e, Finset.sum_ite_eq', if_pos (Finset.mem_range.2 hc)] at this
        exact this)
    (fun row lead tmp i lead' _ _ hP hri hi hll hl' hp hz _ t _ _ ht => by
      obtain ⟨_, hA, hK, hE, p, hp1, hp2, hp3⟩ := hP
      have hrow : row < m.numRows := by omega
      obtain ⟨e1, e2⟩ := round_echelon tmp t m.numRows p hri hi hll hp hz hE hp1 hp3 ht
      refine ⟨by omega, round_product m tmp t m.numRows hi hrow hA ht,
        round_kernel_right tmp t m.numRows hi hrow hp hK ht, e1,
        fun j => if j = row then lead' else p j, ?_, ?_, e2⟩
      · intro j hj
        by_cases hjr : j = row
        · simp [hjr]
        · have := hp1 j (by omega)
          simp only [hjr, if_false]; omega
      · intro j l hjl hl
        by_cases hlr : l = row
        · have hjr : j ≠ row := by omega
          have := hp1 j (by omega)
          simp only [hlr, hjr, if_true, if_false]; omega
        · have hjr : j ≠ row := by omega
          simp only [hlr, hjr, if_false]
          exact hp2 j l hjl (by omega))
    (fun row lead tmp _ _ hP hrow hlead hz => by
      obtain ⟨hr, hA, hK, hE, p, hp1, hp2, hp3⟩ := hP
      refine ⟨hA, hK, row, p, hr, hp2, hp3, fun r c h1 h2 h3 => ?_⟩
      by_cases hc : c < lead
      · exact hE r c h1 h2 hc
      · exact hz c (by omega) (by omega) r h1 h2)
    (fun row lead tmp _ _ hP hc => by
      obtain ⟨hr, hA, hK, hE, p, hp1, hp2, hp3⟩ := hP
      refine ⟨hA, hK, row, p, hr, hp2, hp3, fun r c h1 h2 h3 => ?_⟩
      exact hE r c h1 h2 (by
        by_contra h
        exact hc ⟨by omega, by omega⟩))
  exact ⟨t, ht, hA, hK, hQ⟩

end Matrix

namespace Matrix

variable {α : Type}

/-- C18. For every square matrix `m` over a field, singular ones included, the matrix `r`
that `computeInverse` returns has a two-sided inverse, and the product `r * m` succeeds
and is in reduced row echelon form. -/
theorem computeInverse_rref [Field α] [DecidableEq α] (m : Matrix α)
    (hsq : m.numRows = m.numColumns) :
    ∃ r p : Matrix α, m.computeInverse = .ok r ∧ r.mul m = .ok p ∧ p.numRows = m.numRows ∧
      p.numColumns = m.numColumns ∧ IsRREF p ∧ ∃ s : Matrix α, IsInverse s r := by
  obtain ⟨t, ht, hA, hK, row, p, hrow, hp2, hp3, hzero⟩ := final_workspace m hsq
  have hprod : (ofFn m.numRows m.numRows (fun i j => t.entry i (j + m.numRows))).mul m =
      .ok (ofFn m.numRows m.numColumns (fun i j => t.entry i j)) := by
    rw [mul_spec, if_neg (by simp [ofFn])]
    congr 1
    apply ofFn_congr
    intro i j hi hj
    have hj' : j < m.numRows := by omega
    rw [hA i j hi hj']
    apply Finset.sum_congr rfl
    intro k hk
    have hi' : i < m.numRows := hi
    have hk' : k < m.numRows := Finset.mem_range.1 hk
    rw [entry_ofFn _ _ _ hi' hk']
  refine ⟨_, _, ht, hprod, rfl, rfl, ?_, ?_⟩
  · obtain ⟨k, k1, k2, k3⟩ := exists_threshold p m.numRows row hp2
    have hk : k ≤ m.numRows := by omega
    have he : ∀ i c, i < m.numRows → c < m.numRows →
        (ofFn m.numRows m.numColumns (fun i j => t.entry i j)).entry i c = t.entry i c :=
      fun i c hi hc => entry_ofFn _ _ _ hi (by omega)
    refine ⟨k, p, hk, fun i hi => ?_, fun i j hij hj => hp2 i j hij (by omega),
      fun i hi => ?_, fun i c hki hi hc => ?_⟩
    · have := k2 i hi
      simp only [ofFn]; omega
    · obtain ⟨q1, q2, q3⟩ := hp3 i (by omega)
      have hpi : p i < m.numRows := k2 i hi
      refine ⟨?_, fun c hc => ?_, fun r hr hri => ?_⟩
      · rw [he i (p i) (by omega) hpi]; exact q1
      · rw [he i c (by omega) (by omega)]; exact q2 c hc
      · have hr' : r < m.numRows := hr
        rw [he r (p i) hr' hpi]; exact q3 r hr' hri
    · have hi' : i < m.numRows := hi
      have hc' : c < m.numRows := by
        have : c < m.numColumns := hc
        omega
      rw [he i c hi' hc']
      by_cases hir : i < row
      · have := k3 i hki hir
        exact (hp3 i hir).2.1 c (by omega)
      · exact hzero i c (by omega) hi' hc'
  · obtain ⟨s, hs1, hs2⟩ := CircuitAlgebra.exists_inverse_of_kernel m.numRows
      (fun i j => t.entry i (j + m.numRows)) hK
    refine ⟨ofFn m.numRows m.numRows s, ?_, ?_⟩
    · rw [mul_spec, if_neg (by simp [ofFn])]
      congr 1
      apply ofFn_congr
      intro i j hi hj
      have hi' : i < m.numRows := hi
      have hj' : j < m.numRows := hj
      rw [← hs1 i j hi' hj']
      apply Finset.sum_congr rfl
      intro k hk
      have hk' : k < m.numRows := Finset.mem_range.1 hk
      rw [entry_ofFn _ _ _ hi' hk', entry_ofFn _ _ _ hk' hj']
    · rw [mul_spec, if_neg (by simp [ofFn])]
      congr 1
      apply ofFn_congr
      intro i j hi hj
      have hi' : i < m.numRows := hi
      have hj' : j < m.numRows := hj
      rw [← hs2 i j hi' hj']
      apply Finset.sum_congr rfl
      intro k hk
      have hk' : k < m.numRows := Finset.mem_range.1 hk
      rw [entry_ofFn _ _ _ hi' hk', entry_ofFn _ _ _ hk' hj']

/-- The hypothesis and the conclusion of C18 on the singular matrix `[[1, 1], [1, 1]]`,
for which `computeInverse` returns `[[0, 1], [1, -1]]`, with the product `[[1, 1], [0, 0]]`. -/
theorem computeInverse_rref_witness :
    ones.numRows = ones.numColumns ∧
    (ones.computeInverse = .ok onesResult ∧
      onesResult.mul ones = .ok ⟨2, 2, [1, 1, 0, 0], rfl⟩) ∧
    ∃ r p : Matrix ℚ, ones.computeInverse = .ok r ∧ r.mul ones = .ok p ∧
      p.numRows = ones.numRows ∧ p.numColumns = ones.numColumns ∧ IsRREF p ∧
      ∃ s : Matrix ℚ, IsInverse s r :=
  ⟨rfl, ⟨by decide!, by decide!⟩, computeInverse_rref ones rfl⟩

end Matrix

namespace Matrix

/-- The rounds that `pivotRounds` lists are the rounds of `pivot`: the two agree on whether
the loop ends and on the exception that it raises. -/
theorem pivotRounds_outcome {α : Type} [Zero α] [Mul α] [Sub α] [Div α] [DecidableEq α]
    (rows tmpColumns : Nat) :
    ∀ (fuel row lead : Nat) (tmp : Matrix α),
      (pivotRounds rows tmpColumns fuel row lead tmp).map (fun _ => ()) =
        (pivot rows tmpColumns fuel row lead tmp).map (fun _ => ()) := by
  intro fuel
  induction fuel with
  | zero => intro row lead tmp; rfl
  | succ fuel ih =>
    intro row lead tmp
    unfold pivotRounds pivot
    split
    · cases hs : pivotSearch tmp rows tmpColumns row (rows * tmpColumns) row lead with
      | error e => rfl
      | ok r =>
        cases r with
        | exhausted => rfl
        | found i lead' =>
          simp only [bind, Except.bind]
          cases h1 : swapRows tmpColumns i row tmp with
          | error e => rfl
          | ok t1 =>
            dsimp only
            cases h2 : normalise tmpColumns row lead' t1 with
            | error e => rfl
            | ok t2 =>
              dsimp only
              cases h3 : eliminate rows tmpColumns row lead' t2 with
              | error e => rfl
              | ok t3 =>
                have := ih (row + 1) (lead' + 1) t3
                dsimp only
                cases h4 : pivotRounds rows tmpColumns fuel (row + 1) (lead' + 1) t3 with
                | error e => rw [h4] at this; rw [← this]
                | ok l => rw [h4] at this; rw [← this]; rfl
    · rfl
end Matrix

namespace Store

variable {α : Type}

/-- A new state of an object keeps the number of objects. -/
theorem length_put (σ : Store α) (a : Nat) (m : Matrix α) :
    (σ.put a m).objects.length = σ.objects.length := by
  simp [put]

/-- An address of the store is an address of the store with a new state of an object. -/
theorem lt_length_put (σ : Store α) (a : Nat) (m : Matrix α) {b : Nat}
    (h : b < σ.objects.length) : b < (σ.put a m).objects.length := by
  rw [length_put]; exact h

/-- The object at an address is the state that was put there. -/
theorem object_put (σ : Store α) {a : Nat} (m : Matrix α) (h : a < σ.objects.length) :
    (σ.put a m).object a = m := by
  simp [put, object, List.getD_eq_getElem?_getD, List.getElem?_set_self, h]

/-- A new state of an object leaves the objects at the other addresses as they are. -/
theorem object_put_ne (σ : Store α) {a b : Nat} (m : Matrix α) (h : a ≠ b) :
    (σ.put a m).object b = σ.object b := by
  simp [put, object, List.getD_eq_getElem?_getD, List.getElem?_set_ne h]

/-- Of two states put at the same address the later one stays. -/
theorem put_put (σ : Store α) (a : Nat) (m m' : Matrix α) :
    (σ.put a m).put a m' = σ.put a m' := by
  simp [put, List.set_set]

/-- After a state was put at an address, putting at that address is as before. -/
theorem put_put_fun (σ : Store α) (a : Nat) (m : Matrix α) :
    (σ.put a m).put a = σ.put a :=
  funext (put_put σ a m)

/-- Putting the state of an object at its own address changes nothing. -/
theorem put_object (σ : Store α) {a : Nat} (h : a < σ.objects.length) :
    σ.put a (σ.object a) = σ := by
  cases σ with
  | mk l =>
    simp only [put, object, Store.mk.injEq]
    apply List.ext_getElem
    · simp
    · intro n h1 h2
      rw [List.getElem_set]
      split
      · subst_vars
        simp [List.getD_eq_getElem?_getD, List.getElem?_eq_getElem h]
      · rfl

/-- An assignment to an element of the object at `a` is the assignment on its state. -/
theorem set_eq (σ : Store α) (a row column : Nat) (x : α) :
    σ.set a row column x = ((σ.object a).set row column x).map (σ.put a) := by
  unfold set
  cases (σ.object a).set row column x <;> rfl

/-- A step on the object at `a` after a step on the object at `a` is the sequence of the
two steps on its state. -/
theorem bind_at (x : Except Error (Matrix α)) (σ : Store α) (a : Nat)
    (g : Matrix α → Except Error (Matrix α)) (gAt : Store α → Except Error (Store α))
    (hg : ∀ t, gAt (σ.put a t) = (g t).map (σ.put a)) :
    (x.map (σ.put a) >>= gAt) = (x >>= g).map (σ.put a) := by
  cases x with
  | error e => rfl
  | ok t => exact hg t

/-- A loop whose body changes the object at `a` only, as `body` changes its state, changes
the object at `a` only, as the loop of `body` changes its state. -/
theorem forLoop_at (a : Nat) (P : Store α → Prop) (body : Nat → Matrix α → Except Error (Matrix α))
    (bodyAt : Nat → Store α → Except Error (Store α))
    (hlen : ∀ σ, P σ → a < σ.objects.length)
    (hP : ∀ σ t, P σ → P (σ.put a t))
    (hb : ∀ i σ, P σ → bodyAt i σ = (body i (σ.object a)).map (σ.put a)) :
    ∀ (n : Nat) (σ : Store α), P σ →
      forLoop n bodyAt σ = (forLoop n body (σ.object a)).map (σ.put a) := by
  intro n
  induction n with
  | zero =>
    intro σ h
    simp only [forLoop, Except.map]
    rw [put_object σ (hlen σ h)]
  | succ k ih =>
    intro σ h
    simp only [forLoop]
    rw [ih σ h]
    cases hk : forLoop k body (σ.object a) with
    | error e => rfl
    | ok t =>
      simp only [Except.map]
      rw [hb k _ (hP σ t h), object_put σ t (hlen σ h)]
      cases body k t with
      | error e => rfl
      | ok t' => simp only [Except.map, put_put]

/-- The pivot search on the object `tmp` is the pivot search on its state. -/
theorem pivotSearch_at [Zero α] [DecidableEq α] (σ : Store α) (tmp rows tmpColumns row : Nat) :
    ∀ fuel i lead : Nat, pivotSearch σ tmp rows tmpColumns row fuel i lead =
      Matrix.pivotSearch (σ.object tmp) rows tmpColumns row fuel i lead := by
  intro fuel
  induction fuel with
  | zero => intro i lead; rfl
  | succ fuel ih =>
    intro i lead
    simp only [pivotSearch, Matrix.pivotSearch, get, ih]

/-- The swap loop changes the object `tmp` only, as `Matrix.swapRows` changes its state. -/
theorem swapRows_at (tmp tmpColumns i row : Nat) (σ : Store α)
    (h : tmp < σ.objects.length) :
    swapRows tmp tmpColumns i row σ =
      (Matrix.swapRows tmpColumns i row (σ.object tmp)).map (σ.put tmp) := by
  refine forLoop_at tmp (fun σ => tmp < σ.objects.length) _ _ (fun _ h => h)
    (fun σ t h => lt_length_put σ tmp t h) ?_ tmpColumns σ h
  intro column σ h
  simp only [get, set_eq, bind, Except.bind]
  cases (σ.object tmp).get i column with
  | error e => rfl
  | ok x =>
    cases (σ.object tmp).get row column with
    | error e => rfl
    | ok y =>
      dsimp only
      cases (σ.object tmp).set i column y with
      | error e => rfl
      | ok t =>
        simp only [Except.map, object_put σ t h]
        cases t.set row column x with
        | error e => rfl
        | ok t' => simp only [put_put]

/-- The normalisation changes the object `tmp` only, as `Matrix.normalise` changes its
state. -/
theorem normalise_at [Zero α] [Div α] [DecidableEq α] (tmp tmpColumns row lead : Nat)
    (σ : Store α) (h : tmp < σ.objects.length) :
    normalise tmp tmpColumns row lead σ =
      (Matrix.normalise tmpColumns row lead (σ.object tmp)).map (σ.put tmp) := by
  simp only [normalise, Matrix.normalise, get, bind, Except.bind]
  cases (σ.object tmp).get row lead with
  | error e => rfl
  | ok p =>
    dsimp only
    by_cases hp : p = 0
    · simp only [hp, ne_eq, not_true_eq_false, if_false, Except.map, put_object σ h]
    · simp only [ne_eq, hp, not_false_eq_true, if_true]
      refine forLoop_at tmp (fun σ => tmp < σ.objects.length) _ _ (fun _ h => h)
        (fun σ t h => lt_length_put σ tmp t h) ?_ tmpColumns σ h
      intro column σ h
      simp only [get, set_eq]
      cases (σ.object tmp).get row column with
      | error e => rfl
      | ok x =>
        dsimp only
        cases Matrix.divide x p with
        | error e => rfl
        | ok q => rfl

/-- The elimination changes the object `tmp` only, as `Matrix.eliminate` changes its
state. -/
theorem eliminate_at [Mul α] [Sub α] (tmp rows tmpColumns row lead : Nat)
    (σ : Store α) (h : tmp < σ.objects.length) :
    eliminate tmp rows tmpColumns row lead σ =
      (Matrix.eliminate rows tmpColumns row lead (σ.object tmp)).map (σ.put tmp) := by
  refine forLoop_at tmp (fun σ => tmp < σ.objects.length) _ _ (fun _ h => h)
    (fun σ t h => lt_length_put σ tmp t h) ?_ rows σ h
  intro j σ h
  dsimp only
  by_cases hj : j = row
  · simp only [hj, if_true, Except.map, put_object σ h]
  · simp only [hj, if_false, get, bind, Except.bind]
    cases (σ.object tmp).get j lead with
    | error e => rfl
    | ok f =>
      dsimp only
      refine forLoop_at tmp (fun σ => tmp < σ.objects.length) _ _ (fun _ h => h)
        (fun σ t h => lt_length_put σ tmp t h) ?_ tmpColumns σ h
      intro column σ h
      simp only [get, set_eq]
      cases (σ.object tmp).get row column with
      | error e => rfl
      | ok y =>
        dsimp only
        cases (σ.object tmp).get j column with
        | error e => rfl
        | ok x => rfl

/-- The lambda `pivot` changes the object `tmp` only, as `Matrix.pivot` changes its
state. -/
theorem pivot_at [Zero α] [Mul α] [Sub α] [Div α] [DecidableEq α] (tmp rows tmpColumns : Nat) :
    ∀ (fuel row lead : Nat) (σ : Store α), tmp < σ.objects.length →
      pivot tmp rows tmpColumns fuel row lead σ =
        (Matrix.pivot rows tmpColumns fuel row lead (σ.object tmp)).map (σ.put tmp) := by
  intro fuel
  induction fuel with
  | zero => intro row lead σ h; rfl
  | succ fuel ih =>
    intro row lead σ h
    unfold pivot Matrix.pivot
    split
    · rw [pivotSearch_at]
      cases Matrix.pivotSearch (σ.object tmp) rows tmpColumns row (rows * tmpColumns) row
          lead with
      | error e => rfl
      | ok r =>
        cases r with
        | exhausted =>
          simp only [bind, Except.bind, Except.map, put_object σ h]
        | found i lead' =>
          simp only [bind, Except.bind]
          rw [swapRows_at tmp tmpColumns i row σ h]
          cases Matrix.swapRows tmpColumns i row (σ.object tmp) with
          | error e => rfl
          | ok t1 =>
            simp only [Except.map]
            rw [normalise_at tmp tmpColumns row lead' _ (lt_length_put σ tmp t1 h),
              object_put σ t1 h, put_put_fun]
            cases Matrix.normalise tmpColumns row lead' t1 with
            | error e => rfl
            | ok t2 =>
              simp only [Except.map]
              rw [eliminate_at tmp rows tmpColumns row lead' _ (lt_length_put σ tmp t2 h),
                object_put σ t2 h, put_put_fun]
              cases Matrix.eliminate rows tmpColumns row lead' t2 with
              | error e => rfl
              | ok t3 =>
                simp only [Except.map]
                rw [ih (row + 1) (lead' + 1) _ (lt_length_put σ tmp t3 h),
                  object_put σ t3 h, put_put_fun]
                cases Matrix.pivot rows tmpColumns fuel (row + 1) (lead' + 1) t3 <;> rfl
    · simp only [Except.map, put_object σ h]

/-- The loops that fill the workspace read the receiver and change the object `tmp`
only, as the loops of `Matrix.augmented` change its state. -/
theorem augmented_at [One α] (self tmp rows : Nat) (σ : Store α)
    (h : tmp < σ.objects.length) (hne : tmp ≠ self) :
    augmented self tmp rows σ =
      (forLoop rows
        (fun row t => do
          let t ← forLoop rows
            (fun column t => do
              let x ← (σ.object self).get row column
              t.set row column x)
            t
          t.set row (row + rows) 1)
        (σ.object tmp)).map (σ.put tmp) := by
  have hP : ∀ (s : Store α) (t : Matrix α),
      tmp < s.objects.length ∧ s.object self = σ.object self →
      tmp < (s.put tmp t).objects.length ∧ (s.put tmp t).object self = σ.object self :=
    fun s t hs => ⟨lt_length_put s tmp t hs.1, (object_put_ne s t hne).trans hs.2⟩
  refine forLoop_at tmp
    (fun s => tmp < s.objects.length ∧ s.object self = σ.object self) _ _ (fun _ hs => hs.1)
    hP ?_ rows σ ⟨h, rfl⟩
  intro row s hs
  dsimp only
  have hin := forLoop_at tmp
    (fun s => tmp < s.objects.length ∧ s.object self = σ.object self)
    (fun column t => do
      let x ← (σ.object self).get row column
      t.set row column x)
    (fun column s => do
      let x ← s.get self row column
      s.set tmp row column x) (fun _ hs => hs.1) hP
    (by
      intro column s hs
      simp only [get, set_eq, hs.2, bind, Except.bind]
      cases (σ.object self).get row column <;> rfl) rows s hs
  rw [hin]
  refine bind_at _ s tmp _ _ ?_
  intro t
  rw [set_eq, object_put s t hs.1, put_put_fun]

/-- The loops that fill the result read the workspace `tmp` and change the object `inv`
only, as the loops of `Matrix.rightHalf` change its state. -/
theorem rightHalf_at (tmp inv rows : Nat) (σ : Store α)
    (h : inv < σ.objects.length) (hne : inv ≠ tmp) :
    rightHalf tmp inv rows σ =
      (forLoop rows
        (fun row t =>
          forLoop rows
            (fun column t => do
              let x ← (σ.object tmp).get row (column + rows)
              t.set row column x)
            t)
        (σ.object inv)).map (σ.put inv) := by
  have hP : ∀ (s : Store α) (t : Matrix α),
      inv < s.objects.length ∧ s.object tmp = σ.object tmp →
      inv < (s.put inv t).objects.length ∧ (s.put inv t).object tmp = σ.object tmp :=
    fun s t hs => ⟨lt_length_put s inv t hs.1, (object_put_ne s t hne).trans hs.2⟩
  refine forLoop_at inv
    (fun s => inv < s.objects.length ∧ s.object tmp = σ.object tmp) _ _ (fun _ hs => hs.1)
    hP ?_ rows σ ⟨h, rfl⟩
  intro row s hs
  refine forLoop_at inv
    (fun s => inv < s.objects.length ∧ s.object tmp = σ.object tmp) _ _ (fun _ hs => hs.1)
    hP ?_ rows s hs
  intro column s hs
  simp only [get, set_eq, hs.2, bind, Except.bind]
  cases (σ.object tmp).get row (column + rows) <;> rfl

/-- The new object has the state that its constructor left. -/
theorem object_alloc_new (σ : Store α) (m : Matrix α) :
    (σ.alloc m).2.object σ.objects.length = m := by
  simp [alloc, object, List.getD_eq_getElem?_getD]

/-- The definition of a new object leaves the objects that exist as they are. -/
theorem object_alloc_old (σ : Store α) (m : Matrix α) {a : Nat} (h : a < σ.objects.length) :
    (σ.alloc m).2.object a = σ.object a := by
  simp [alloc, object, List.getD_eq_getElem?_getD, List.getElem?_append_left h]

/-- A new state of the object defined last. -/
theorem put_alloc (σ : Store α) (m t : Matrix α) :
    (σ.alloc m).2.put σ.objects.length t = (σ.alloc t).2 := by
  simp [alloc, put]

/-- The definition of a new object adds one object. -/
theorem length_alloc (σ : Store α) (m : Matrix α) :
    (σ.alloc m).2.objects.length = σ.objects.length + 1 := by
  simp [alloc]

/-- When two objects defined in a row go out of scope the store is as before. -/
theorem release_alloc (σ : Store α) (t r : Matrix α) :
    ((σ.alloc t).2.alloc r).2.release 2 = σ := by
  simp [alloc, release]

/-- A call of `computeInverse` on the object at `self` returns what `Matrix.computeInverse`
returns on its state, throws what it throws, and when it returns leaves the store as it
found it. -/
theorem computeInverse_at [Zero α] [One α] [Mul α] [Sub α] [Div α] [DecidableEq α]
    (σ : Store α) (self : Nat) (h : self < σ.objects.length) :
    σ.computeInverse self = ((σ.object self).computeInverse).map (fun r => (r, σ)) := by
  unfold computeInverse Matrix.computeInverse
  by_cases hsq : (σ.object self).numRows = (σ.object self).numColumns
  · simp only [ne_eq, hsq, not_true_eq_false, if_false]
    generalize (σ.object self).numColumns = n
    have hfst : ∀ (s : Store α) (z : Matrix α), (s.alloc z).1 = s.objects.length :=
      fun _ _ => rfl
    simp only [hfst]
    rw [augmented_at self _ n _ (by rw [length_alloc]; omega) (by omega)]
    simp only [object_alloc_old σ _ h, object_alloc_new]
    have haug : Matrix.augmented (σ.object self) n (2 * n) = forLoop n
        (fun row t => do
          let t ← forLoop n
            (fun column t => do
              let x ← (σ.object self).get row column
              t.set row column x)
            t
          t.set row (row + n) 1)
        (Matrix.mk' n (2 * n) 0) := rfl
    rw [← haug]
    cases Matrix.augmented (σ.object self) n (2 * n) with
    | error e => rfl
    | ok t1 =>
      simp only [Except.map, put_alloc, ok_bind]
      rw [pivot_at _ _ _ _ _ _ _ (by rw [length_alloc]; omega), object_alloc_new]
      cases Matrix.pivot n (2 * n) (n + 1) 0 0 t1 with
      | error e => rfl
      | ok t2 =>
        simp only [Except.map, put_alloc, ok_bind, length_alloc]
        rw [rightHalf_at _ _ n _ (by rw [length_alloc, length_alloc]; omega) (by omega)]
        have hinv : ((σ.alloc t2).2.alloc (Matrix.mk' n n 0)).2.object
            (σ.objects.length + 1) = Matrix.mk' n n 0 := by
          rw [← length_alloc σ t2, object_alloc_new]
        have htmp : ((σ.alloc t2).2.alloc (Matrix.mk' n n 0)).2.object
            σ.objects.length = t2 := by
          rw [object_alloc_old _ _ (by rw [length_alloc]; omega), object_alloc_new]
        simp only [hinv, htmp]
        have hright : Matrix.rightHalf t2 n = forLoop n
            (fun row t =>
              forLoop n
                (fun column t => do
                  let x ← t2.get row (column + n)
                  t.set row column x)
                t)
            (Matrix.mk' n n 0) := rfl
        rw [← hright]
        cases Matrix.rightHalf t2 n with
        | error e => rfl
        | ok r =>
          simp only [Except.map, ok_bind]
          have hput : ((σ.alloc t2).2.alloc (Matrix.mk' n n 0)).2.put (σ.objects.length + 1) r =
              ((σ.alloc t2).2.alloc r).2 := by
            rw [← length_alloc σ t2, put_alloc]
          rw [hput, release_alloc, ← length_alloc σ t2, object_alloc_new]
  · simp only [ne_eq, hsq, not_false_eq_true, if_true]
    rfl

/-- C16. A call of `computeInverse` on a square matrix `M`, the object at the address
`self` of a store, returns a matrix `r`, the one that `Matrix.computeInverse` computes from
the state of `M`, and leaves the store as it found it: afterwards `M` has the same
dimensions and at every position the same element, as has every other object of the store;
so that a second call, made on the store that the first call left, returns the same matrix
`r` and again leaves the store as it was. -/
theorem computeInverse_twice [Field α] [DecidableEq α] (σ : Store α) (self : Nat)
    (hself : self < σ.objects.length)
    (hsq : (σ.object self).numRows = (σ.object self).numColumns) :
    ∃ (r : Matrix α) (σ₁ σ₂ : Store α),
      σ.computeInverse self = .ok (r, σ₁) ∧
      (σ.object self).computeInverse = .ok r ∧
      (σ₁.object self).numRows = (σ.object self).numRows ∧
      (σ₁.object self).numColumns = (σ.object self).numColumns ∧
      (∀ i j : Nat, σ₁.get self i j = σ.get self i j) ∧
      σ₁.objects = σ.objects ∧
      σ₁.computeInverse self = .ok (r, σ₂) ∧
      σ₂.objects = σ.objects := by
  obtain ⟨r, hr, _⟩ := Matrix.computeInverse_shape (σ.object self) hsq
  have hcall : σ.computeInverse self = .ok (r, σ) := by
    rw [computeInverse_at σ self hself, hr]
    rfl
  exact ⟨r, σ, σ, hcall, hr, rfl, rfl, fun _ _ => rfl, rfl, hcall, rfl⟩

/-- The hypotheses and the conclusion of C16 on the object `[[2, 0], [0, 2]]` of a store of
two objects, where the call returns `[[1/2, 0], [0, 1/2]]` and leaves both objects. -/
theorem computeInverse_twice_witness :
    (1 < twoMatrices.objects.length ∧
      (twoMatrices.object 1).numRows = (twoMatrices.object 1).numColumns) ∧
    twoMatrices.computeInverse 1 = .ok (halves, ⟨[ones, twos]⟩) ∧
    ∃ (r : Matrix ℚ) (σ₁ σ₂ : Store ℚ),
      twoMatrices.computeInverse 1 = .ok (r, σ₁) ∧
      (twoMatrices.object 1).computeInverse = .ok r ∧
      (σ₁.object 1).numRows = (twoMatrices.object 1).numRows ∧
      (σ₁.object 1).numColumns = (twoMatrices.object 1).numColumns ∧
      (∀ i j : Nat, σ₁.get 1 i j = twoMatrices.get 1 i j) ∧
      σ₁.objects = twoMatrices.objects ∧
      σ₁.computeInverse 1 = .ok (r, σ₂) ∧
      σ₂.objects = twoMatrices.objects :=
  ⟨⟨by decide, rfl⟩, by decide!, computeInverse_twice twoMatrices 1 (by decide) rfl⟩

end Store

end Circuit
